import Mathlib

/-!
# BadgerDB buffer manager (`src/src/buffer.cpp`)

A shallow embedding of `BufMgr` and of its public operations, followed by the
properties of the buffer pool that are proved about it.

* The frame arrays `bufDescTable` and `bufPool` are functions from the frame
  number; `numBufs` bounds the frames that exist.
* A C++ exception is a value of `BadgerDbException`; an operation returns an
  `Outcome`: the result (normal or exceptional) together with the state the
  manager is left in, since a thrown exception does not undo earlier writes.
* The `File` objects are external. Every call made on a file is appended to
  the field `calls`; what the file answers is given by a `FileLayer`.
* A file (the value of a non-null `File*`), a page number and a frame number
  (a `std::uint32_t` in the source) are natural numbers.
* The clock sweep of `allocBuf` is a `while` loop; it is run with fuel and
  returns `none` when the fuel runs out.
-/

namespace badgerdb

/-- Modelled from the spec: the `Page` collaborator (page.h is not part of
src/), "fixed-size opaque byte container carrying a page number". -/
structure Page where
  number : Nat
  data : Nat
deriving DecidableEq, Repr

/-- Modelled from the spec: the page number of a page that is none
(`Page::INVALID_NUMBER`); `Clear` "forgets" the page number by storing it. -/
def INVALID_NUMBER : Nat := 0

/-- Modelled from the spec: the frame descriptor `BufDesc` (buffer.h is not part of
src/), with the fields of spec section 3. `file` is the `File*` back-reference and
`none` is the null pointer; `pinCnt` is the "non-negative integer" of the spec. -/
structure BufDesc where
  file : Option Nat
  pageNo : Nat
  frameNo : Nat
  pinCnt : Nat
  dirty : Bool
  valid : Bool
  refbit : Bool
deriving DecidableEq, Repr

/-- Modelled from the spec: `BufDesc::Clear` (buffer.h is not part of src/), "reset to
empty: valid=false, pin_count=0, dirty=false, ref_bit=false, forget
file/page_no". The frame number is not touched. -/
def BufDesc.Clear (d : BufDesc) : BufDesc :=
  { d with pinCnt := 0, file := none, pageNo := INVALID_NUMBER, dirty := false,
           refbit := false, valid := false }

/-- Modelled from the spec: `BufDesc::Set` (buffer.h is not part of src/), "record
file/page_no, set valid=true, pin_count=1, dirty=false, ref_bit=true". -/
def BufDesc.Set (d : BufDesc) (file : Nat) (pageNum : Nat) : BufDesc :=
  { d with file := some file, pageNo := pageNum, pinCnt := 1, dirty := false,
           valid := true, refbit := true }

/-- Modelled from the spec: the exception classes (exceptions/*.h are not part of
src/). The constructors are the error kinds of spec section 7 under the names
buffer.cpp throws and catches; `FileException` stands for any failure raised
by the `File` collaborator. All of them derive from the class
`BadgerDbException`, which is what `catch (BadgerDbException e3)` in
`disposePage` names: that handler catches every value of this type. -/
inductive BadgerDbException where
  | BufferExceededException
  | PageNotPinnedException (pageNo : Nat) (frameNo : Nat)
  | PagePinnedException (pageNo : Nat) (frameNo : Nat)
  | BadBufferException (frameNo : Nat) (dirty valid refbit : Bool)
  | HashNotFoundException
  | HashAlreadyPresentException
  | FileException
deriving DecidableEq, Repr

/-- A call made on a `File` object. -/
inductive FileCall where
  | readPage (file : Nat) (pageNo : Nat)
  | writePage (file : Nat) (page : Page)
  | allocatePage (file : Nat)
  | deletePage (file : Nat) (pageNo : Nat)
deriving DecidableEq, Repr

/-- Modelled from the spec: the `File` collaborator of spec section 6.1 (file.h is not
part of src/). Each answer may depend on the calls made so far. `readPage` and
`allocatePage` answer `none`, `writePage` and `deletePage` answer `false`,
when the file raises an error. -/
structure FileLayer where
  readPage : List FileCall → Nat → Nat → Option Page
  writePage : List FileCall → Nat → Page → Bool
  allocatePage : List FileCall → Nat → Option Page
  deletePage : List FileCall → Nat → Nat → Bool

/-- Modelled from the spec: the page-identity index `BufHashTbl` (bufHashTbl.cpp is
not part of src/), "mapping (file, page_no) → frame_no. Keys are unique". -/
abbrev BufHashTbl := Nat × Nat → Option Nat

/-- Modelled from the spec: "lookup(file, page_no) → frame_no — succeeds iff an entry
exists; fails with NotFound otherwise". -/
def BufHashTbl.lookup (ht : BufHashTbl) (file : Nat) (pageNo : Nat) :
    Except BadgerDbException Nat :=
  match ht (file, pageNo) with
  | some frameNo => .ok frameNo
  | none => .error .HashNotFoundException

/-- Modelled from the spec: "insert(file, page_no, frame_no) — precondition: no entry
for (file, page_no) exists"; the table enforces the precondition by raising
`HashAlreadyPresentException`. -/
def BufHashTbl.insert (ht : BufHashTbl) (file : Nat) (pageNo : Nat) (frameNo : Nat) :
    Except BadgerDbException BufHashTbl :=
  match ht (file, pageNo) with
  | some _ => .error .HashAlreadyPresentException
  | none => .ok (fun k => if k = (file, pageNo) then some frameNo else ht k)

/-- Modelled from the spec: "remove(file, page_no) — fails with NotFound if absent". -/
def BufHashTbl.remove (ht : BufHashTbl) (file : Nat) (pageNo : Nat) :
    Except BadgerDbException BufHashTbl :=
  match ht (file, pageNo) with
  | some _ => .ok (fun k => if k = (file, pageNo) then none else ht k)
  | none => .error .HashNotFoundException

/-- The state of a `BufMgr` object, with the calls made on files so far. -/
structure BufMgr where
  numBufs : Nat
  bufDescTable : Nat → BufDesc
  bufPool : Nat → Page
  hashTable : BufHashTbl
  clockHand : Nat
  calls : List FileCall

/-- Result of an operation: what it returned or threw, and the state it left. -/
structure Outcome (α : Type) where
  res : Except BadgerDbException α
  st : BufMgr

/-- Assignment to `bufDescTable[i]`. -/
def BufMgr.setDesc (s : BufMgr) (i : Nat) (d : BufDesc) : BufMgr :=
  { s with bufDescTable := fun j => if j = i then d else s.bufDescTable j }

/-- Assignment to `bufPool[i]`. -/
def BufMgr.setPage (s : BufMgr) (i : Nat) (pg : Page) : BufMgr :=
  { s with bufPool := fun j => if j = i then pg else s.bufPool j }

/-- Call `file->writePage(pg)`. -/
def fileWritePage (env : FileLayer) (s : BufMgr) (file : Nat) (pg : Page) : Outcome Unit :=
  let s1 := { s with calls := s.calls ++ [FileCall.writePage file pg] }
  if env.writePage s.calls file pg = true then ⟨.ok (), s1⟩ else ⟨.error .FileException, s1⟩

/-- Call `file->deletePage(pageNo)`. -/
def fileDeletePage (env : FileLayer) (s : BufMgr) (file : Nat) (pageNo : Nat) :
    Outcome Unit :=
  let s1 := { s with calls := s.calls ++ [FileCall.deletePage file pageNo] }
  if env.deletePage s.calls file pageNo = true then ⟨.ok (), s1⟩
  else ⟨.error .FileException, s1⟩

/-- The constructor `BufMgr::BufMgr(bufs)`. The descriptors are default
constructed (cleared) and get their frame number; `clockHand = bufs - 1` is
computed in `std::uint32_t`. -/
def BufMgr.new (bufs : Nat) : BufMgr :=
  { numBufs := bufs
    bufDescTable := fun i =>
      { file := none, pageNo := INVALID_NUMBER, frameNo := i, pinCnt := 0, dirty := false,
        valid := false, refbit := false }
    bufPool := fun _ => ⟨INVALID_NUMBER, 0⟩
    hashTable := fun _ => none
    clockHand := (bufs + 4294967295) % 4294967296
    calls := [] }

/-- `BufMgr::advanceClock`: `clockHand = (clockHand + 1) % numBufs` in
`std::uint32_t`. -/
def advanceClock (s : BufMgr) : BufMgr :=
  { s with clockHand := (s.clockHand + 1) % 4294967296 % s.numBufs }

/-- The first loop of `allocBuf`, started at frame `i` with `n` frames left:
`true` when no frame with `pinCnt == 0` is met (`allPinned` stays true). -/
def scanPinned (s : BufMgr) : Nat → Nat → Bool
  | 0, _ => true
  | n + 1, i => if (s.bufDescTable i).pinCnt = 0 then false else scanPinned s n (i + 1)

/-- The eviction branch of the clock loop of `allocBuf` (the frame under the
clock hand is valid, its `refbit` is clear and `pinCnt == 0`): remove the page
from the hash table, write it back if dirty, clear the descriptor and return
the frame. `remove` of a null `file` finds no entry: only non-null files are
ever inserted. -/
def evict (env : FileLayer) (s : BufMgr) : Outcome Nat :=
  let c := s.clockHand
  let d := s.bufDescTable c
  match d.file with
  | none => ⟨.error .HashNotFoundException, s⟩
  | some f =>
    match s.hashTable.remove f d.pageNo with
    | .error e => ⟨.error e, s⟩
    | .ok ht =>
      let s1 := { s with hashTable := ht }
      let w := if d.dirty = true then fileWritePage env s1 f (s1.bufPool c) else ⟨.ok (), s1⟩
      match w.res with
      | .error e => ⟨.error e, w.st⟩
      | .ok _ => ⟨.ok c, w.st.setDesc c d.Clear⟩

/-- One iteration of the clock loop of `allocBuf`: either the loop is over
(`allocDone`, or an exception leaves it), or it goes on from a new state. -/
def sweepStep (env : FileLayer) (s0 : BufMgr) : Outcome Nat ⊕ BufMgr :=
  let s := advanceClock s0
  let c := s.clockHand
  let d := s.bufDescTable c
  if d.valid = false then
    .inl ⟨.ok c, s.setDesc c d.Clear⟩
  else if d.refbit = true then
    .inr (s.setDesc c { d with refbit := false })
  else if d.pinCnt = 0 then
    .inl (evict env s)
  else
    .inr s

/-- The clock loop `while (!allocDone)` of `allocBuf`, with fuel. -/
def sweep (env : FileLayer) : Nat → BufMgr → Option (Outcome Nat)
  | 0, _ => none
  | fuel + 1, s =>
    match sweepStep env s with
    | .inl o => some o
    | .inr s1 => sweep env fuel s1

/-- `BufMgr::allocBuf`. The clock loop gets `2 * numBufs` iterations of fuel. -/
def allocBuf (env : FileLayer) (s : BufMgr) : Option (Outcome Nat) :=
  if scanPinned s s.numBufs 0 = true then
    some ⟨.error .BufferExceededException, s⟩
  else
    sweep env (2 * s.numBufs) s

/-- `BufMgr::readPage`; the frame number returned stands for the pointer
`&bufPool[fnum]`. -/
def readPage (env : FileLayer) (s : BufMgr) (file : Nat) (pageNo : Nat) :
    Option (Outcome Nat) :=
  match s.hashTable.lookup file pageNo with
  | .ok fnum =>
    let d := s.bufDescTable fnum
    some ⟨.ok fnum, s.setDesc fnum { d with refbit := true, pinCnt := d.pinCnt + 1 }⟩
  | .error _ =>
    match allocBuf env s with
    | none => none
    | some a =>
      match a.res with
      | .error e => some ⟨.error e, a.st⟩
      | .ok fnum =>
        let s1 := { a.st with calls := a.st.calls ++ [FileCall.readPage file pageNo] }
        match env.readPage a.st.calls file pageNo with
        | none => some ⟨.error .FileException, s1⟩
        | some rPage =>
          let s2 := s1.setPage fnum rPage
          match s2.hashTable.insert file pageNo fnum with
          | .error e => some ⟨.error e, s2⟩
          | .ok ht =>
            let s3 := { s2 with hashTable := ht }
            some ⟨.ok fnum, s3.setDesc fnum ((s3.bufDescTable fnum).Set file pageNo)⟩

/-- `BufMgr::unPinPage`. -/
def unPinPage (s : BufMgr) (file : Nat) (pageNo : Nat) (dirty : Bool) : Outcome Unit :=
  match s.hashTable.lookup file pageNo with
  | .error _ => ⟨.ok (), s⟩
  | .ok fnum =>
    let d := s.bufDescTable fnum
    if d.pinCnt = 0 then
      ⟨.error (.PageNotPinnedException d.pageNo fnum), s⟩
    else
      let d1 := { d with pinCnt := d.pinCnt - 1 }
      ⟨.ok (), s.setDesc fnum (if dirty = true then { d1 with dirty := true } else d1)⟩

/-- The loop of `flushFile`, at frame `i` with `n` frames left. -/
def flushLoop (env : FileLayer) (file : Nat) : Nat → Nat → BufMgr → Outcome Unit
  | 0, _, s => ⟨.ok (), s⟩
  | n + 1, i, s =>
    let d := s.bufDescTable i
    if d.file = some file then
      if d.pinCnt > 0 then
        ⟨.error (.PagePinnedException d.pageNo d.frameNo), s⟩
      else
        let w := if d.dirty = true then fileWritePage env s file (s.bufPool i) else ⟨.ok (), s⟩
        match w.res with
        | .error e => ⟨.error e, w.st⟩
        | .ok _ =>
          match w.st.hashTable.remove file d.pageNo with
          | .error e => ⟨.error e, w.st⟩
          | .ok ht =>
            let s1 := { w.st with hashTable := ht }
            if d.valid = false then
              ⟨.error (.BadBufferException d.frameNo d.dirty d.valid d.refbit), s1⟩
            else
              flushLoop env file n (i + 1) (s1.setDesc i d.Clear)
    else
      flushLoop env file n (i + 1) s

/-- `BufMgr::flushFile`. -/
def flushFile (env : FileLayer) (s : BufMgr) (file : Nat) : Outcome Unit :=
  flushLoop env file s.numBufs 0 s

/-- `BufMgr::allocPage`; returns the new page number and the frame. -/
def allocPage (env : FileLayer) (s : BufMgr) (file : Nat) :
    Option (Outcome (Nat × Nat)) :=
  let s0 := { s with calls := s.calls ++ [FileCall.allocatePage file] }
  match env.allocatePage s.calls file with
  | none => some ⟨.error .FileException, s0⟩
  | some npage =>
    match allocBuf env s0 with
    | none => none
    | some a =>
      match a.res with
      | .error e => some ⟨.error e, a.st⟩
      | .ok fnum =>
        let s1 := a.st.setPage fnum npage
        match s1.hashTable.insert file npage.number fnum with
        | .error e => some ⟨.error e, s1⟩
        | .ok ht =>
          let s2 := { s1 with hashTable := ht }
          some ⟨.ok (npage.number, fnum),
            s2.setDesc fnum ((s2.bufDescTable fnum).Set file npage.number)⟩

/-- The `try` block of `disposePage`: the frame to dispose of, or the
exception thrown inside the block. -/
def disposeTry (s : BufMgr) (file : Nat) (PageNo : Nat) :
    Except BadgerDbException Nat :=
  match s.hashTable.lookup file PageNo with
  | .error e => .error e
  | .ok fnum =>
    if (s.bufDescTable fnum).pinCnt ≠ 0 then .error (.PagePinnedException PageNo fnum)
    else .ok fnum

/-- `BufMgr::disposePage`. The handler `catch (BadgerDbException e3)` sets
`check = false` for whatever the `try` block threw. -/
def disposePage (env : FileLayer) (s : BufMgr) (file : Nat) (PageNo : Nat) :
    Outcome Unit :=
  match disposeTry s file PageNo with
  | .error _ => ⟨.ok (), s⟩
  | .ok fnum =>
    match s.hashTable.remove file PageNo with
    | .error e => ⟨.error e, s⟩
    | .ok ht =>
      let s1 := { s with hashTable := ht }
      fileDeletePage env (s1.setDesc fnum (s1.bufDescTable fnum).Clear) file PageNo

/-- The loop of the destructor `BufMgr::~BufMgr`, at frame `i` with `n` frames
left: a frame that is valid and dirty is written to its file and cleared. A
null `file` cannot be called (the C++ is undefined there): the loop stops with
an error. -/
def destroyLoop (env : FileLayer) : Nat → Nat → BufMgr → Outcome Unit
  | 0, _, s => ⟨.ok (), s⟩
  | n + 1, i, s =>
    let d := s.bufDescTable i
    if d.valid = true then
      if d.dirty = true then
        match d.file with
        | none => ⟨.error .FileException, s⟩
        | some f =>
          let w := fileWritePage env s f (s.bufPool i)
          match w.res with
          | .error e => ⟨.error e, w.st⟩
          | .ok _ => destroyLoop env n (i + 1) (w.st.setDesc i d.Clear)
      else destroyLoop env n (i + 1) s
    else destroyLoop env n (i + 1) s

/-- The destructor `BufMgr::~BufMgr`, up to the release of the arrays. -/
def BufMgr.destructor (env : FileLayer) (s : BufMgr) : Outcome Unit :=
  destroyLoop env s.numBufs 0 s

/-! ## Predicates on states -/

/-- P1, index-descriptor agreement: every index entry `(f, p) → i` has
descriptor `i` valid with `file = f` and `page_no = p`, and every valid
descriptor `i` has the index entry `(file_i, page_no_i) → i`. -/
def P1 (s : BufMgr) : Prop :=
  (∀ f p i, s.hashTable (f, p) = some i →
    i < s.numBufs ∧ (s.bufDescTable i).valid = true ∧
      (s.bufDescTable i).file = some f ∧ (s.bufDescTable i).pageNo = p) ∧
  (∀ i, i < s.numBufs → (s.bufDescTable i).valid = true →
    ∃ f, (s.bufDescTable i).file = some f ∧
      s.hashTable (f, (s.bufDescTable i).pageNo) = some i)

/-- P2: a descriptor that is not valid has `pin_count = 0` and is not dirty. -/
def P2 (s : BufMgr) : Prop :=
  ∀ i, i < s.numBufs → (s.bufDescTable i).valid = false →
    (s.bufDescTable i).pinCnt = 0 ∧ (s.bufDescTable i).dirty = false

/-- A descriptor that is not valid carries no file, which is how `Clear` and the
constructor leave it. -/
def NoStaleFile (s : BufMgr) : Prop :=
  ∀ i, i < s.numBufs → (s.bufDescTable i).valid = false → (s.bufDescTable i).file = none

/-- Every frame of the pool is pinned. -/
def AllPinned (s : BufMgr) : Prop :=
  ∀ i, i < s.numBufs → 0 < (s.bufDescTable i).pinCnt

/-- The number of `deletePage(pageNo)` calls that `file` has received. -/
def deleteCalls (l : List FileCall) (file : Nat) (pageNo : Nat) : Nat :=
  l.count (FileCall.deletePage file pageNo)

/-- A file layer in which every call succeeds: a page read has no data, and the
page allocated after `n` calls has number `n + 1`. -/
def plainFiles : FileLayer :=
  { readPage := fun _ _ p => some ⟨p, 0⟩
    writePage := fun _ _ _ => true
    allocatePage := fun h _ => some ⟨h.length + 1, 0⟩
    deletePage := fun _ _ _ => true }

/-- A public operation of the buffer manager with its arguments. -/
inductive Op where
  | readPage (file : Nat) (pageNo : Nat)
  | allocPage (file : Nat)
  | unPinPage (file : Nat) (pageNo : Nat) (dirty : Bool)
  | flushFile (file : Nat)
  | disposePage (file : Nat) (pageNo : Nat)

/-- The state an operation leaves, whether it returns or throws; `none` when
the clock loop ran out of fuel. -/
def Op.run (env : FileLayer) (s : BufMgr) : Op → Option BufMgr
  | .readPage file pageNo => (badgerdb.readPage env s file pageNo).map (fun o => o.st)
  | .allocPage file => (badgerdb.allocPage env s file).map (fun o => o.st)
  | .unPinPage file pageNo dirty => some (badgerdb.unPinPage s file pageNo dirty).st
  | .flushFile file => some (badgerdb.flushFile env s file).st
  | .disposePage file pageNo => some (badgerdb.disposePage env s file pageNo).st

/-! ## Auxiliary definitions -/

/-- The state `s1` differs from `s` at most in the clock hand and in the
reference bits. -/
def RefOnly (s s1 : BufMgr) : Prop :=
  s1.numBufs = s.numBufs ∧ s1.hashTable = s.hashTable ∧ s1.bufPool = s.bufPool ∧
  s1.calls = s.calls ∧
  ∀ j, s1.bufDescTable j = { s.bufDescTable j with refbit := (s1.bufDescTable j).refbit }

/-- Frame `i` of `s` is still there in `s1`: it is valid, holds the same
file and page number, and the index maps them to `i`. -/
def Kept (s s1 : BufMgr) (i : Nat) : Prop :=
  (s1.bufDescTable i).valid = true ∧
  (s1.bufDescTable i).file = (s.bufDescTable i).file ∧
  (s1.bufDescTable i).pageNo = (s.bufDescTable i).pageNo ∧
  ∃ f, (s.bufDescTable i).file = some f ∧ s1.hashTable (f, (s.bufDescTable i).pageNo) = some i

/-- The state after one iteration of the loop of `flushFile` that flushes frame
`k` without an exception: the page is written if dirty, its index entry
removed and the descriptor cleared. -/
def flushFrame (s : BufMgr) (file k : Nat) : BufMgr :=
  ({ s with
      hashTable := fun x =>
        if x = (file, (s.bufDescTable k).pageNo) then none else s.hashTable x
      calls :=
        if (s.bufDescTable k).dirty = true then
          s.calls ++ [FileCall.writePage file (s.bufPool k)]
        else s.calls }).setDesc k (s.bufDescTable k).Clear

/-- The `writePage` calls that flushing `file` makes over the frames listed in
`l`: one for each frame of `file` whose dirty flag is set, in the order of `l`. -/
def writesOf (s : BufMgr) (file : Nat) (l : List Nat) : List FileCall :=
  (l.filter (fun i =>
      decide ((s.bufDescTable i).file = some file) && (s.bufDescTable i).dirty)).map
    (fun i => FileCall.writePage file (s.bufPool i))

/-- The state `s2` is `s` after the frames of `file` among `k, ..., k + m - 1` have
been flushed: their dirty pages written, their index entries removed, their
descriptors cleared, and nothing else changed. -/
def Flushed (s s2 : BufMgr) (file k m : Nat) : Prop :=
  s2.numBufs = s.numBufs ∧ s2.bufPool = s.bufPool ∧ s2.clockHand = s.clockHand ∧
  s2.calls = s.calls ++ writesOf s file (List.range' k m) ∧
  (∀ j, s2.bufDescTable j =
    if k ≤ j ∧ j < k + m ∧ (s.bufDescTable j).file = some file then (s.bufDescTable j).Clear
    else s.bufDescTable j) ∧
  (∀ x, s2.hashTable x =
    match s.hashTable x with
    | some i => if k ≤ i ∧ i < k + m ∧ (s.bufDescTable i).file = some file then none else some i
    | none => none)

/-- The number of clock advances after which the hand of `s` stands on frame
`j` for the first time. -/
def clockDist (s : BufMgr) (j : Nat) : Nat :=
  if (advanceClock s).clockHand ≤ j then j - (advanceClock s).clockHand + 1
  else j + s.numBufs - (advanceClock s).clockHand + 1

/-- A bound on the clock advances `allocBuf` makes when frame `j` is unpinned:
the hand reaches `j`, and once more if `j` is valid with its reference bit
set. -/
def sweepBound (s : BufMgr) (j : Nat) : Nat :=
  clockDist s j +
    (if (s.bufDescTable j).valid = true ∧ (s.bufDescTable j).refbit = true then s.numBufs
     else 0)

/-- The `deletePage` calls of a list of calls. -/
def deletesOf (l : List FileCall) : List FileCall :=
  l.filter (fun c => match c with
    | FileCall.deletePage _ _ => true
    | _ => false)

/-- The outcome of a public operation, without the value returned; `none` when
the clock loop ran out of fuel. -/
def Op.exec (env : FileLayer) (s : BufMgr) : Op → Option (Outcome Unit)
  | .readPage file pageNo =>
    (badgerdb.readPage env s file pageNo).map (fun o => ⟨o.res.map (fun _ => ()), o.st⟩)
  | .allocPage file =>
    (badgerdb.allocPage env s file).map (fun o => ⟨o.res.map (fun _ => ()), o.st⟩)
  | .unPinPage file pageNo dirty => some (badgerdb.unPinPage s file pageNo dirty)
  | .flushFile file => some (badgerdb.flushFile env s file)
  | .disposePage file pageNo => some (badgerdb.disposePage env s file pageNo)

/-- The first half of P1: every index entry `(f, p) → i` names a frame `i` of
the pool whose descriptor is valid with `file = f` and `page_no = p`. -/
def IndexSound (s : BufMgr) : Prop :=
  ∀ f p i, s.hashTable (f, p) = some i →
    i < s.numBufs ∧ (s.bufDescTable i).valid = true ∧
      (s.bufDescTable i).file = some f ∧ (s.bufDescTable i).pageNo = p

/-- The states reached from a freshly constructed pool by public operations,
whether they return or throw. -/
inductive Reachable (env : FileLayer) : BufMgr → Prop where
  | fresh (bufs : Nat) : Reachable env (BufMgr.new bufs)
  | step (s s1 : BufMgr) (op : Op) : Reachable env s → op.run env s = some s1 →
      Reachable env s1

/-- Frame `j` is immediately eligible: it is not valid, or it is valid with
clear reference bit and pin count 0. -/
def Eligible (s : BufMgr) (j : Nat) : Prop :=
  (s.bufDescTable j).valid = false ∨
  ((s.bufDescTable j).valid = true ∧ (s.bufDescTable j).refbit = false ∧
    (s.bufDescTable j).pinCnt = 0)

/-- The `writePage` calls of the destructor over the frames listed in `l`: one
for each frame that is valid and dirty, to the file of its descriptor, in the
order of `l`. -/
def destroyWrites (s : BufMgr) (l : List Nat) : List FileCall :=
  (l.filter (fun i => (s.bufDescTable i).valid && (s.bufDescTable i).dirty)).map
    (fun i => FileCall.writePage ((s.bufDescTable i).file.getD 0) (s.bufPool i))

/-- How `Clear`, `Set` and the constructor leave the descriptors: each one
records its own frame number, and one that is not valid carries no file. -/
def Tidy (s : BufMgr) : Prop :=
  ∀ i, (s.bufDescTable i).frameNo = i ∧
    ((s.bufDescTable i).valid = false → (s.bufDescTable i).file = none)

/-- The state after the operations of `l`, run in order from `s`, each
returning or throwing; an operation whose clock loop runs out of fuel leaves
the state as it is. -/
def runOps (env : FileLayer) : List Op → BufMgr → BufMgr
  | [], s => s
  | op :: l, s => runOps env l ((op.run env s).getD s)

/-! ## Example pools -/

/-- A pool of two frames: frame 0 holds page 10 of file 1, pinned once and
dirty; frame 1 is empty. -/
def residentPool : BufMgr :=
  { numBufs := 2
    bufDescTable := fun i =>
      if i = 0 then
        { file := some 1, pageNo := 10, frameNo := 0, pinCnt := 1, dirty := true,
          valid := true, refbit := false }
      else
        { file := none, pageNo := INVALID_NUMBER, frameNo := i, pinCnt := 0, dirty := false,
          valid := false, refbit := false }
    bufPool := fun i => if i = 0 then ⟨10, 7⟩ else ⟨INVALID_NUMBER, 0⟩
    hashTable := fun k => if k = (1, 10) then some 0 else none
    clockHand := 0
    calls := [FileCall.readPage 1 10] }

/-- A pool of one frame, which holds page 10 of file 1 pinned once. -/
def fullPool : BufMgr :=
  { numBufs := 1
    bufDescTable := fun i =>
      { file := some 1, pageNo := 10, frameNo := i, pinCnt := 1, dirty := false,
        valid := true, refbit := true }
    bufPool := fun _ => ⟨10, 0⟩
    hashTable := fun k => if k = (1, 10) then some 0 else none
    clockHand := 0
    calls := [FileCall.readPage 1 10] }

/-- A pool of three frames holding pages 10, 11 and 12 of file 1: pages 10 and
12 are unpinned and dirty, page 11 is pinned twice. -/
def mixedPool : BufMgr :=
  { numBufs := 3
    bufDescTable := fun i =>
      if i = 0 then
        { file := some 1, pageNo := 10, frameNo := 0, pinCnt := 0, dirty := true,
          valid := true, refbit := true }
      else if i = 1 then
        { file := some 1, pageNo := 11, frameNo := 1, pinCnt := 2, dirty := false,
          valid := true, refbit := true }
      else
        { file := some 1, pageNo := 12, frameNo := i, pinCnt := 0, dirty := true,
          valid := true, refbit := false }
    bufPool := fun i => ⟨10 + i, 0⟩
    hashTable := fun k =>
      if k = (1, 10) then some 0 else if k = (1, 11) then some 1
      else if k = (1, 12) then some 2 else none
    clockHand := 2
    calls := [] }

/-- A pool of two frames: frame 0 holds page 10 of file 1, unpinned and dirty;
frame 1 holds page 5 of file 2, pinned once and clean. -/
def dirtyPool : BufMgr :=
  { numBufs := 2
    bufDescTable := fun i =>
      if i = 0 then
        { file := some 1, pageNo := 10, frameNo := 0, pinCnt := 0, dirty := true,
          valid := true, refbit := true }
      else
        { file := some 2, pageNo := 5, frameNo := i, pinCnt := 1, dirty := false,
          valid := true, refbit := true }
    bufPool := fun i => if i = 0 then ⟨10, 3⟩ else ⟨5, 4⟩
    hashTable := fun k => if k = (1, 10) then some 0 else if k = (2, 5) then some 1 else none
    clockHand := 1
    calls := [] }

/-- A pool of one frame that is valid, unpinned, with clear reference bit, for
page 7 of file 1, while the index is empty. -/
def orphanPool : BufMgr :=
  { numBufs := 1
    bufDescTable := fun i =>
      { file := some 1, pageNo := 7, frameNo := i, pinCnt := 0, dirty := false,
        valid := true, refbit := false }
    bufPool := fun _ => ⟨7, 0⟩
    hashTable := fun _ => none
    clockHand := 0
    calls := [] }

/-- A pool of one frame that is not valid and yet has pin count 1. -/
def pinnedEmpty : BufMgr :=
  { numBufs := 1
    bufDescTable := fun i =>
      { file := none, pageNo := INVALID_NUMBER, frameNo := i, pinCnt := 1, dirty := false,
        valid := false, refbit := false }
    bufPool := fun _ => ⟨INVALID_NUMBER, 0⟩
    hashTable := fun _ => none
    clockHand := 0
    calls := [] }

/-- A pool of one frame that is valid, unpinned, with its reference bit set,
for page 7 of file 1, while the index is empty. -/
def orphanRef : BufMgr :=
  { numBufs := 1
    bufDescTable := fun i =>
      { file := some 1, pageNo := 7, frameNo := i, pinCnt := 0, dirty := false,
        valid := true, refbit := true }
    bufPool := fun _ => ⟨7, 0⟩
    hashTable := fun _ => none
    clockHand := 0
    calls := [] }

/-- A pool of two frames holding pages 10 (dirty) and 11 (clean) of file 1,
both unpinned with their reference bit set; the clock hand is on frame 1. -/
def warmPool : BufMgr :=
  { numBufs := 2
    bufDescTable := fun i =>
      if i = 0 then
        { file := some 1, pageNo := 10, frameNo := 0, pinCnt := 0, dirty := true,
          valid := true, refbit := true }
      else
        { file := some 1, pageNo := 11, frameNo := i, pinCnt := 0, dirty := false,
          valid := true, refbit := true }
    bufPool := fun i => if i = 0 then ⟨10, 5⟩ else ⟨11, 6⟩
    hashTable := fun k => if k = (1, 10) then some 0 else if k = (1, 11) then some 1 else none
    clockHand := 1
    calls := [] }

/-- The pool of three frames after `readPage(1, 10)` and
`unPinPage(1, 10, true)` on a fresh pool, every file call succeeding: page 10
of file 1 is in frame 0, unpinned and dirty. -/
def idlePool : BufMgr :=
  runOps plainFiles [Op.readPage 1 10, Op.unPinPage 1 10 true] (BufMgr.new 3)

/-- The pool of three frames after `readPage(1, 10)`, `unPinPage(1, 10, true)`
and `readPage(1, 11)` on a fresh pool, every file call succeeding: page 10 of
file 1 is in frame 0, unpinned and dirty, and page 11 is in frame 1, pinned
once. -/
def busyPool : BufMgr :=
  runOps plainFiles [Op.readPage 1 10, Op.unPinPage 1 10 true, Op.readPage 1 11]
    (BufMgr.new 3)

/-- A file layer like `plainFiles`, except that every `writePage` fails. -/
def brokenDisk : FileLayer :=
  { readPage := fun _ _ p => some ⟨p, 0⟩
    writePage := fun _ _ _ => false
    allocatePage := fun h _ => some ⟨h.length + 1, 0⟩
    deletePage := fun _ _ _ => true }

/-! ## Basic facts -/

theorem scanPinned_true (s : BufMgr) (n : Nat) :
    ∀ i, (∀ j, i ≤ j → j < i + n → (s.bufDescTable j).pinCnt ≠ 0) → scanPinned s n i = true := by
  induction n with
  | zero => intro i _; rfl
  | succ n ih =>
    intro i h
    have h0 : (s.bufDescTable i).pinCnt ≠ 0 := h i (Nat.le_refl i) (by omega)
    simp only [scanPinned, h0, if_false]
    exact ih (i + 1) (fun j hj1 hj2 => h j (by omega) (by omega))

theorem scanPinned_false (s : BufMgr) (n : Nat) :
    ∀ i, scanPinned s n i = false → ∃ j, i ≤ j ∧ j < i + n ∧ (s.bufDescTable j).pinCnt = 0 := by
  induction n with
  | zero => intro i h; simp [scanPinned] at h
  | succ n ih =>
    intro i h
    by_cases h0 : (s.bufDescTable i).pinCnt = 0
    · exact ⟨i, Nat.le_refl i, by omega, h0⟩
    · simp only [scanPinned, h0, if_false] at h
      obtain ⟨j, hj1, hj2, hj3⟩ := ih (i + 1) h
      exact ⟨j, by omega, by omega, hj3⟩

theorem allocBuf_all_pinned (env : FileLayer) (s : BufMgr) (h : AllPinned s) :
    allocBuf env s = some ⟨.error .BufferExceededException, s⟩ := by
  have hs : scanPinned s s.numBufs 0 = true :=
    scanPinned_true s s.numBufs 0 (fun j _ hj => Nat.pos_iff_ne_zero.mp (h j (by omega)))
  simp [allocBuf, hs]

theorem scanPinned_pinned (s : BufMgr) (n : Nat) :
    ∀ i, scanPinned s n i = true → ∀ j, i ≤ j → j < i + n → (s.bufDescTable j).pinCnt ≠ 0 := by
  induction n with
  | zero => intro i _ j h1 h2; omega
  | succ n ih =>
    intro i h j h1 h2
    by_cases h0 : (s.bufDescTable i).pinCnt = 0
    · simp [scanPinned, h0] at h
    · simp only [scanPinned, h0, if_false] at h
      by_cases hij : j = i
      · subst hij; exact h0
      · exact ih (i + 1) h j (by omega) (by omega)

/-! ## Projections of the state updates -/

@[simp]
theorem advanceClock_numBufs (s : BufMgr) : (advanceClock s).numBufs = s.numBufs := rfl

@[simp]
theorem advanceClock_bufDescTable (s : BufMgr) :
    (advanceClock s).bufDescTable = s.bufDescTable := rfl

@[simp]
theorem advanceClock_bufPool (s : BufMgr) : (advanceClock s).bufPool = s.bufPool := rfl

@[simp]
theorem advanceClock_hashTable (s : BufMgr) :
    (advanceClock s).hashTable = s.hashTable := rfl

@[simp]
theorem advanceClock_calls (s : BufMgr) : (advanceClock s).calls = s.calls := rfl

@[simp]
theorem setDesc_numBufs (s : BufMgr) (i : Nat) (d : BufDesc) :
    (s.setDesc i d).numBufs = s.numBufs := rfl

@[simp]
theorem setDesc_bufDescTable (s : BufMgr) (i : Nat) (d : BufDesc) (j : Nat) :
    (s.setDesc i d).bufDescTable j = if j = i then d else s.bufDescTable j := rfl

@[simp]
theorem setDesc_bufPool (s : BufMgr) (i : Nat) (d : BufDesc) :
    (s.setDesc i d).bufPool = s.bufPool := rfl

@[simp]
theorem setDesc_hashTable (s : BufMgr) (i : Nat) (d : BufDesc) :
    (s.setDesc i d).hashTable = s.hashTable := rfl

@[simp]
theorem setDesc_clockHand (s : BufMgr) (i : Nat) (d : BufDesc) :
    (s.setDesc i d).clockHand = s.clockHand := rfl

@[simp]
theorem setDesc_calls (s : BufMgr) (i : Nat) (d : BufDesc) :
    (s.setDesc i d).calls = s.calls := rfl

@[simp]
theorem setPage_numBufs (s : BufMgr) (i : Nat) (pg : Page) :
    (s.setPage i pg).numBufs = s.numBufs := rfl

@[simp]
theorem setPage_bufDescTable (s : BufMgr) (i : Nat) (pg : Page) :
    (s.setPage i pg).bufDescTable = s.bufDescTable := rfl

@[simp]
theorem setPage_bufPool (s : BufMgr) (i : Nat) (pg : Page) (j : Nat) :
    (s.setPage i pg).bufPool j = if j = i then pg else s.bufPool j := rfl

@[simp]
theorem setPage_hashTable (s : BufMgr) (i : Nat) (pg : Page) :
    (s.setPage i pg).hashTable = s.hashTable := rfl

@[simp]
theorem setPage_clockHand (s : BufMgr) (i : Nat) (pg : Page) :
    (s.setPage i pg).clockHand = s.clockHand := rfl

@[simp]
theorem setPage_calls (s : BufMgr) (i : Nat) (pg : Page) :
    (s.setPage i pg).calls = s.calls := rfl

/-! ## The clock loop -/

theorem RefOnly.same (s : BufMgr) : RefOnly s s :=
  ⟨rfl, rfl, rfl, rfl, fun _ => rfl⟩

theorem RefOnly.comp {s s1 s2 : BufMgr} (h1 : RefOnly s s1) (h2 : RefOnly s1 s2) :
    RefOnly s s2 := by
  obtain ⟨a1, a2, a3, a4, a5⟩ := h1
  obtain ⟨b1, b2, b3, b4, b5⟩ := h2
  refine ⟨b1.trans a1, b2.trans a2, b3.trans a3, b4.trans a4, fun j => ?_⟩
  rw [b5 j, a5 j]

theorem RefOnly.advance (s : BufMgr) : RefOnly s (advanceClock s) :=
  ⟨rfl, rfl, rfl, rfl, fun _ => rfl⟩

theorem RefOnly.fields {s s1 : BufMgr} (h : RefOnly s s1) (j : Nat) :
    (s1.bufDescTable j).valid = (s.bufDescTable j).valid ∧
    (s1.bufDescTable j).file = (s.bufDescTable j).file ∧
    (s1.bufDescTable j).pageNo = (s.bufDescTable j).pageNo ∧
    (s1.bufDescTable j).pinCnt = (s.bufDescTable j).pinCnt ∧
    (s1.bufDescTable j).dirty = (s.bufDescTable j).dirty ∧
    (s1.bufDescTable j).frameNo = (s.bufDescTable j).frameNo := by
  have h5 := h.2.2.2.2 j
  refine ⟨?_, ?_, ?_, ?_, ?_, ?_⟩ <;> rw [h5]

theorem advanceClock_lt (s : BufMgr) (h : 0 < s.numBufs) :
    (advanceClock s).clockHand < (advanceClock s).numBufs :=
  Nat.mod_lt _ h

theorem sweepStep_inr (env : FileLayer) (s s1 : BufMgr) (h : sweepStep env s = .inr s1) :
    RefOnly s s1 := by
  unfold sweepStep at h
  simp only at h
  split at h
  · simp at h
  · split at h
    · simp only [Sum.inr.injEq] at h
      subst h
      refine ⟨rfl, rfl, rfl, rfl, fun j => ?_⟩
      by_cases hj : j = (advanceClock s).clockHand
      · subst hj; simp
      · simp [hj]
    · split at h
      · simp at h
      · simp only [Sum.inr.injEq] at h
        subst h
        exact RefOnly.advance s

theorem sweepStep_inl (env : FileLayer) (s : BufMgr) (o : Outcome Nat)
    (h : sweepStep env s = .inl o) :
    (((advanceClock s).bufDescTable (advanceClock s).clockHand).valid = false ∧
      o = ⟨.ok (advanceClock s).clockHand,
        (advanceClock s).setDesc (advanceClock s).clockHand
          ((advanceClock s).bufDescTable (advanceClock s).clockHand).Clear⟩) ∨
    (((advanceClock s).bufDescTable (advanceClock s).clockHand).valid = true ∧
      ((advanceClock s).bufDescTable (advanceClock s).clockHand).refbit = false ∧
      ((advanceClock s).bufDescTable (advanceClock s).clockHand).pinCnt = 0 ∧
      o = evict env (advanceClock s)) := by
  unfold sweepStep at h
  simp only at h
  split at h
  · rename_i hv
    simp only [Sum.inl.injEq] at h
    exact Or.inl ⟨hv, h.symm⟩
  · rename_i hv
    split at h
    · simp at h
    · rename_i hr
      split at h
      · rename_i hp
        simp only [Sum.inl.injEq] at h
        exact Or.inr ⟨by simpa using hv, by simpa using hr, hp, h.symm⟩
      · simp at h

/-- What the clock loop returns: it stops in a state `s1` that differs from the
start only in the clock hand and in reference bits, at a frame that is not
valid, which it clears and returns, or at a valid frame with clear reference
bit and pin count 0, which it evicts. -/
theorem sweep_some (env : FileLayer) (fuel : Nat) :
    ∀ (s : BufMgr) (o : Outcome Nat), 0 < s.numBufs → sweep env fuel s = some o →
    ∃ s1, RefOnly s s1 ∧ s1.clockHand < s1.numBufs ∧
      (((s1.bufDescTable s1.clockHand).valid = false ∧
          o = ⟨.ok s1.clockHand, s1.setDesc s1.clockHand (s1.bufDescTable s1.clockHand).Clear⟩) ∨
       ((s1.bufDescTable s1.clockHand).valid = true ∧
          (s1.bufDescTable s1.clockHand).refbit = false ∧
          (s1.bufDescTable s1.clockHand).pinCnt = 0 ∧ o = evict env s1)) := by
  induction fuel with
  | zero => intro s o _ h; simp [sweep] at h
  | succ fuel ih =>
    intro s o hN h
    simp only [sweep] at h
    cases hs : sweepStep env s with
    | inl o1 =>
      simp only [hs, Option.some.injEq] at h
      subst h
      exact ⟨advanceClock s, RefOnly.advance s, advanceClock_lt s hN, sweepStep_inl env s o1 hs⟩
    | inr s2 =>
      simp only [hs] at h
      have hr := sweepStep_inr env s s2 hs
      obtain ⟨s1, h1, h2, h3⟩ := ih s2 o (by rw [hr.1]; exact hN) h
      exact ⟨s1, hr.comp h1, h2, h3⟩

theorem RefOnly.P1 {s s1 : BufMgr} (h : RefOnly s s1) (hP : P1 s) : P1 s1 := by
  obtain ⟨hn, hh, _, _, _⟩ := id h
  refine ⟨fun f p i hi => ?_, fun i hi hv => ?_⟩
  · rw [hh] at hi
    obtain ⟨a, b, c, d⟩ := hP.1 f p i hi
    obtain ⟨e1, e2, e3, _⟩ := h.fields i
    exact ⟨by rw [hn]; exact a, by rw [e1]; exact b, by rw [e2]; exact c, by rw [e3]; exact d⟩
  · obtain ⟨e1, e2, e3, _⟩ := h.fields i
    rw [hn] at hi
    rw [e1] at hv
    obtain ⟨f, hf, hk⟩ := hP.2 i hi hv
    exact ⟨f, by rw [e2]; exact hf, by rw [hh, e3]; exact hk⟩

theorem RefOnly.P2 {s s1 : BufMgr} (h : RefOnly s s1) (hP : P2 s) : P2 s1 := by
  intro i hi hv
  obtain ⟨e1, _, _, e4, e5, _⟩ := h.fields i
  rw [h.1] at hi
  rw [e1] at hv
  rw [e4, e5]
  exact hP i hi hv

theorem RefOnly.NoStaleFile {s s1 : BufMgr} (h : RefOnly s s1) (hP : NoStaleFile s) :
    NoStaleFile s1 := by
  intro i hi hv
  obtain ⟨e1, e2, _⟩ := h.fields i
  rw [h.1] at hi
  rw [e1] at hv
  rw [e2]
  exact hP i hi hv

/-- What `evict` does at a valid frame of a state that satisfies P1. -/
theorem evict_of_P1 (env : FileLayer) (s : BufMgr) (hP : P1 s) (hc : s.clockHand < s.numBufs)
    (hv : (s.bufDescTable s.clockHand).valid = true) :
    ∃ f, (s.bufDescTable s.clockHand).file = some f ∧
      s.hashTable (f, (s.bufDescTable s.clockHand).pageNo) = some s.clockHand ∧
      (((s.bufDescTable s.clockHand).dirty = false ∧
        evict env s = ⟨.ok s.clockHand,
          ({ s with hashTable := fun k =>
              if k = (f, (s.bufDescTable s.clockHand).pageNo) then none else s.hashTable k }).setDesc
            s.clockHand (s.bufDescTable s.clockHand).Clear⟩) ∨
       ((s.bufDescTable s.clockHand).dirty = true ∧
        env.writePage s.calls f (s.bufPool s.clockHand) = true ∧
        evict env s = ⟨.ok s.clockHand,
          ({ s with
              hashTable := fun k =>
                if k = (f, (s.bufDescTable s.clockHand).pageNo) then none else s.hashTable k
              calls := s.calls ++ [FileCall.writePage f (s.bufPool s.clockHand)] }).setDesc
            s.clockHand (s.bufDescTable s.clockHand).Clear⟩) ∨
       ((s.bufDescTable s.clockHand).dirty = true ∧
        env.writePage s.calls f (s.bufPool s.clockHand) = false ∧
        evict env s = ⟨.error .FileException,
          { s with
              hashTable := fun k =>
                if k = (f, (s.bufDescTable s.clockHand).pageNo) then none else s.hashTable k
              calls := s.calls ++ [FileCall.writePage f (s.bufPool s.clockHand)] }⟩)) := by
  obtain ⟨f, hf, hk⟩ := hP.2 s.clockHand hc hv
  refine ⟨f, hf, hk, ?_⟩
  cases hd : (s.bufDescTable s.clockHand).dirty with
  | false =>
    left
    simp [evict, hf, hk, BufHashTbl.remove, hd]
  | true =>
    right
    cases hw : env.writePage s.calls f (s.bufPool s.clockHand) with
    | true =>
      left
      simp [evict, hf, hk, BufHashTbl.remove, hd, fileWritePage, hw]
    | false =>
      right
      simp [evict, hf, hk, BufHashTbl.remove, hd, fileWritePage, hw]

/-- What `allocBuf` returns in a state that satisfies P1: `BufferExceededException`
with the state untouched, or the outcome of the clock loop, which stops in a
state `s1` (the start up to clock hand and reference bits) either at a frame
that is not valid or at an unpinned valid frame with clear reference bit, whose
index entry it removes and whose page it writes if dirty. -/
theorem allocBuf_cases (env : FileLayer) (s : BufMgr) (o : Outcome Nat) (hP : P1 s)
    (h : allocBuf env s = some o) :
    (AllPinned s ∧ o = ⟨.error .BufferExceededException, s⟩) ∨
    ∃ s1, RefOnly s s1 ∧ s1.clockHand < s1.numBufs ∧
      (((s1.bufDescTable s1.clockHand).valid = false ∧
          o = ⟨.ok s1.clockHand, s1.setDesc s1.clockHand (s1.bufDescTable s1.clockHand).Clear⟩) ∨
       ((s1.bufDescTable s1.clockHand).valid = true ∧
          (s1.bufDescTable s1.clockHand).refbit = false ∧
          (s1.bufDescTable s1.clockHand).pinCnt = 0 ∧
          ∃ f, (s1.bufDescTable s1.clockHand).file = some f ∧
            s1.hashTable (f, (s1.bufDescTable s1.clockHand).pageNo) = some s1.clockHand ∧
            (((s1.bufDescTable s1.clockHand).dirty = false ∧
              o = ⟨.ok s1.clockHand,
                ({ s1 with hashTable := fun k =>
                    if k = (f, (s1.bufDescTable s1.clockHand).pageNo) then none
                    else s1.hashTable k }).setDesc
                  s1.clockHand (s1.bufDescTable s1.clockHand).Clear⟩) ∨
             ((s1.bufDescTable s1.clockHand).dirty = true ∧
              env.writePage s1.calls f (s1.bufPool s1.clockHand) = true ∧
              o = ⟨.ok s1.clockHand,
                ({ s1 with
                    hashTable := fun k =>
                      if k = (f, (s1.bufDescTable s1.clockHand).pageNo) then none
                      else s1.hashTable k
                    calls := s1.calls ++ [FileCall.writePage f (s1.bufPool s1.clockHand)] }).setDesc
                  s1.clockHand (s1.bufDescTable s1.clockHand).Clear⟩) ∨
             ((s1.bufDescTable s1.clockHand).dirty = true ∧
              env.writePage s1.calls f (s1.bufPool s1.clockHand) = false ∧
              o = ⟨.error .FileException,
                { s1 with
                    hashTable := fun k =>
                      if k = (f, (s1.bufDescTable s1.clockHand).pageNo) then none
                      else s1.hashTable k
                    calls := s1.calls ++ [FileCall.writePage f (s1.bufPool s1.clockHand)] }⟩)))) := by
  unfold allocBuf at h
  cases hs : scanPinned s s.numBufs 0 with
  | true =>
    left
    simp only [hs, if_true, Option.some.injEq] at h
    refine ⟨fun i hi => ?_, h.symm⟩
    by_contra hc
    have h0 : (s.bufDescTable i).pinCnt = 0 := by omega
    exact absurd hs (by
      intro hs
      have := scanPinned_pinned s s.numBufs 0 hs i (Nat.zero_le i) (by omega)
      exact this h0)
  | false =>
    right
    simp only [hs] at h
    obtain ⟨j, _, hj, _⟩ := scanPinned_false s s.numBufs 0 hs
    have hN : 0 < s.numBufs := by omega
    obtain ⟨s1, hr, hc, hcase⟩ := sweep_some env (2 * s.numBufs) s o hN (by simpa using h)
    refine ⟨s1, hr, hc, ?_⟩
    rcases hcase with hcase | ⟨hv, hrb, hp, ho⟩
    · exact Or.inl hcase
    · right
      refine ⟨hv, hrb, hp, ?_⟩
      obtain ⟨f, hf, hk, hev⟩ := evict_of_P1 env s1 (hr.P1 hP) hc hv
      refine ⟨f, hf, hk, ?_⟩
      rw [ho]
      exact hev

/-! ## Invariants under clearing and filling a frame -/

theorem P1.key_iff {s : BufMgr} (hP : P1 s) {k f : Nat} (hk : k < s.numBufs)
    (hv : (s.bufDescTable k).valid = true) (hf : (s.bufDescTable k).file = some f)
    (x : Nat × Nat) : s.hashTable x = some k ↔ x = (f, (s.bufDescTable k).pageNo) := by
  constructor
  · intro hx
    obtain ⟨_, _, h3, h4⟩ := hP.1 x.1 x.2 k hx
    rw [hf] at h3
    simp only [Option.some.injEq] at h3
    exact Prod.ext h3.symm h4.symm
  · intro hx
    obtain ⟨g, hg, hkey⟩ := hP.2 k hk hv
    rw [hf] at hg
    simp only [Option.some.injEq] at hg
    subst hg
    rw [hx]
    exact hkey

theorem P1.pinned_valid {s : BufMgr} (hP2 : P2 s) {i : Nat} (hi : i < s.numBufs)
    (hpin : 0 < (s.bufDescTable i).pinCnt) : (s.bufDescTable i).valid = true := by
  cases hv : (s.bufDescTable i).valid with
  | true => rfl
  | false => have := (hP2 i hi hv).1; omega

/-- Clearing frame `k` and dropping the index entries that name it keeps P1. -/
theorem P1.after_clear {s s1 : BufMgr} (hP : P1 s) (k : Nat) (hn : s1.numBufs = s.numBufs)
    (hd : ∀ j, s1.bufDescTable j = if j = k then (s.bufDescTable k).Clear else s.bufDescTable j)
    (hh : ∀ x, s1.hashTable x = if s.hashTable x = some k then none else s.hashTable x) :
    P1 s1 := by
  refine ⟨fun f p i hi => ?_, fun i hi hv => ?_⟩
  · rw [hh] at hi
    by_cases hx : s.hashTable (f, p) = some k
    · simp [hx] at hi
    · simp only [hx, if_false] at hi
      have hik : i ≠ k := fun e => hx (e ▸ hi)
      rw [hn, hd, if_neg hik]
      exact hP.1 f p i hi
  · by_cases hik : i = k
    · rw [hd, if_pos hik] at hv
      simp [BufDesc.Clear] at hv
    · rw [hd, if_neg hik] at hv ⊢
      rw [hn] at hi
      obtain ⟨f, hf, hkey⟩ := hP.2 i hi hv
      refine ⟨f, hf, ?_⟩
      rw [hh, hkey]
      simp [hik]

theorem P2.cleared {s s1 : BufMgr} (hP : P2 s) (k : Nat) (hn : s1.numBufs = s.numBufs)
    (hd : ∀ j, s1.bufDescTable j = if j = k then (s.bufDescTable k).Clear else s.bufDescTable j) :
    P2 s1 := by
  intro i hi hv
  by_cases hik : i = k
  · rw [hd, if_pos hik]
    simp [BufDesc.Clear]
  · rw [hd, if_neg hik] at hv ⊢
    rw [hn] at hi
    exact hP i hi hv

theorem NoStaleFile.on_clear {s s1 : BufMgr} (hP : NoStaleFile s) (k : Nat)
    (hn : s1.numBufs = s.numBufs)
    (hd : ∀ j, s1.bufDescTable j = if j = k then (s.bufDescTable k).Clear else s.bufDescTable j) :
    NoStaleFile s1 := by
  intro i hi hv
  by_cases hik : i = k
  · rw [hd, if_pos hik]
    simp [BufDesc.Clear]
  · rw [hd, if_neg hik] at hv ⊢
    rw [hn] at hi
    exact hP i hi hv

/-- Filling the empty frame `c` with a page that is not in the index, and
entering the page in the index, keeps P1. -/
theorem P1.fill {s s1 : BufMgr} (hP : P1 s) (c f p : Nat) (hc : c < s.numBufs)
    (hv : (s.bufDescTable c).valid = false) (hk : s.hashTable (f, p) = none)
    (hn : s1.numBufs = s.numBufs)
    (hd : ∀ j, s1.bufDescTable j = if j = c then (s.bufDescTable c).Set f p else s.bufDescTable j)
    (hh : ∀ x, s1.hashTable x = if x = (f, p) then some c else s.hashTable x) :
    P1 s1 := by
  refine ⟨fun g q i hi => ?_, fun i hi hvi => ?_⟩
  · rw [hh] at hi
    by_cases hx : (g, q) = (f, p)
    · simp only [hx, if_true, Option.some.injEq] at hi
      subst hi
      simp only [Prod.mk.injEq] at hx
      rw [hn, hd, if_pos rfl]
      simp [BufDesc.Set, hc, hx.1, hx.2]
    · simp only [hx, if_false] at hi
      obtain ⟨a, b, c1, d⟩ := hP.1 g q i hi
      have hic : i ≠ c := by
        intro e
        rw [e, hv] at b
        exact Bool.noConfusion b
      rw [hn, hd, if_neg hic]
      exact ⟨a, b, c1, d⟩
  · by_cases hic : i = c
    · subst hic
      rw [hd, if_pos rfl]
      exact ⟨f, by simp [BufDesc.Set], by rw [hh]; simp [BufDesc.Set]⟩
    · rw [hd, if_neg hic] at hvi ⊢
      rw [hn] at hi
      obtain ⟨g, hg, hkey⟩ := hP.2 i hi hvi
      refine ⟨g, hg, ?_⟩
      rw [hh]
      have : (g, (s.bufDescTable i).pageNo) ≠ (f, p) := by
        intro e
        rw [e, hk] at hkey
        exact Option.noConfusion hkey
      simp [this, hkey]

/-! ## The effect of `allocBuf` -/

/-- A successful `allocBuf` in a state that satisfies P1: the frame `c` it
returns was not valid or was unpinned; it is cleared, the index entries naming
it are dropped, at most the page of `c` is written, and apart from reference
bits and the clock hand nothing else changes. -/
theorem allocBuf_ok (env : FileLayer) (s : BufMgr) (o : Outcome Nat) (c : Nat) (hP : P1 s)
    (h : allocBuf env s = some o) (hok : o.res = .ok c) :
    ∃ s1, RefOnly s s1 ∧ c < s.numBufs ∧
      ((s.bufDescTable c).valid = false ∨ (s.bufDescTable c).pinCnt = 0) ∧
      o.st.numBufs = s.numBufs ∧
      (∀ j, o.st.bufDescTable j =
        if j = c then (s1.bufDescTable c).Clear else s1.bufDescTable j) ∧
      (∀ x, o.st.hashTable x = if s.hashTable x = some c then none else s.hashTable x) ∧
      o.st.bufPool = s.bufPool ∧ o.st.clockHand = c ∧
      (o.st.calls = s.calls ∨
        ((s.bufDescTable c).valid = true ∧ (s.bufDescTable c).dirty = true ∧
          ∃ f, (s.bufDescTable c).file = some f ∧
            o.st.calls = s.calls ++ [FileCall.writePage f (s.bufPool c)])) := by
  rcases allocBuf_cases env s o hP h with ⟨_, ho⟩ | ⟨s1, hr, hc, hcase⟩
  · rw [ho] at hok; simp at hok
  · have hP1 := hr.P1 hP
    obtain ⟨hn, hh, hpool, hcalls, _⟩ := id hr
    obtain ⟨e1, e2, e3, e4, e5, _⟩ := hr.fields s1.clockHand
    rcases hcase with ⟨hv, ho⟩ | ⟨hv, _, hp, f, hf, hk, hcase⟩
    · rw [ho] at hok
      simp only [Except.ok.injEq] at hok
      subst hok
      refine ⟨s1, hr, by rw [← hn]; exact hc, Or.inl (by rw [← e1]; exact hv), ?_⟩
      rw [ho]
      refine ⟨by simp [hn], fun j => by simp, fun x => ?_, by simp [hpool], by simp,
        Or.inl (by simp [hcalls])⟩
      simp only [setDesc_hashTable, hh]
      by_cases hx : s.hashTable x = some s1.clockHand
      · rw [← hh] at hx
        have := (hP1.1 x.1 x.2 s1.clockHand hx).2.1
        rw [hv] at this
        exact Bool.noConfusion this
      · simp [hx]
    · have hkey := hP1.key_iff hc hv hf
      have hrest : ∀ x, (if x = (f, (s1.bufDescTable s1.clockHand).pageNo) then none
          else s1.hashTable x) = if s.hashTable x = some s1.clockHand then none
          else s.hashTable x := by
        intro x
        rw [← hh]
        by_cases hx : x = (f, (s1.bufDescTable s1.clockHand).pageNo)
        · simp [hx, hk]
        · have : ¬ s1.hashTable x = some s1.clockHand := fun e => hx ((hkey x).1 e)
          simp [hx, this]
      rcases hcase with ⟨hd, ho⟩ | ⟨hd, _, ho⟩ | ⟨_, _, ho⟩
      · rw [ho] at hok
        simp only [Except.ok.injEq] at hok
        subst hok
        refine ⟨s1, hr, by rw [← hn]; exact hc, Or.inr (by rw [← e4]; exact hp), ?_⟩
        rw [ho]
        exact ⟨by simp [hn], fun j => by simp, fun x => by simpa using hrest x,
          by simp [hpool], by simp, Or.inl (by simp [hcalls])⟩
      · rw [ho] at hok
        simp only [Except.ok.injEq] at hok
        subst hok
        refine ⟨s1, hr, by rw [← hn]; exact hc, Or.inr (by rw [← e4]; exact hp), ?_⟩
        rw [ho]
        refine ⟨by simp [hn], fun j => by simp, fun x => by simpa using hrest x,
          by simp [hpool], by simp, Or.inr ⟨by rw [← e1]; exact hv, by rw [← e5]; exact hd,
            f, by rw [← e2]; exact hf, by simp [hcalls, hpool]⟩⟩
      · rw [ho] at hok
        simp at hok

/-- Says that `allocBuf` keeps P1 when it returns a frame, and that this frame is then
empty. -/
theorem allocBuf_ok_P1 (env : FileLayer) (s : BufMgr) (o : Outcome Nat) (c : Nat) (hP : P1 s)
    (h : allocBuf env s = some o) (hok : o.res = .ok c) :
    P1 o.st ∧ (o.st.bufDescTable c).valid = false ∧ o.st.bufDescTable c = (o.st.bufDescTable c).Clear := by
  obtain ⟨s1, hr, _, _, hn, hd, hh, _⟩ := allocBuf_ok env s o c hP h hok
  refine ⟨(hr.P1 hP).after_clear c (by rw [hn, hr.1]) hd (fun x => by rw [hh, hr.2.1]), ?_, ?_⟩
  · rw [hd, if_pos rfl]; rfl
  · rw [hd, if_pos rfl]; rfl

/-- Whatever `allocBuf` does, a pinned frame of a state that satisfies P1 and
P2 stays as it is up to its reference bit, the index entries of pinned frames
stay, no entry is added, and the frame returned, if any, was not pinned. -/
theorem allocBuf_keeps (env : FileLayer) (s : BufMgr) (o : Outcome Nat) (i : Nat)
    (hP1 : P1 s) (hP2 : P2 s) (hi : i < s.numBufs) (hpin : 0 < (s.bufDescTable i).pinCnt)
    (h : allocBuf env s = some o) :
    o.st.numBufs = s.numBufs ∧
    (o.st.bufDescTable i).valid = true ∧
    (o.st.bufDescTable i).file = (s.bufDescTable i).file ∧
    (o.st.bufDescTable i).pageNo = (s.bufDescTable i).pageNo ∧
    (∀ x, s.hashTable x = some i → o.st.hashTable x = some i) ∧
    (∀ x, s.hashTable x = none → o.st.hashTable x = none) ∧
    (∀ c, o.res = .ok c → c ≠ i) := by
  have hvi := P1.pinned_valid hP2 hi hpin
  rcases allocBuf_cases env s o hP1 h with ⟨_, ho⟩ | ⟨s1, hr, hc, hcase⟩
  · rw [ho]
    exact ⟨rfl, hvi, rfl, rfl, fun _ hx => hx, fun _ hx => hx, fun c hc => by simp at hc⟩
  · obtain ⟨hn, hh, _, _, _⟩ := id hr
    obtain ⟨e1, e2, e3, e4, _⟩ := hr.fields i
    have hne : i ≠ s1.clockHand := by
      intro e
      rcases hcase with ⟨hv, _⟩ | ⟨_, _, hp, _⟩
      · rw [← e, e1, hvi] at hv; exact Bool.noConfusion hv
      · rw [← e, e4] at hp; omega
    rcases hcase with ⟨hv, ho⟩ | ⟨hv, _, hp, f, hf, hk, hcase⟩
    · rw [ho]
      refine ⟨by simp [hn], by simp [hne, e1, hvi], by simp [hne, e2], by simp [hne, e3],
        fun x hx => by simpa [hh] using hx, fun x hx => by simpa [hh] using hx, ?_⟩
      intro c hc
      simp only [Except.ok.injEq] at hc
      exact fun e => hne (by rw [← e, hc])
    · have hkeep : ∀ x, s.hashTable x = some i →
          (if x = (f, (s1.bufDescTable s1.clockHand).pageNo) then none else s1.hashTable x)
            = some i := by
        intro x hx
        have : x ≠ (f, (s1.bufDescTable s1.clockHand).pageNo) := by
          intro e
          rw [e, ← hh, hk] at hx
          simp only [Option.some.injEq] at hx
          exact hne hx.symm
        simp [this, hh, hx]
      have hnone : ∀ x, s.hashTable x = none →
          (if x = (f, (s1.bufDescTable s1.clockHand).pageNo) then none else s1.hashTable x)
            = none := by
        intro x hx
        by_cases hxe : x = (f, (s1.bufDescTable s1.clockHand).pageNo)
        · simp [hxe]
        · simp [hxe, hh, hx]
      rcases hcase with ⟨_, ho⟩ | ⟨_, _, ho⟩ | ⟨_, _, ho⟩
      · rw [ho]
        refine ⟨by simp [hn], by simp [hne, e1, hvi], by simp [hne, e2], by simp [hne, e3],
          fun x hx => by simpa using hkeep x hx, fun x hx => by simpa using hnone x hx, ?_⟩
        intro c hc
        simp only [Except.ok.injEq] at hc
        exact fun e => hne (by rw [← e, hc])
      · rw [ho]
        refine ⟨by simp [hn], by simp [hne, e1, hvi], by simp [hne, e2], by simp [hne, e3],
          fun x hx => by simpa using hkeep x hx, fun x hx => by simpa using hnone x hx, ?_⟩
        intro c hc
        simp only [Except.ok.injEq] at hc
        exact fun e => hne (by rw [← e, hc])
      · rw [ho]
        exact ⟨by simp [hn], by simp [e1, hvi], by simp [e2], by simp [e3],
          fun x hx => by simpa using hkeep x hx, fun x hx => by simpa using hnone x hx,
          fun c hc => by simp at hc⟩

/-! ## The clock loop ends -/

theorem clockDist_pos (s : BufMgr) (j : Nat) : 0 < clockDist s j := by
  unfold clockDist
  split <;> omega

theorem clockDist_le (s : BufMgr) (j : Nat) (hj : j < s.numBufs) :
    clockDist s j ≤ s.numBufs := by
  unfold clockDist
  split <;> omega

theorem sweepBound_le (s : BufMgr) (j : Nat) (hj : j < s.numBufs) :
    sweepBound s j ≤ 2 * s.numBufs := by
  have := clockDist_le s j hj
  unfold sweepBound
  split <;> omega

/-- After an advance that does not land on `j`, frame `j` is one advance
nearer. -/
theorem clockDist_step (s s1 : BufMgr) (j : Nat) (hN : s.numBufs < 4294967296)
    (hj : j < s.numBufs) (hn : s1.numBufs = s.numBufs)
    (hc : s1.clockHand = (advanceClock s).clockHand) (hne : (advanceClock s).clockHand ≠ j) :
    clockDist s1 j + 1 = clockDist s j := by
  have hlt : (advanceClock s).clockHand < s.numBufs := advanceClock_lt s (by omega)
  obtain ⟨c, hcdef⟩ : ∃ c, (advanceClock s).clockHand = c := ⟨_, rfl⟩
  rw [hcdef] at hc hne hlt
  have hnext : (advanceClock s1).clockHand = if c + 1 < s.numBufs then c + 1 else 0 := by
    show (s1.clockHand + 1) % 4294967296 % s1.numBufs = _
    rw [hc, hn, Nat.mod_eq_of_lt (show c + 1 < 4294967296 by omega)]
    split
    · rename_i h; exact Nat.mod_eq_of_lt h
    · have : c + 1 = s.numBufs := by omega
      rw [this, Nat.mod_self]
  unfold clockDist
  rw [hnext, hn, hcdef]
  split_ifs <;> omega

/-- One iteration of the clock loop that does not end it lowers the bound. -/
theorem sweepBound_step (env : FileLayer) (s s1 : BufMgr) (j : Nat)
    (hN : s.numBufs < 4294967296) (hj : j < s.numBufs)
    (hp : (s.bufDescTable j).pinCnt = 0) (h : sweepStep env s = .inr s1) :
    sweepBound s1 j + 1 ≤ sweepBound s j := by
  have hr := sweepStep_inr env s s1 h
  have hn := hr.1
  unfold sweepStep at h
  simp only at h
  split at h
  · simp at h
  · rename_i hv
    split at h
    · rename_i hrb
      simp only [Sum.inr.injEq] at h
      by_cases hcj : (advanceClock s).clockHand = j
      · -- the hand lands on `j`, whose reference bit is cleared
        have hd1 : clockDist s j = 1 := by
          unfold clockDist
          rw [hcj]
          simp
        have hle := clockDist_le s1 j (by rw [hn]; exact hj)
        have hflag : ¬ ((s1.bufDescTable j).valid = true ∧ (s1.bufDescTable j).refbit = true) := by
          rw [← h, setDesc_bufDescTable, if_pos hcj.symm]
          simp
        have hflag0 : (s.bufDescTable j).valid = true ∧ (s.bufDescTable j).refbit = true := by
          rw [hcj] at hv hrb
          exact ⟨by simpa using hv, by simpa using hrb⟩
        unfold sweepBound
        rw [if_neg hflag, if_pos hflag0, hd1]
        omega
      · have hstep := clockDist_step s s1 j hN hj hn (by rw [← h]; rfl) hcj
        have hdj : s1.bufDescTable j = s.bufDescTable j := by
          rw [← h, setDesc_bufDescTable, if_neg (fun e => hcj e.symm)]
          rfl
        unfold sweepBound
        rw [hdj, hn]
        omega
    · split at h
      · simp at h
      · rename_i hpc
        simp only [Sum.inr.injEq] at h
        have hcj : (advanceClock s).clockHand ≠ j := by
          intro e
          rw [e] at hpc
          exact hpc hp
        have hstep := clockDist_step s s1 j hN hj hn (by rw [← h]) hcj
        have hdj : s1.bufDescTable j = s.bufDescTable j := by rw [← h]; rfl
        unfold sweepBound
        rw [hdj, hn]
        omega

/-- The clock loop returns within `sweepBound` iterations when frame `j` is
unpinned. -/
theorem sweep_returns (env : FileLayer) (j : Nat) (fuel : Nat) :
    ∀ s : BufMgr, s.numBufs < 4294967296 → j < s.numBufs → (s.bufDescTable j).pinCnt = 0 →
      sweepBound s j ≤ fuel → ∃ o, sweep env fuel s = some o := by
  induction fuel with
  | zero =>
    intro s _ _ _ hb
    have := clockDist_pos s j
    unfold sweepBound at hb
    omega
  | succ fuel ih =>
    intro s hN hj hp hb
    simp only [sweep]
    cases hs : sweepStep env s with
    | inl o => exact ⟨o, rfl⟩
    | inr s1 =>
      have hr := sweepStep_inr env s s1 hs
      have hlow := sweepBound_step env s s1 j hN hj hp hs
      exact ih s1 (by rw [hr.1]; exact hN) (by rw [hr.1]; exact hj)
        (by rw [(hr.fields j).2.2.2.1]; exact hp) (by omega)

/-- `allocBuf` returns: the fuel of its clock loop is never used up. -/
theorem allocBuf_returns (env : FileLayer) (s : BufMgr) (hN : s.numBufs < 4294967296) :
    ∃ o, allocBuf env s = some o := by
  unfold allocBuf
  cases hs : scanPinned s s.numBufs 0 with
  | true => exact ⟨_, rfl⟩
  | false =>
    obtain ⟨j, _, hj, hp⟩ := scanPinned_false s s.numBufs 0 hs
    simpa using sweep_returns env j (2 * s.numBufs) s hN (by omega) hp
      (sweepBound_le s j (by omega))

/-! ## The loop of `flushFile` -/

theorem flushLoop_skip (env : FileLayer) (file n k : Nat) (s : BufMgr)
    (hf : (s.bufDescTable k).file ≠ some file) :
    flushLoop env file (n + 1) k s = flushLoop env file n (k + 1) s := by
  simp [flushLoop, hf]

theorem flushLoop_pinned (env : FileLayer) (file n k : Nat) (s : BufMgr)
    (hf : (s.bufDescTable k).file = some file) (hp : 0 < (s.bufDescTable k).pinCnt) :
    flushLoop env file (n + 1) k s =
      ⟨.error (.PagePinnedException (s.bufDescTable k).pageNo (s.bufDescTable k).frameNo), s⟩ := by
  simp [flushLoop, hf, hp]

theorem flushLoop_flush (env : FileLayer) (file n k : Nat) (s : BufMgr)
    (hf : (s.bufDescTable k).file = some file) (hp : (s.bufDescTable k).pinCnt = 0)
    (hv : (s.bufDescTable k).valid = true)
    (hkey : s.hashTable (file, (s.bufDescTable k).pageNo) = some k)
    (hw : (s.bufDescTable k).dirty = true → env.writePage s.calls file (s.bufPool k) = true) :
    flushLoop env file (n + 1) k s = flushLoop env file n (k + 1) (flushFrame s file k) := by
  cases hd : (s.bufDescTable k).dirty with
  | false =>
    simp [flushLoop, hf, hp, hd, hv, hkey, BufHashTbl.remove, flushFrame]
  | true =>
    simp [flushLoop, hf, hp, hd, hv, hkey, BufHashTbl.remove, flushFrame, fileWritePage, hw hd]

theorem flushLoop_write_fails (env : FileLayer) (file n k : Nat) (s : BufMgr)
    (hf : (s.bufDescTable k).file = some file) (hp : (s.bufDescTable k).pinCnt = 0)
    (hd : (s.bufDescTable k).dirty = true)
    (hw : env.writePage s.calls file (s.bufPool k) = false) :
    flushLoop env file (n + 1) k s =
      ⟨.error .FileException,
        { s with calls := s.calls ++ [FileCall.writePage file (s.bufPool k)] }⟩ := by
  simp [flushLoop, hf, hp, hd, fileWritePage, hw]

@[simp]
theorem flushFrame_numBufs (s : BufMgr) (file k : Nat) :
    (flushFrame s file k).numBufs = s.numBufs := rfl

@[simp]
theorem flushFrame_bufPool (s : BufMgr) (file k : Nat) :
    (flushFrame s file k).bufPool = s.bufPool := rfl

@[simp]
theorem flushFrame_clockHand (s : BufMgr) (file k : Nat) :
    (flushFrame s file k).clockHand = s.clockHand := rfl

theorem flushFrame_bufDescTable (s : BufMgr) (file k j : Nat) :
    (flushFrame s file k).bufDescTable j =
      if j = k then (s.bufDescTable k).Clear else s.bufDescTable j := rfl

theorem flushFrame_hashTable (s : BufMgr) (file k : Nat) (x : Nat × Nat) :
    (flushFrame s file k).hashTable x =
      if x = (file, (s.bufDescTable k).pageNo) then none else s.hashTable x := rfl

theorem flushFrame_calls (s : BufMgr) (file k : Nat) :
    (flushFrame s file k).calls =
      if (s.bufDescTable k).dirty = true then
        s.calls ++ [FileCall.writePage file (s.bufPool k)]
      else s.calls := rfl

theorem flushFrame_P1 {s : BufMgr} (hP : P1 s) {file k : Nat} (hk : k < s.numBufs)
    (hv : (s.bufDescTable k).valid = true) (hf : (s.bufDescTable k).file = some file) :
    P1 (flushFrame s file k) := by
  refine hP.after_clear k rfl (fun j => rfl) (fun x => ?_)
  rw [flushFrame_hashTable]
  by_cases hx : x = (file, (s.bufDescTable k).pageNo)
  · simp [hx, (hP.key_iff hk hv hf _).2 rfl]
  · have : ¬ s.hashTable x = some k := fun e => hx ((hP.key_iff hk hv hf x).1 e)
    simp [hx, this]

theorem flushFrame_P2 {s : BufMgr} (hP : P2 s) (file k : Nat) : P2 (flushFrame s file k) :=
  hP.cleared k rfl (fun _ => rfl)

theorem flushFrame_NoStaleFile {s : BufMgr} (hP : NoStaleFile s) (file k : Nat) :
    NoStaleFile (flushFrame s file k) :=
  hP.on_clear k rfl (fun _ => rfl)

theorem Kept.start {s : BufMgr} (hP1 : P1 s) (hP2 : P2 s) {i : Nat} (hi : i < s.numBufs)
    (hpin : 0 < (s.bufDescTable i).pinCnt) : Kept s s i := by
  have hv := P1.pinned_valid hP2 hi hpin
  obtain ⟨f, hf, hk⟩ := hP1.2 i hi hv
  exact ⟨hv, rfl, rfl, f, hf, hk⟩

theorem Kept.chain {s s1 s2 : BufMgr} {i : Nat} (h1 : Kept s s1 i) (h2 : Kept s1 s2 i) :
    Kept s s2 i := by
  obtain ⟨_, a2, a3, f, a4, _⟩ := h1
  obtain ⟨b1, b2, b3, g, b4, b5⟩ := h2
  refine ⟨b1, b2.trans a2, b3.trans a3, f, a4, ?_⟩
  rw [a2, a4] at b4
  simp only [Option.some.injEq] at b4
  rw [← a3, b4]
  exact b5

theorem Kept.of_eq {s s1 : BufMgr} {i : Nat} (h : Kept s s i)
    (hd : s1.bufDescTable i = s.bufDescTable i) (hh : s1.hashTable = s.hashTable) :
    Kept s s1 i := by
  obtain ⟨a1, _, _, f, a4, a5⟩ := h
  exact ⟨by rw [hd]; exact a1, by rw [hd], by rw [hd], f, a4, by rw [hh]; exact a5⟩

theorem flushLoop_keeps (env : FileLayer) (file i : Nat) :
    ∀ (n k : Nat) (s : BufMgr), P1 s → P2 s → NoStaleFile s → k + n = s.numBufs →
      i < s.numBufs → 0 < (s.bufDescTable i).pinCnt →
      Kept s (flushLoop env file n k s).st i := by
  intro n
  induction n with
  | zero =>
    intro k s hP1 hP2 _ _ hi hpin
    exact Kept.start hP1 hP2 hi hpin
  | succ n ih =>
    intro k s hP1 hP2 hNS hkn hi hpin
    have hk : k < s.numBufs := by omega
    by_cases hf : (s.bufDescTable k).file = some file
    · by_cases hp : 0 < (s.bufDescTable k).pinCnt
      · rw [flushLoop_pinned env file n k s hf hp]
        exact Kept.start hP1 hP2 hi hpin
      · have hp0 : (s.bufDescTable k).pinCnt = 0 := by omega
        have hv : (s.bufDescTable k).valid = true := by
          cases hv : (s.bufDescTable k).valid with
          | true => rfl
          | false =>
            have := hNS k hk hv
            rw [hf] at this
            exact Option.noConfusion this
        have hkey := (hP1.key_iff hk hv hf _).2 rfl
        by_cases hw : (s.bufDescTable k).dirty = true ∧
            env.writePage s.calls file (s.bufPool k) = false
        · rw [flushLoop_write_fails env file n k s hf hp0 hw.1 hw.2]
          exact (Kept.start hP1 hP2 hi hpin).of_eq rfl rfl
        · have hw2 : (s.bufDescTable k).dirty = true →
              env.writePage s.calls file (s.bufPool k) = true := by
            intro hd
            cases hw3 : env.writePage s.calls file (s.bufPool k) with
            | true => rfl
            | false => exact absurd ⟨hd, hw3⟩ hw
          rw [flushLoop_flush env file n k s hf hp0 hv hkey hw2]
          have hik : i ≠ k := by
            intro e
            rw [e] at hpin
            omega
          have hdi : (flushFrame s file k).bufDescTable i = s.bufDescTable i := by
            rw [flushFrame_bufDescTable, if_neg hik]
          have h1 : Kept s (flushFrame s file k) i := by
            obtain ⟨a1, _, _, f, a4, a5⟩ := Kept.start hP1 hP2 hi hpin
            refine ⟨by rw [hdi]; exact a1, by rw [hdi], by rw [hdi], f, a4, ?_⟩
            rw [flushFrame_hashTable]
            have : (f, (s.bufDescTable i).pageNo) ≠ (file, (s.bufDescTable k).pageNo) := by
              intro e
              rw [e, hkey] at a5
              simp only [Option.some.injEq] at a5
              exact hik a5.symm
            simp [this, a5]
          exact h1.chain (ih (k + 1) (flushFrame s file k) (flushFrame_P1 hP1 hk hv hf)
            (flushFrame_P2 hP2 file k) (flushFrame_NoStaleFile hNS file k)
            (by simp; omega) (by simpa using hi) (by rw [hdi]; exact hpin))
    · rw [flushLoop_skip env file n k s hf]
      exact ih (k + 1) s hP1 hP2 hNS (by omega) hi hpin

/-! ## `disposePage`, case by case -/

theorem disposePage_of_absent (env : FileLayer) (s : BufMgr) (file PageNo : Nat)
    (h : s.hashTable (file, PageNo) = none) :
    disposePage env s file PageNo = ⟨.ok (), s⟩ := by
  simp [disposePage, disposeTry, BufHashTbl.lookup, h]

theorem disposePage_of_pinned (env : FileLayer) (s : BufMgr) (file PageNo i : Nat)
    (h : s.hashTable (file, PageNo) = some i) (hp : 0 < (s.bufDescTable i).pinCnt) :
    disposePage env s file PageNo = ⟨.ok (), s⟩ := by
  have h0 : (s.bufDescTable i).pinCnt ≠ 0 := by omega
  simp [disposePage, disposeTry, BufHashTbl.lookup, h, h0]

theorem disposePage_of_unpinned (env : FileLayer) (s : BufMgr) (file PageNo i : Nat)
    (h : s.hashTable (file, PageNo) = some i) (hp : (s.bufDescTable i).pinCnt = 0) :
    disposePage env s file PageNo =
      fileDeletePage env
        (({ s with hashTable := fun x => if x = (file, PageNo) then none else s.hashTable x }).setDesc
          i (s.bufDescTable i).Clear) file PageNo := by
  simp [disposePage, disposeTry, BufHashTbl.lookup, h, hp, BufHashTbl.remove]

theorem fileDeletePage_st (env : FileLayer) (s : BufMgr) (file pageNo : Nat) :
    (fileDeletePage env s file pageNo).st =
      { s with calls := s.calls ++ [FileCall.deletePage file pageNo] } := by
  unfold fileDeletePage
  split <;> rfl

/-! ## C1: a pinned page is not taken away -/

theorem readPage_keeps (env : FileLayer) (s : BufMgr) (file pageNo : Nat) (o : Outcome Nat)
    (i : Nat) (hP1 : P1 s) (hP2 : P2 s) (hi : i < s.numBufs)
    (hpin : 0 < (s.bufDescTable i).pinCnt) (h : readPage env s file pageNo = some o) :
    Kept s o.st i := by
  obtain ⟨hv, _, _, f, hf, hk⟩ := Kept.start hP1 hP2 hi hpin
  unfold readPage at h
  cases hl : s.hashTable (file, pageNo) with
  | some fnum =>
    simp only [BufHashTbl.lookup, hl, Option.some.injEq] at h
    subst h
    by_cases hif : i = fnum
    · subst hif
      exact ⟨by simp [hv], by simp, by simp, f, hf, by simpa using hk⟩
    · exact ⟨by simp [hif, hv], by simp [hif], by simp [hif], f, hf, by simpa using hk⟩
  | none =>
    simp only [BufHashTbl.lookup, hl] at h
    cases ha : allocBuf env s with
    | none => simp [ha] at h
    | some a =>
      obtain ⟨_, k1, k2, k3, k4, _, k6⟩ := allocBuf_keeps env s a i hP1 hP2 hi hpin ha
      have hka : Kept s a.st i := ⟨k1, k2, k3, f, hf, k4 _ hk⟩
      simp only [ha] at h
      cases har : a.res with
      | error e =>
        simp only [har, Option.some.injEq] at h
        subst h
        exact hka
      | ok c =>
        have hci : i ≠ c := fun e => k6 c har e.symm
        simp only [har] at h
        cases hr : env.readPage a.st.calls file pageNo with
        | none =>
          simp only [hr, Option.some.injEq] at h
          subst h
          exact hka
        | some rPage =>
          simp only [hr, BufHashTbl.insert, setPage_hashTable] at h
          cases hx : a.st.hashTable (file, pageNo) with
          | some y =>
            simp only [hx, Option.some.injEq] at h
            subst h
            exact hka
          | none =>
            simp only [hx, Option.some.injEq] at h
            subst h
            have hne : (f, (s.bufDescTable i).pageNo) ≠ (file, pageNo) := by
              intro e
              have := k4 _ hk
              rw [e, hx] at this
              exact Option.noConfusion this
            exact ⟨by simp [hci, k1], by simp [hci, k2], by simp [hci, k3], f, hf,
              by simp [hne, k4 _ hk]⟩

theorem allocPage_keeps (env : FileLayer) (s : BufMgr) (file : Nat)
    (o : Outcome (Nat × Nat)) (i : Nat) (hP1 : P1 s) (hP2 : P2 s) (hi : i < s.numBufs)
    (hpin : 0 < (s.bufDescTable i).pinCnt) (h : allocPage env s file = some o) :
    Kept s o.st i := by
  have hkk := Kept.start hP1 hP2 hi hpin
  obtain ⟨hv, _, _, f, hf, hk⟩ := id hkk
  unfold allocPage at h
  cases hal : env.allocatePage s.calls file with
  | none =>
    simp only [hal, Option.some.injEq] at h
    subst h
    exact hkk.of_eq rfl rfl
  | some npage =>
    simp only [hal] at h
    cases ha : allocBuf env { s with calls := s.calls ++ [FileCall.allocatePage file] } with
    | none => simp [ha] at h
    | some a =>
      obtain ⟨_, k1, k2, k3, k4, _, k6⟩ :=
        allocBuf_keeps env { s with calls := s.calls ++ [FileCall.allocatePage file] } a i
          hP1 hP2 hi hpin ha
      have hka : Kept s a.st i := ⟨k1, k2, k3, f, hf, k4 _ hk⟩
      simp only [ha] at h
      cases har : a.res with
      | error e =>
        simp only [har, Option.some.injEq] at h
        subst h
        exact hka
      | ok c =>
        have hci : i ≠ c := fun e => k6 c har e.symm
        simp only [har, BufHashTbl.insert, setPage_hashTable] at h
        cases hx : a.st.hashTable (file, npage.number) with
        | some y =>
          simp only [hx, Option.some.injEq] at h
          subst h
          exact hka
        | none =>
          simp only [hx, Option.some.injEq] at h
          subst h
          have hne : (f, (s.bufDescTable i).pageNo) ≠ (file, npage.number) := by
            intro e
            have := k4 _ hk
            simp only at this
            rw [e, hx] at this
            exact Option.noConfusion this
          exact ⟨by simpa [hci] using k1, by simpa [hci] using k2, by simpa [hci] using k3,
            f, hf, by simpa [hne] using k4 _ hk⟩

theorem unPinPage_keeps (s : BufMgr) (file pageNo : Nat) (dirty : Bool) (i : Nat)
    (hP1 : P1 s) (hP2 : P2 s) (hi : i < s.numBufs) (hpin : 0 < (s.bufDescTable i).pinCnt) :
    Kept s (unPinPage s file pageNo dirty).st i := by
  have hkk := Kept.start hP1 hP2 hi hpin
  obtain ⟨hv, _, _, f, hf, hk⟩ := id hkk
  unfold unPinPage
  cases hl : s.hashTable (file, pageNo) with
  | none => simpa [BufHashTbl.lookup, hl] using hkk
  | some fnum =>
    simp only [BufHashTbl.lookup, hl]
    by_cases h0 : (s.bufDescTable fnum).pinCnt = 0
    · simpa [h0] using hkk
    · simp only [h0, if_false]
      by_cases hif : i = fnum
      · subst hif
        cases dirty <;> exact ⟨by simp [hv], by simp, by simp, f, hf, by simpa using hk⟩
      · exact ⟨by simp [hif, hv], by simp [hif], by simp [hif], f, hf, by simpa using hk⟩

theorem disposePage_keeps (env : FileLayer) (s : BufMgr) (file PageNo : Nat) (i : Nat)
    (hP1 : P1 s) (hP2 : P2 s) (hi : i < s.numBufs) (hpin : 0 < (s.bufDescTable i).pinCnt) :
    Kept s (disposePage env s file PageNo).st i := by
  have hkk := Kept.start hP1 hP2 hi hpin
  obtain ⟨hv, _, _, f, hf, hk⟩ := id hkk
  cases hl : s.hashTable (file, PageNo) with
  | none => rw [disposePage_of_absent env s file PageNo hl]; exact hkk
  | some fnum =>
    by_cases h0 : (s.bufDescTable fnum).pinCnt = 0
    · rw [disposePage_of_unpinned env s file PageNo fnum hl h0, fileDeletePage_st]
      have hif : i ≠ fnum := by
        intro e
        rw [e] at hpin
        omega
      have hne : (f, (s.bufDescTable i).pageNo) ≠ (file, PageNo) := by
        intro e
        rw [e, hl] at hk
        simp only [Option.some.injEq] at hk
        exact hif hk.symm
      exact ⟨by simp [hif, hv], by simp [hif], by simp [hif], f, hf, by simp [hne, hk]⟩
    · rw [disposePage_of_pinned env s file PageNo fnum hl (by omega)]
      exact hkk

/-! ## C6 and C7: `flushFile` -/

theorem writesOf_cons (s : BufMgr) (file k : Nat) (l : List Nat) :
    writesOf s file (k :: l) =
      (if (s.bufDescTable k).file = some file ∧ (s.bufDescTable k).dirty = true then
        [FileCall.writePage file (s.bufPool k)] else []) ++ writesOf s file l := by
  by_cases hf : (s.bufDescTable k).file = some file
  · cases hd : (s.bufDescTable k).dirty <;> simp [writesOf, List.filter_cons, hf, hd]
  · simp [writesOf, List.filter_cons, hf]

theorem writesOf_congr (s s1 : BufMgr) (file : Nat) (l : List Nat)
    (hd : ∀ j, j ∈ l → s1.bufDescTable j = s.bufDescTable j) (hp : s1.bufPool = s.bufPool) :
    writesOf s1 file l = writesOf s file l := by
  induction l with
  | nil => rfl
  | cons a l ih =>
    rw [writesOf_cons, writesOf_cons, hd a (List.mem_cons_self a l), hp,
      ih (fun j hj => hd j (List.mem_cons_of_mem a hj))]

theorem Flushed.zero (s : BufMgr) (file k : Nat) : Flushed s s file k 0 := by
  refine ⟨rfl, rfl, rfl, by simp [writesOf], fun j => ?_, fun x => ?_⟩
  · have : ¬ (k ≤ j ∧ j < k + 0 ∧ (s.bufDescTable j).file = some file) := by omega
    rw [if_neg this]
  · cases s.hashTable x with
    | none => rfl
    | some i =>
      have : ¬ (k ≤ i ∧ i < k + 0 ∧ (s.bufDescTable i).file = some file) := by omega
      simp only [if_neg this]

/-- The loop of `flushFile` over `m` frames that, when they belong to `file`,
are valid and unpinned: it flushes them and goes on with the frames left. -/
theorem flushLoop_run (env : FileLayer) (file : Nat)
    (hw : ∀ h pg, env.writePage h file pg = true) (n : Nat) :
    ∀ (m k : Nat) (s : BufMgr), P1 s → k + m ≤ s.numBufs →
      (∀ j, k ≤ j → j < k + m → (s.bufDescTable j).file = some file →
        (s.bufDescTable j).valid = true ∧ (s.bufDescTable j).pinCnt = 0) →
      ∃ s2, flushLoop env file (m + n) k s = flushLoop env file n (k + m) s2 ∧
        Flushed s s2 file k m ∧ P1 s2 := by
  intro m
  induction m with
  | zero =>
    intro k s hP _ _
    exact ⟨s, by simp, Flushed.zero s file k, hP⟩
  | succ m ih =>
    intro k s hP hkm hgood
    have hk : k < s.numBufs := by omega
    by_cases hf : (s.bufDescTable k).file = some file
    · obtain ⟨hv, hp⟩ := hgood k (Nat.le_refl k) (by omega) hf
      have hkey := (hP.key_iff hk hv hf _).2 rfl
      have hP1 := flushFrame_P1 hP hk hv hf
      have hdj : ∀ j, j ≠ k → (flushFrame s file k).bufDescTable j = s.bufDescTable j := by
        intro j hj
        rw [flushFrame_bufDescTable, if_neg hj]
      obtain ⟨s2, h1, h2, h3⟩ := ih (k + 1) (flushFrame s file k) hP1 (by simp; omega)
        (fun j hj1 hj2 hjf => by
          rw [hdj j (by omega)] at hjf ⊢
          exact hgood j (by omega) (by omega) hjf)
      refine ⟨s2, ?_, ?_, h3⟩
      · rw [show m + 1 + n = (m + n) + 1 by omega,
          flushLoop_flush env file (m + n) k s hf hp hv hkey (fun _ => hw _ _), h1]
        congr 1
        omega
      · obtain ⟨a1, a2, a3, a4, a5, a6⟩ := h2
        refine ⟨a1, a2, a3, ?_, fun j => ?_, fun x => ?_⟩
        · rw [a4, List.range'_succ, writesOf_cons, flushFrame_calls,
            writesOf_congr s (flushFrame s file k) file (List.range' (k + 1) m)
              (fun j hj => hdj j (by
                have := (List.mem_range'_1.1 hj).1
                omega)) rfl]
          cases hd : (s.bufDescTable k).dirty <;> simp [hf]
        · rw [a5]
          by_cases hjk : j = k
          · subst hjk
            have c1 : ¬ (j + 1 ≤ j ∧ j < j + 1 + m ∧
                ((flushFrame s file j).bufDescTable j).file = some file) := by omega
            have c2 : j ≤ j ∧ j < j + (m + 1) ∧ (s.bufDescTable j).file = some file :=
              ⟨Nat.le_refl j, by omega, hf⟩
            rw [if_neg c1, if_pos c2, flushFrame_bufDescTable, if_pos rfl]
          · rw [hdj j hjk]
            by_cases c : k + 1 ≤ j ∧ j < k + 1 + m ∧ (s.bufDescTable j).file = some file
            · rw [if_pos c, if_pos ⟨by omega, by omega, c.2.2⟩]
            · rw [if_neg c, if_neg (fun c2 => c ⟨by omega, by omega, c2.2.2⟩)]
        · rw [a6, flushFrame_hashTable]
          cases hx : s.hashTable x with
          | none =>
            by_cases hxe : x = (file, (s.bufDescTable k).pageNo)
            · simp [hxe]
            · simp [hxe, hx]
          | some i =>
            by_cases hik : i = k
            · have hxe : x = (file, (s.bufDescTable k).pageNo) :=
                (hP.key_iff hk hv hf x).1 (hik ▸ hx)
              have c2 : k ≤ i ∧ i < k + (m + 1) ∧ (s.bufDescTable i).file = some file :=
                ⟨by omega, by omega, by rw [hik]; exact hf⟩
              simp [hxe, c2]
            · have hxe : x ≠ (file, (s.bufDescTable k).pageNo) := by
                intro e
                have := (hP.key_iff hk hv hf x).2 e
                rw [hx] at this
                simp only [Option.some.injEq] at this
                exact hik this
              simp only [hxe, if_false, hx, hdj i hik]
              by_cases c : k + 1 ≤ i ∧ i < k + 1 + m ∧ (s.bufDescTable i).file = some file
              · rw [if_pos c, if_pos ⟨by omega, by omega, c.2.2⟩]
              · rw [if_neg c, if_neg (fun c2 => c ⟨by omega, by omega, c2.2.2⟩)]
    · obtain ⟨s2, h1, h2, h3⟩ := ih (k + 1) s hP (by omega)
        (fun j hj1 hj2 hjf => hgood j (by omega) (by omega) hjf)
      refine ⟨s2, ?_, ?_, h3⟩
      · rw [show m + 1 + n = (m + n) + 1 by omega, flushLoop_skip env file (m + n) k s hf, h1]
        congr 1
        omega
      · obtain ⟨a1, a2, a3, a4, a5, a6⟩ := h2
        refine ⟨a1, a2, a3, ?_, fun j => ?_, fun x => ?_⟩
        · rw [a4, List.range'_succ, writesOf_cons]
          simp [hf]
        · rw [a5]
          by_cases c : k + 1 ≤ j ∧ j < k + 1 + m ∧ (s.bufDescTable j).file = some file
          · rw [if_pos c, if_pos ⟨by omega, by omega, c.2.2⟩]
          · have c3 : ¬ (k ≤ j ∧ j < k + (m + 1) ∧ (s.bufDescTable j).file = some file) := by
              intro c2
              by_cases hjk : j = k
              · exact hf (hjk ▸ c2.2.2)
              · exact c ⟨by omega, by omega, c2.2.2⟩
            rw [if_neg c, if_neg c3]
        · rw [a6]
          cases hx : s.hashTable x with
          | none => rfl
          | some i =>
            simp only
            by_cases c : k + 1 ≤ i ∧ i < k + 1 + m ∧ (s.bufDescTable i).file = some file
            · rw [if_pos c, if_pos ⟨by omega, by omega, c.2.2⟩]
            · have c3 : ¬ (k ≤ i ∧ i < k + (m + 1) ∧ (s.bufDescTable i).file = some file) := by
                intro c2
                by_cases hik : i = k
                · exact hf (hik ▸ c2.2.2)
                · exact c ⟨by omega, by omega, c2.2.2⟩
              rw [if_neg c, if_neg c3]

/-! ## The example pools -/

theorem mixedPool_P1 : P1 mixedPool := by
  refine ⟨fun f p i h => ?_, fun i hi hv => ?_⟩
  · simp only [mixedPool] at h ⊢
    split_ifs at h with h1 h2 h3 <;> simp only [Prod.mk.injEq] at * <;>
      simp only [Option.some.injEq] at h <;> subst h <;> simp [*]
  · simp only [mixedPool] at hi hv ⊢
    interval_cases i
    · exact ⟨1, by simp⟩
    · exact ⟨1, by simp⟩
    · exact ⟨1, by simp⟩

theorem dirtyPool_P1 : P1 dirtyPool := by
  refine ⟨fun f p i h => ?_, fun i hi hv => ?_⟩
  · simp only [dirtyPool] at h ⊢
    split_ifs at h with h1 h2 <;> simp only [Prod.mk.injEq] at * <;>
      simp only [Option.some.injEq] at h <;> subst h <;> simp [*]
  · simp only [dirtyPool] at hi hv ⊢
    interval_cases i
    · exact ⟨1, by simp⟩
    · exact ⟨2, by simp⟩

theorem dirtyPool_P2 : P2 dirtyPool := by
  intro i hi hv
  simp only [dirtyPool] at hi hv ⊢
  interval_cases i <;> simp at hv

/-! ## The descriptors of a reachable state -/

theorem Tidy.of_descs {s s1 : BufMgr} (h : Tidy s) (hd : s1.bufDescTable = s.bufDescTable) :
    Tidy s1 := by
  intro i
  rw [hd]
  exact h i

/-- Says that `Tidy` survives an assignment to descriptor `c` that keeps its frame
number and either leaves it valid, or leaves it without a file. -/
theorem Tidy.assign {s s1 : BufMgr} (h : Tidy s) (c : Nat) (d : BufDesc)
    (hd : ∀ j, s1.bufDescTable j = if j = c then d else s.bufDescTable j)
    (hf : d.frameNo = (s.bufDescTable c).frameNo) (hv : d.valid = false → d.file = none) :
    Tidy s1 := by
  intro i
  rw [hd]
  by_cases hi : i = c
  · rw [if_pos hi, hf, hi]
    exact ⟨(h c).1, hv⟩
  · rw [if_neg hi]
    exact h i

theorem Tidy.on_wipe {s s1 : BufMgr} (h : Tidy s) (c : Nat)
    (hd : ∀ j, s1.bufDescTable j = if j = c then (s.bufDescTable c).Clear else s.bufDescTable j) :
    Tidy s1 :=
  h.assign c _ hd rfl (fun _ => rfl)

theorem Tidy.after_set {s s1 : BufMgr} (h : Tidy s) (c f p : Nat)
    (hd : ∀ j, s1.bufDescTable j =
      if j = c then (s.bufDescTable c).Set f p else s.bufDescTable j) :
    Tidy s1 :=
  h.assign c _ hd rfl (fun e => by simp [BufDesc.Set] at e)

theorem RefOnly.tidy {s s1 : BufMgr} (hr : RefOnly s s1) (h : Tidy s) : Tidy s1 := by
  intro i
  obtain ⟨e1, e2, _, _, _, e6⟩ := hr.fields i
  rw [e1, e2, e6]
  exact h i

theorem new_tidy (bufs : Nat) : Tidy (BufMgr.new bufs) :=
  fun _ => ⟨rfl, fun _ => rfl⟩

theorem fileWritePage_descs (env : FileLayer) (s : BufMgr) (f : Nat) (pg : Page) :
    (fileWritePage env s f pg).st.bufDescTable = s.bufDescTable := by
  unfold fileWritePage
  simp only
  split <;> rfl

/-- The write-back of a frame, made when it is dirty, leaves the descriptors
alone. -/
theorem writeIf_descs (env : FileLayer) (s : BufMgr) (f : Nat) (pg : Page) (b : Bool) :
    (if b = true then fileWritePage env s f pg else ⟨.ok (), s⟩).st.bufDescTable =
      s.bufDescTable := by
  cases b
  · rfl
  · simpa using fileWritePage_descs env s f pg

/-- The descriptors after the eviction branch: those before it, or those with
the frame under the clock hand cleared. -/
theorem evict_descs (env : FileLayer) (s : BufMgr) :
    (evict env s).st.bufDescTable = s.bufDescTable ∨
    ∀ j, (evict env s).st.bufDescTable j =
      if j = s.clockHand then (s.bufDescTable s.clockHand).Clear else s.bufDescTable j := by
  unfold evict
  simp only
  split
  · exact Or.inl rfl
  · rename_i f _
    split
    · exact Or.inl rfl
    · rename_i ht _
      have hw := writeIf_descs env { s with hashTable := ht } f (s.bufPool s.clockHand)
        (s.bufDescTable s.clockHand).dirty
      split
      · exact Or.inl hw
      · right
        intro j
        rw [setDesc_bufDescTable, hw]

theorem evict_tidy (env : FileLayer) (s : BufMgr) (h : Tidy s) : Tidy (evict env s).st := by
  rcases evict_descs env s with e | e
  · exact h.of_descs e
  · exact h.on_wipe _ e

theorem allocBuf_tidy (env : FileLayer) (s : BufMgr) (a : Outcome Nat) (h : Tidy s)
    (ha : allocBuf env s = some a) : Tidy a.st := by
  unfold allocBuf at ha
  cases hs : scanPinned s s.numBufs 0 with
  | true =>
    simp only [hs, if_true, Option.some.injEq] at ha
    subst ha
    exact h
  | false =>
    simp only [hs] at ha
    obtain ⟨j, _, hj, _⟩ := scanPinned_false s s.numBufs 0 hs
    obtain ⟨s1, hr, _, hcase⟩ :=
      sweep_some env (2 * s.numBufs) s a (by omega) (by simpa using ha)
    have h1 := hr.tidy h
    rcases hcase with ⟨_, ho⟩ | ⟨_, _, _, ho⟩
    · rw [ho]
      exact h1.on_wipe s1.clockHand (fun _ => rfl)
    · rw [ho]
      exact evict_tidy env s1 h1

theorem readPage_tidy (env : FileLayer) (s : BufMgr) (file pageNo : Nat) (o : Outcome Nat)
    (h : Tidy s) (hrun : readPage env s file pageNo = some o) : Tidy o.st := by
  unfold readPage at hrun
  cases hl : s.hashTable (file, pageNo) with
  | some fnum =>
    simp only [BufHashTbl.lookup, hl, Option.some.injEq] at hrun
    subst hrun
    refine h.assign fnum _ (fun _ => rfl) rfl (fun e => (h fnum).2 e)
  | none =>
    simp only [BufHashTbl.lookup, hl] at hrun
    cases ha : allocBuf env s with
    | none => simp [ha] at hrun
    | some a =>
      have hsa := allocBuf_tidy env s a h ha
      simp only [ha] at hrun
      cases har : a.res with
      | error e =>
        simp only [har, Option.some.injEq] at hrun
        subst hrun
        exact hsa
      | ok c =>
        simp only [har] at hrun
        cases hr : env.readPage a.st.calls file pageNo with
        | none =>
          simp only [hr, Option.some.injEq] at hrun
          subst hrun
          exact hsa.of_descs rfl
        | some rPage =>
          simp only [hr, BufHashTbl.insert, setPage_hashTable] at hrun
          cases hx : a.st.hashTable (file, pageNo) with
          | some y =>
            simp only [hx, Option.some.injEq] at hrun
            subst hrun
            exact hsa.of_descs rfl
          | none =>
            simp only [hx, Option.some.injEq] at hrun
            subst hrun
            exact hsa.after_set c file pageNo (fun _ => rfl)

theorem allocPage_tidy (env : FileLayer) (s : BufMgr) (file : Nat)
    (o : Outcome (Nat × Nat)) (h : Tidy s)
    (hrun : allocPage env s file = some o) : Tidy o.st := by
  unfold allocPage at hrun
  cases hal : env.allocatePage s.calls file with
  | none =>
    simp only [hal, Option.some.injEq] at hrun
    subst hrun
    exact h.of_descs rfl
  | some npage =>
    simp only [hal] at hrun
    have h0 : Tidy { s with calls := s.calls ++ [FileCall.allocatePage file] } := h
    cases ha : allocBuf env { s with calls := s.calls ++ [FileCall.allocatePage file] } with
    | none => simp [ha] at hrun
    | some a =>
      have hsa := allocBuf_tidy env _ a h0 ha
      simp only [ha] at hrun
      cases har : a.res with
      | error e =>
        simp only [har, Option.some.injEq] at hrun
        subst hrun
        exact hsa
      | ok c =>
        simp only [har, BufHashTbl.insert, setPage_hashTable] at hrun
        cases hx : a.st.hashTable (file, npage.number) with
        | some y =>
          simp only [hx, Option.some.injEq] at hrun
          subst hrun
          exact hsa.of_descs rfl
        | none =>
          simp only [hx, Option.some.injEq] at hrun
          subst hrun
          exact hsa.after_set c file npage.number (fun _ => rfl)

theorem unPinPage_tidy (s : BufMgr) (file pageNo : Nat) (dirty : Bool) (h : Tidy s) :
    Tidy (unPinPage s file pageNo dirty).st := by
  unfold unPinPage
  cases hl : s.hashTable (file, pageNo) with
  | none => simpa [BufHashTbl.lookup, hl] using h
  | some fnum =>
    simp only [BufHashTbl.lookup, hl]
    by_cases h0 : (s.bufDescTable fnum).pinCnt = 0
    · simpa [h0] using h
    · simp only [h0, if_false]
      refine h.assign fnum _ (fun _ => rfl) ?_ ?_
      · cases dirty <;> rfl
      · cases dirty
        · exact fun e => (h fnum).2 e
        · exact fun e => (h fnum).2 e

theorem disposePage_tidy (env : FileLayer) (s : BufMgr) (file PageNo : Nat) (h : Tidy s) :
    Tidy (disposePage env s file PageNo).st := by
  cases hl : s.hashTable (file, PageNo) with
  | none => rw [disposePage_of_absent env s file PageNo hl]; exact h
  | some fnum =>
    by_cases h0 : (s.bufDescTable fnum).pinCnt = 0
    · rw [disposePage_of_unpinned env s file PageNo fnum hl h0, fileDeletePage_st]
      exact h.on_wipe fnum (fun _ => rfl)
    · rw [disposePage_of_pinned env s file PageNo fnum hl (by omega)]
      exact h

/-- The loop of `flushFile` keeps the descriptors tidy: an iteration ends the
loop with the descriptors as they are, or it goes on with frame `k` cleared. -/
theorem flushLoop_tidy (env : FileLayer) (file : Nat) :
    ∀ (n k : Nat) (s : BufMgr), Tidy s → Tidy (flushLoop env file n k s).st := by
  intro n
  induction n with
  | zero => intro k s h; exact h
  | succ n ih =>
    intro k s h
    have hw := writeIf_descs env s file (s.bufPool k) (s.bufDescTable k).dirty
    unfold flushLoop
    simp only
    split
    · split
      · exact h
      · split
        · exact h.of_descs hw
        · split
          · exact h.of_descs hw
          · split
            · exact h.of_descs hw
            · refine ih _ _ (h.on_wipe k (fun j => ?_))
              rw [setDesc_bufDescTable]
              simp only [hw]
    · exact ih _ _ h

theorem Op.run_tidy (env : FileLayer) (s s1 : BufMgr) (op : Op) (h : Tidy s)
    (hrun : op.run env s = some s1) : Tidy s1 := by
  cases op with
  | readPage file pageNo =>
    simp only [Op.run, Option.map_eq_some'] at hrun
    obtain ⟨o, ho, rfl⟩ := hrun
    exact readPage_tidy env s file pageNo o h ho
  | allocPage file =>
    simp only [Op.run, Option.map_eq_some'] at hrun
    obtain ⟨o, ho, rfl⟩ := hrun
    exact allocPage_tidy env s file o h ho
  | unPinPage file pageNo dirty =>
    simp only [Op.run, Option.some.injEq] at hrun
    subst hrun
    exact unPinPage_tidy s file pageNo dirty h
  | flushFile file =>
    simp only [Op.run, Option.some.injEq] at hrun
    subst hrun
    exact flushLoop_tidy env file s.numBufs 0 s h
  | disposePage file pageNo =>
    simp only [Op.run, Option.some.injEq] at hrun
    subst hrun
    exact disposePage_tidy env s file pageNo h

/-- In a state reached from a freshly constructed pool by public operations,
every descriptor records its own frame number, and a descriptor that is not
valid carries no file. -/
theorem reachable_tidy (env : FileLayer) (s : BufMgr) (h : Reachable env s) : Tidy s := by
  induction h with
  | fresh bufs => exact new_tidy bufs
  | step s s1 op _ hrun ih => exact Op.run_tidy env s s1 op ih hrun

theorem Tidy.noStale {s : BufMgr} (h : Tidy s) : NoStaleFile s :=
  fun i _ hv => (h i).2 hv

theorem reachable_runOps (env : FileLayer) (l : List Op) :
    ∀ s, Reachable env s → Reachable env (runOps env l s) := by
  induction l with
  | nil => intro s h; exact h
  | cons op l ih =>
    intro s h
    refine ih _ ?_
    cases hr : op.run env s with
    | none => exact h
    | some s1 => exact Reachable.step s s1 op h hr

/-- In a state reached from a freshly constructed pool by public operations, a
descriptor that names a file is valid. -/
theorem reachable_named_valid (env : FileLayer) (s : BufMgr) (h : Reachable env s)
    (i f : Nat) (hf : (s.bufDescTable i).file = some f) : (s.bufDescTable i).valid = true := by
  cases hv : (s.bufDescTable i).valid with
  | true => rfl
  | false =>
    have := (reachable_tidy env s h i).2 hv
    rw [hf] at this
    exact Option.noConfusion this

theorem idlePool_reachable : Reachable plainFiles idlePool :=
  reachable_runOps plainFiles _ _ (Reachable.fresh 3)

theorem busyPool_reachable : Reachable plainFiles busyPool :=
  reachable_runOps plainFiles _ _ (Reachable.fresh 3)

theorem idlePool_index (x : Nat × Nat) :
    idlePool.hashTable x = if x = (1, 10) then some 0 else none := rfl

theorem busyPool_index (x : Nat × Nat) :
    busyPool.hashTable x =
      if x = (1, 11) then some 1 else if x = (1, 10) then some 0 else none := rfl

theorem idlePool_P1 : P1 idlePool := by
  refine ⟨fun f p i h => ?_, fun i hi hv => ?_⟩
  · rw [idlePool_index] at h
    split_ifs at h with h1
    simp only [Prod.mk.injEq] at h1
    simp only [Option.some.injEq] at h
    obtain ⟨rfl, rfl⟩ := h1
    subst h
    exact ⟨by decide, rfl, rfl, rfl⟩
  · have h3 : i < 3 := hi
    interval_cases i
    · exact ⟨1, rfl, rfl⟩
    · exact absurd hv (by decide)
    · exact absurd hv (by decide)

theorem busyPool_P1 : P1 busyPool := by
  refine ⟨fun f p i h => ?_, fun i hi hv => ?_⟩
  · rw [busyPool_index] at h
    split_ifs at h with h1 h2
    · simp only [Prod.mk.injEq] at h1
      simp only [Option.some.injEq] at h
      obtain ⟨rfl, rfl⟩ := h1
      subst h
      exact ⟨by decide, rfl, rfl, rfl⟩
    · simp only [Prod.mk.injEq] at h2
      simp only [Option.some.injEq] at h
      obtain ⟨rfl, rfl⟩ := h2
      subst h
      exact ⟨by decide, rfl, rfl, rfl⟩
  · have h3 : i < 3 := hi
    interval_cases i
    · exact ⟨1, rfl, rfl⟩
    · exact ⟨1, rfl, rfl⟩
    · exact absurd hv (by decide)

theorem busyPool_P2 : P2 busyPool := by
  intro i hi hv
  have h3 : i < 3 := hi
  interval_cases i
  · exact absurd hv (by decide)
  · exact absurd hv (by decide)
  · exact ⟨rfl, rfl⟩

/-! ## The claims -/

/-- Says that `readPage` returns or throws: the clock loop does not run out of fuel
(`numBufs` is a `std::uint32_t`). -/
theorem readPage_returns (env : FileLayer) (s : BufMgr) (file pageNo : Nat)
    (hN : s.numBufs < 4294967296) : ∃ o, readPage env s file pageNo = some o := by
  obtain ⟨a, ha⟩ := allocBuf_returns env s hN
  unfold readPage
  simp only [ha]
  repeat' split
  all_goals exact ⟨_, rfl⟩

/-- Says that `allocPage` returns or throws: the clock loop does not run out of
fuel (`numBufs` is a `std::uint32_t`). -/
theorem allocPage_returns (env : FileLayer) (s : BufMgr) (file : Nat)
    (hN : s.numBufs < 4294967296) : ∃ o, allocPage env s file = some o := by
  obtain ⟨a, ha⟩ := allocBuf_returns env
    { s with calls := s.calls ++ [FileCall.allocatePage file] } hN
  unfold allocPage
  simp only [ha]
  repeat' split
  all_goals exact ⟨_, rfl⟩

/-- Every public operation leaves a state. -/
theorem Op.run_returns (env : FileLayer) (s : BufMgr) (op : Op)
    (hN : s.numBufs < 4294967296) : ∃ s1, op.run env s = some s1 := by
  cases op with
  | readPage file pageNo =>
    obtain ⟨o, ho⟩ := readPage_returns env s file pageNo hN
    exact ⟨o.st, by simp [Op.run, ho]⟩
  | allocPage file =>
    obtain ⟨o, ho⟩ := allocPage_returns env s file hN
    exact ⟨o.st, by simp [Op.run, ho]⟩
  | unPinPage file pageNo dirty => exact ⟨_, rfl⟩
  | flushFile file => exact ⟨_, rfl⟩
  | disposePage file pageNo => exact ⟨_, rfl⟩

theorem Op.run_keeps (env : FileLayer) (s : BufMgr) (op : Op) (s1 : BufMgr) (i : Nat)
    (hP1 : P1 s) (hP2 : P2 s) (hNS : NoStaleFile s) (hi : i < s.numBufs)
    (hpin : 0 < (s.bufDescTable i).pinCnt) (hrun : op.run env s = some s1) :
    Kept s s1 i := by
  cases op with
  | readPage file pageNo =>
    simp only [Op.run, Option.map_eq_some'] at hrun
    obtain ⟨o, ho, rfl⟩ := hrun
    exact readPage_keeps env s file pageNo o i hP1 hP2 hi hpin ho
  | allocPage file =>
    simp only [Op.run, Option.map_eq_some'] at hrun
    obtain ⟨o, ho, rfl⟩ := hrun
    exact allocPage_keeps env s file o i hP1 hP2 hi hpin ho
  | unPinPage file pageNo dirty =>
    simp only [Op.run, Option.some.injEq] at hrun
    subst hrun
    exact unPinPage_keeps s file pageNo dirty i hP1 hP2 hi hpin
  | flushFile file =>
    simp only [Op.run, Option.some.injEq] at hrun
    subst hrun
    exact flushLoop_keeps env file i s.numBufs 0 s hP1 hP2 hNS (by omega) hi hpin
  | disposePage file pageNo =>
    simp only [Op.run, Option.some.injEq] at hrun
    subst hrun
    exact disposePage_keeps env s file pageNo i hP1 hP2 hi hpin

/-- C1: take a state of the buffer manager, that is a state reached from a
freshly constructed pool by public operations (of fewer than 2^32 frames,
`numBufs` being a `std::uint32_t`), that satisfies P1 and P2, and a frame `i`
with `pin_count > 0`. Every public operation (`readPage`, `allocPage`,
`unPinPage`, `flushFile`, `disposePage`), whether it returns or throws, leaves
a state in which frame `i` is still valid, still holds the same file and page
number, and the index still maps them to `i`. Moreover `allocBuf` only returns
a frame whose pin count was 0 when it was called. -/
theorem pinned_frame_kept (env : FileLayer) (s : BufMgr) (op : Op) (i : Nat)
    (hr : Reachable env s) (hN : s.numBufs < 4294967296) (hP1 : P1 s) (hP2 : P2 s)
    (hi : i < s.numBufs) (hpin : 0 < (s.bufDescTable i).pinCnt) :
    (∃ s1, op.run env s = some s1 ∧
      (s1.bufDescTable i).valid = true ∧
      (s1.bufDescTable i).file = (s.bufDescTable i).file ∧
      (s1.bufDescTable i).pageNo = (s.bufDescTable i).pageNo ∧
      ∃ f, (s.bufDescTable i).file = some f ∧
        s1.hashTable (f, (s.bufDescTable i).pageNo) = some i) ∧
    (∀ o c, allocBuf env s = some o → o.res = .ok c → (s.bufDescTable c).pinCnt = 0) := by
  constructor
  · obtain ⟨s1, h1⟩ := Op.run_returns env s op hN
    exact ⟨s1, h1,
      Op.run_keeps env s op s1 i hP1 hP2 (reachable_tidy env s hr).noStale hi hpin h1⟩
  · intro o c ho hok
    obtain ⟨_, _, hc, hcase, _⟩ := allocBuf_ok env s o c hP1 ho hok
    rcases hcase with hv | hp
    · exact (hP2 c hc hv).1
    · exact hp

theorem pinned_frame_kept_witness :
    Reachable plainFiles busyPool ∧ 0 < (busyPool.bufDescTable 1).pinCnt ∧
    ∃ s1, (Op.flushFile 1).run plainFiles busyPool = some s1 ∧
      (s1.bufDescTable 1).valid = true ∧
      (s1.bufDescTable 1).file = (busyPool.bufDescTable 1).file ∧
      (s1.bufDescTable 1).pageNo = (busyPool.bufDescTable 1).pageNo ∧
      ∃ f, (busyPool.bufDescTable 1).file = some f ∧
        s1.hashTable (f, (busyPool.bufDescTable 1).pageNo) = some 1 :=
  ⟨busyPool_reachable, by decide,
    (pinned_frame_kept plainFiles busyPool (Op.flushFile 1) 1 busyPool_reachable (by decide)
      busyPool_P1 busyPool_P2 (by decide) (by decide)).1⟩

/-! ## C2: a miss with every frame pinned -/

/-- C2: in a pool whose frames are all pinned, `readPage` of a page that is
not in the index throws `BufferExceededException` and leaves the whole state
as it was: clock hand, descriptors, index, frame contents, and no call is made
on any file. -/
theorem readPage_all_pinned_miss (env : FileLayer) (s : BufMgr) (file : Nat)
    (pageNo : Nat) (hpin : AllPinned s) (hmiss : s.hashTable (file, pageNo) = none) :
    readPage env s file pageNo = some ⟨.error .BufferExceededException, s⟩ := by
  simp [readPage, BufHashTbl.lookup, hmiss, allocBuf_all_pinned env s hpin]

theorem readPage_all_pinned_miss_witness :
    readPage plainFiles fullPool 1 11 = some ⟨.error .BufferExceededException, fullPool⟩ :=
  readPage_all_pinned_miss plainFiles fullPool 1 11
    (fun i hi => by
      have h1 : i < 1 := hi
      interval_cases i
      decide)
    rfl

/-! ## C3: what a successful `readPage` leaves -/

/-- C3: when `readPage(file, pageNo)` returns frame `fnum`, the index maps
`(file, pageNo)` to `fnum`, and descriptor `fnum` has its reference bit set and
a pin count of at least 1. When the page was already in the index, at frame
`i`, then `fnum = i`, the pin count of `i` is one more than before, and nothing
else changes: the other fields of descriptor `i`, every other descriptor, the
index, the frame contents, the clock hand, and no call is made on a file. -/
theorem readPage_ok (env : FileLayer) (s : BufMgr) (file pageNo : Nat)
    (o : Outcome Nat) (fnum : Nat)
    (hrun : readPage env s file pageNo = some o) (hok : o.res = .ok fnum) :
    (o.st.hashTable (file, pageNo) = some fnum ∧
      (o.st.bufDescTable fnum).refbit = true ∧ 1 ≤ (o.st.bufDescTable fnum).pinCnt) ∧
    (∀ i, s.hashTable (file, pageNo) = some i →
      fnum = i ∧
      (o.st.bufDescTable i).pinCnt = (s.bufDescTable i).pinCnt + 1 ∧
      (o.st.bufDescTable i).valid = (s.bufDescTable i).valid ∧
      (o.st.bufDescTable i).file = (s.bufDescTable i).file ∧
      (o.st.bufDescTable i).pageNo = (s.bufDescTable i).pageNo ∧
      (o.st.bufDescTable i).dirty = (s.bufDescTable i).dirty ∧
      (o.st.bufDescTable i).frameNo = (s.bufDescTable i).frameNo ∧
      (∀ j, j ≠ i → o.st.bufDescTable j = s.bufDescTable j) ∧
      o.st.hashTable = s.hashTable ∧ o.st.bufPool = s.bufPool ∧
      o.st.clockHand = s.clockHand ∧ o.st.numBufs = s.numBufs ∧ o.st.calls = s.calls) := by
  unfold readPage at hrun
  cases hl : s.hashTable (file, pageNo) with
  | some i =>
    simp only [BufHashTbl.lookup, hl, Option.some.injEq] at hrun
    subst hrun
    simp only [Except.ok.injEq] at hok
    subst hok
    refine ⟨⟨?_, ?_, ?_⟩, ?_⟩
    · simpa [BufMgr.setDesc] using hl
    · simp [BufMgr.setDesc]
    · simp [BufMgr.setDesc]
    · intro i hi
      simp only [Option.some.injEq] at hi
      subst hi
      simp only [BufMgr.setDesc, if_true, true_and, and_true]
      intro j hj
      simp [hj]
  | none =>
    refine ⟨?_, fun i hi => by simp at hi⟩
    simp only [BufHashTbl.lookup, hl] at hrun
    cases ha : allocBuf env s with
    | none => simp [ha] at hrun
    | some a =>
      simp only [ha] at hrun
      cases har : a.res with
      | error e =>
        simp only [har, Option.some.injEq] at hrun
        subst hrun
        simp at hok
      | ok c =>
        simp only [har] at hrun
        cases hr : env.readPage a.st.calls file pageNo with
        | none =>
          simp only [hr, Option.some.injEq] at hrun
          subst hrun
          simp at hok
        | some rPage =>
          simp only [hr, BufHashTbl.insert, BufMgr.setPage] at hrun
          cases hk : a.st.hashTable (file, pageNo) with
          | some x =>
            simp only [hk, Option.some.injEq] at hrun
            subst hrun
            simp at hok
          | none =>
            simp only [hk, Option.some.injEq] at hrun
            subst hrun
            simp only [Except.ok.injEq] at hok
            subst hok
            simp [BufMgr.setDesc, BufDesc.Set]

theorem readPage_ok_witness :
    ∃ o, readPage plainFiles residentPool 1 10 = some o ∧ o.res = .ok 0 ∧
      (o.st.bufDescTable 0).refbit = true ∧ (o.st.bufDescTable 0).pinCnt = 2 :=
  ⟨_, rfl, rfl,
    (readPage_ok plainFiles residentPool 1 10 _ 0 rfl rfl).1.2.1,
    ((readPage_ok plainFiles residentPool 1 10 _ 0 rfl rfl).2 0 rfl).2.1⟩

/-! ## C4 and C5: `unPinPage` -/

/-- What `unPinPage` does to a pinned page that is in the index. -/
theorem unPinPage_eq (s : BufMgr) (file pageNo : Nat) (dirty : Bool) (i : Nat)
    (hidx : s.hashTable (file, pageNo) = some i) (hpin : 0 < (s.bufDescTable i).pinCnt) :
    unPinPage s file pageNo dirty =
      ⟨.ok (), s.setDesc i { s.bufDescTable i with
        pinCnt := (s.bufDescTable i).pinCnt - 1
        dirty := ((s.bufDescTable i).dirty || dirty) }⟩ := by
  have h0 : (s.bufDescTable i).pinCnt ≠ 0 := by omega
  cases dirty <;> simp [unPinPage, BufHashTbl.lookup, hidx, h0]

/-- C4: when the index maps `(file, pageNo)` to frame `i` and `i` is pinned,
`unPinPage(file, pageNo, dirty)` returns normally, takes 1 off the pin count of
`i` and sets its dirty flag to (old dirty OR `dirty`). The other fields of
descriptor `i`, every other descriptor, the index, the frame contents and the
clock hand are unchanged and no call is made on a file. -/
theorem unPinPage_pinned (s : BufMgr) (file pageNo : Nat) (dirty : Bool) (i : Nat)
    (hidx : s.hashTable (file, pageNo) = some i) (hpin : 0 < (s.bufDescTable i).pinCnt) :
    (unPinPage s file pageNo dirty).res = .ok () ∧
    ((unPinPage s file pageNo dirty).st.bufDescTable i).pinCnt + 1 = (s.bufDescTable i).pinCnt ∧
    ((unPinPage s file pageNo dirty).st.bufDescTable i).dirty
      = ((s.bufDescTable i).dirty || dirty) ∧
    ((unPinPage s file pageNo dirty).st.bufDescTable i).valid = (s.bufDescTable i).valid ∧
    ((unPinPage s file pageNo dirty).st.bufDescTable i).file = (s.bufDescTable i).file ∧
    ((unPinPage s file pageNo dirty).st.bufDescTable i).pageNo = (s.bufDescTable i).pageNo ∧
    ((unPinPage s file pageNo dirty).st.bufDescTable i).refbit = (s.bufDescTable i).refbit ∧
    ((unPinPage s file pageNo dirty).st.bufDescTable i).frameNo = (s.bufDescTable i).frameNo ∧
    (∀ j, j ≠ i → (unPinPage s file pageNo dirty).st.bufDescTable j = s.bufDescTable j) ∧
    (unPinPage s file pageNo dirty).st.hashTable = s.hashTable ∧
    (unPinPage s file pageNo dirty).st.bufPool = s.bufPool ∧
    (unPinPage s file pageNo dirty).st.clockHand = s.clockHand ∧
    (unPinPage s file pageNo dirty).st.numBufs = s.numBufs ∧
    (unPinPage s file pageNo dirty).st.calls = s.calls := by
  rw [unPinPage_eq s file pageNo dirty i hidx hpin]
  simp only [BufMgr.setDesc, if_true, true_and, and_true]
  refine ⟨by omega, ?_⟩
  intro j hj
  simp [hj]

theorem unPinPage_pinned_witness :
    (unPinPage residentPool 1 10 false).res = .ok () ∧
    ((unPinPage residentPool 1 10 false).st.bufDescTable 0).pinCnt + 1 = 1 ∧
    ((unPinPage residentPool 1 10 false).st.bufDescTable 0).dirty = true :=
  have h := unPinPage_pinned residentPool 1 10 false 0 rfl (by decide)
  ⟨h.1, h.2.1, h.2.2.1⟩

/-- C5: `unPinPage(file, pageNo, dirty)` throws exactly when the index holds
`(file, pageNo)` and the frame it names has pin count 0, and what it throws is
`PageNotPinnedException`. Then, and when `(file, pageNo)` is not in the index
(where it returns normally), the state is left as it was, whatever `dirty`
is. -/
theorem unPinPage_error_iff (s : BufMgr) (file pageNo : Nat) (dirty : Bool) :
    ((∃ e, (unPinPage s file pageNo dirty).res = .error e) ↔
      ∃ i, s.hashTable (file, pageNo) = some i ∧ (s.bufDescTable i).pinCnt = 0) ∧
    (∀ i, s.hashTable (file, pageNo) = some i → (s.bufDescTable i).pinCnt = 0 →
      unPinPage s file pageNo dirty =
        ⟨.error (.PageNotPinnedException (s.bufDescTable i).pageNo i), s⟩) ∧
    (s.hashTable (file, pageNo) = none → unPinPage s file pageNo dirty = ⟨.ok (), s⟩) := by
  refine ⟨?_, ?_, ?_⟩
  · cases hl : s.hashTable (file, pageNo) with
    | none => simp [unPinPage, BufHashTbl.lookup, hl]
    | some i =>
      by_cases h0 : (s.bufDescTable i).pinCnt = 0
      · simp [unPinPage, BufHashTbl.lookup, hl, h0]
      · simp [unPinPage, BufHashTbl.lookup, hl, h0]
  · intro i hl h0
    simp [unPinPage, BufHashTbl.lookup, hl, h0]
  · intro hl
    simp [unPinPage, BufHashTbl.lookup, hl]

/-- C6: in a state of the buffer manager (one reached from a freshly
constructed pool by public operations) that satisfies P1 and in which every
resident frame of `file` is unpinned, and with the writes of `file`
succeeding, `flushFile(file)` returns normally and calls `writePage` exactly
once for each frame of `file` whose dirty flag is set, in frame order, and
makes no other call. Afterwards no descriptor and no index entry names `file`,
and the descriptors and index entries of the other files are unchanged. -/
theorem flushFile_unpinned (env : FileLayer) (s : BufMgr) (file : Nat)
    (hr : Reachable env s) (hP1 : P1 s)
    (hunp : ∀ i, i < s.numBufs → (s.bufDescTable i).valid = true →
      (s.bufDescTable i).file = some file → (s.bufDescTable i).pinCnt = 0)
    (hw : ∀ h pg, env.writePage h file pg = true) :
    (flushFile env s file).res = .ok () ∧
    (flushFile env s file).st.calls = s.calls ++ writesOf s file (List.range s.numBufs) ∧
    (∀ i, i < s.numBufs → ((flushFile env s file).st.bufDescTable i).file ≠ some file) ∧
    (∀ p, (flushFile env s file).st.hashTable (file, p) = none) ∧
    (∀ i, (s.bufDescTable i).file ≠ some file →
      (flushFile env s file).st.bufDescTable i = s.bufDescTable i) ∧
    (∀ f p, f ≠ file → (flushFile env s file).st.hashTable (f, p) = s.hashTable (f, p)) := by
  have hres : ∀ i, (s.bufDescTable i).file = some file → (s.bufDescTable i).valid = true :=
    fun i hf => reachable_named_valid env s hr i file hf
  obtain ⟨s2, h1, ⟨_, _, _, a4, a5, a6⟩, _⟩ :=
    flushLoop_run env file hw 0 s.numBufs 0 s hP1 (by omega)
      (fun j _ hj hjf => ⟨hres j hjf, hunp j (by omega) (hres j hjf) hjf⟩)
  have hst : flushFile env s file = ⟨.ok (), s2⟩ := by
    unfold flushFile
    rw [show s.numBufs = s.numBufs + 0 from rfl, h1]
    rfl
  rw [hst]
  refine ⟨rfl, ?_, fun i hi => ?_, fun p => ?_, fun i hi => ?_, fun f p hfp => ?_⟩
  · simp only [a4, List.range_eq_range']
  · simp only [a5]
    by_cases c : 0 ≤ i ∧ i < 0 + s.numBufs ∧ (s.bufDescTable i).file = some file
    · rw [if_pos c]; simp [BufDesc.Clear]
    · rw [if_neg c]
      exact fun e => c ⟨Nat.zero_le i, by omega, e⟩
  · simp only [a6]
    cases hx : s.hashTable (file, p) with
    | none => rfl
    | some i =>
      obtain ⟨b1, _, b3, _⟩ := hP1.1 file p i hx
      simp [b1, b3]
  · simp only [a5]
    rw [if_neg (fun c => hi c.2.2)]
  · simp only [a6]
    cases hx : s.hashTable (f, p) with
    | none => rfl
    | some i =>
      obtain ⟨_, _, b3, _⟩ := hP1.1 f p i hx
      have : ¬ (0 ≤ i ∧ i < 0 + s.numBufs ∧ (s.bufDescTable i).file = some file) := by
        intro c
        rw [b3] at c
        exact hfp (Option.some.inj c.2.2)
      simp only [if_neg this]

theorem flushFile_unpinned_witness :
    Reachable plainFiles idlePool ∧
    (flushFile plainFiles idlePool 1).res = .ok () ∧
    (flushFile plainFiles idlePool 1).st.calls =
      [FileCall.readPage 1 10, FileCall.writePage 1 ⟨10, 0⟩] ∧
    (flushFile plainFiles idlePool 1).st.hashTable (1, 10) = none :=
  have h := flushFile_unpinned plainFiles idlePool 1 idlePool_reachable idlePool_P1
    (fun i hi hv _ => by
      have h3 : i < 3 := hi
      interval_cases i
      · rfl
      · exact absurd hv (by decide)
      · exact absurd hv (by decide))
    (fun _ _ => rfl)
  ⟨idlePool_reachable, h.1, h.2.1, h.2.2.2.1 10⟩

/-- C7: in a state of the buffer manager (one reached from a freshly
constructed pool by public operations) that satisfies P1, let `k` be the
lowest-numbered pinned frame of `file`, and let the writes of `file` succeed.
Then `flushFile(file)` throws `PagePinnedException` reporting the page number
of frame `k` and the frame number `k`. Every frame of `file` below `k` has been
written if dirty, removed from the index and cleared; frame `k`, the frames
above it and their index entries are unchanged. -/
theorem flushFile_pinned (env : FileLayer) (s : BufMgr) (file k : Nat)
    (hr : Reachable env s) (hP1 : P1 s)
    (hk : k < s.numBufs) (hfk : (s.bufDescTable k).file = some file)
    (hpk : 0 < (s.bufDescTable k).pinCnt)
    (hlow : ∀ j, j < k → (s.bufDescTable j).file = some file → (s.bufDescTable j).pinCnt = 0)
    (hw : ∀ h pg, env.writePage h file pg = true) :
    (flushFile env s file).res =
      .error (.PagePinnedException (s.bufDescTable k).pageNo k) ∧
    (flushFile env s file).st.calls = s.calls ++ writesOf s file (List.range k) ∧
    (∀ j, j < k → (s.bufDescTable j).file = some file →
      (flushFile env s file).st.bufDescTable j = (s.bufDescTable j).Clear ∧
      (flushFile env s file).st.hashTable (file, (s.bufDescTable j).pageNo) = none) ∧
    (∀ j, k ≤ j → (flushFile env s file).st.bufDescTable j = s.bufDescTable j) ∧
    (∀ x i, s.hashTable x = some i → k ≤ i →
      (flushFile env s file).st.hashTable x = some i) := by
  have hres : ∀ i, (s.bufDescTable i).file = some file → (s.bufDescTable i).valid = true :=
    fun i hf => reachable_named_valid env s hr i file hf
  obtain ⟨n, hn⟩ : ∃ n, s.numBufs = k + (n + 1) := ⟨s.numBufs - k - 1, by omega⟩
  obtain ⟨s2, h1, ⟨_, _, _, a4, a5, a6⟩, _⟩ :=
    flushLoop_run env file hw (n + 1) k 0 s hP1 (by omega)
      (fun j _ hj hjf => ⟨hres j hjf, hlow j (by omega) hjf⟩)
  have hdk : s2.bufDescTable k = s.bufDescTable k := by
    rw [a5, if_neg (by omega)]
  have hst : flushFile env s file =
      ⟨.error (.PagePinnedException (s.bufDescTable k).pageNo k), s2⟩ := by
    unfold flushFile
    rw [hn, h1, Nat.zero_add,
      flushLoop_pinned env file n k s2 (by rw [hdk]; exact hfk) (by rw [hdk]; exact hpk), hdk,
      (reachable_tidy env s hr k).1]
  rw [hst]
  refine ⟨rfl, ?_, fun j hj hjf => ⟨?_, ?_⟩, fun j hj => ?_, fun x i hx hi => ?_⟩
  · simp only [a4, List.range_eq_range']
  · simp only [a5]
    rw [if_pos ⟨Nat.zero_le j, by omega, hjf⟩]
  · simp only [a6]
    have hkey := (hP1.key_iff (show j < s.numBufs by omega) (hres j hjf) hjf _).2 rfl
    rw [hkey]
    simp only
    rw [if_pos ⟨Nat.zero_le j, by omega, hjf⟩]
  · simp only [a5]
    rw [if_neg (by omega)]
  · simp only [a6, hx]
    rw [if_neg (by omega)]

theorem flushFile_pinned_witness :
    Reachable plainFiles busyPool ∧
    (flushFile plainFiles busyPool 1).res = .error (.PagePinnedException 11 1) ∧
    (flushFile plainFiles busyPool 1).st.calls =
      [FileCall.readPage 1 10, FileCall.readPage 1 11, FileCall.writePage 1 ⟨10, 0⟩] ∧
    (flushFile plainFiles busyPool 1).st.hashTable (1, 10) = none ∧
    (flushFile plainFiles busyPool 1).st.hashTable (1, 11) = some 1 :=
  have h := flushFile_pinned plainFiles busyPool 1 1 busyPool_reachable busyPool_P1
    (by decide) rfl (by decide)
    (fun j hj _ => by
      interval_cases j
      rfl)
    (fun _ _ => rfl)
  ⟨busyPool_reachable, h.1, h.2.1, (h.2.2.1 0 (by decide) rfl).2,
    h.2.2.2.2 (1, 11) 1 rfl (by decide)⟩

/-! ## C8, C9 and C10: `disposePage` -/

/-- C8, the code at the scenario "allocPage(F) → (p, _); disposePage(F, p)":
the page allocated is pinned in frame 0, and `disposePage` of it returns
normally, with the state untouched: the `PagePinnedException` thrown in the
`try` block is caught by the handler of `disposePage` itself. -/
theorem disposePage_pinned_returns :
    ∃ o, allocPage plainFiles (BufMgr.new 3) 1 = some o ∧ o.res = .ok (1, 0) ∧
      o.st.hashTable (1, 1) = some 0 ∧ (o.st.bufDescTable 0).pinCnt = 1 ∧
      disposeTry o.st 1 1 = .error (.PagePinnedException 1 0) ∧
      disposePage plainFiles o.st 1 1 = ⟨.ok (), o.st⟩ :=
  ⟨_, rfl, rfl, rfl, rfl, rfl, rfl⟩

/-- C9 as stated fails: page 5 of file 1 is not in the index of a fresh pool,
and `disposePage` of it makes no `deletePage` call. -/
theorem disposePage_absent_no_delete :
    (BufMgr.new 1).hashTable (1, 5) = none ∧
    deleteCalls (disposePage plainFiles (BufMgr.new 1) 1 5).st.calls 1 5 = 0 ∧
    deleteCalls (disposePage plainFiles (BufMgr.new 1) 1 5).st.calls 1 5 ≠
      deleteCalls (BufMgr.new 1).calls 1 5 + 1 :=
  ⟨rfl, rfl, by decide⟩

/-- C9 (amended): when `(file, PageNo)` is not in the index, `disposePage`
returns normally and leaves the whole state as it was: descriptors and index
are unchanged and no call is made on the file, so the page is not deleted. -/
theorem disposePage_absent (env : FileLayer) (s : BufMgr) (file PageNo : Nat)
    (h : s.hashTable (file, PageNo) = none) :
    disposePage env s file PageNo = ⟨.ok (), s⟩ ∧
    deleteCalls (disposePage env s file PageNo).st.calls file PageNo =
      deleteCalls s.calls file PageNo := by
  rw [disposePage_of_absent env s file PageNo h]
  exact ⟨rfl, rfl⟩

theorem disposePage_absent_witness :
    disposePage plainFiles residentPool 1 11 = ⟨.ok (), residentPool⟩ :=
  (disposePage_absent plainFiles residentPool 1 11 rfl).1

/-- A successful `allocPage` in a state that satisfies P1: the file allocated
page `p`, `allocBuf` returned frame `fr`, `p` was not in the index, and the
frame is filled with the page, entered in the index and `Set`. -/
theorem allocPage_ok (env : FileLayer) (s : BufMgr) (file : Nat) (o : Outcome (Nat × Nat))
    (p fr : Nat) (h : allocPage env s file = some o) (hok : o.res = .ok (p, fr)) :
    ∃ npage a, env.allocatePage s.calls file = some npage ∧ npage.number = p ∧
      allocBuf env { s with calls := s.calls ++ [FileCall.allocatePage file] } = some a ∧
      a.res = .ok fr ∧ a.st.hashTable (file, p) = none ∧
      o.st = ({ a.st.setPage fr npage with
                hashTable := fun k => if k = (file, p) then some fr else a.st.hashTable k }).setDesc
              fr ((a.st.bufDescTable fr).Set file p) := by
  unfold allocPage at h
  cases hal : env.allocatePage s.calls file with
  | none =>
    simp only [hal, Option.some.injEq] at h
    subst h
    simp at hok
  | some npage =>
    simp only [hal] at h
    cases ha : allocBuf env { s with calls := s.calls ++ [FileCall.allocatePage file] } with
    | none => simp [ha] at h
    | some a =>
      simp only [ha] at h
      cases har : a.res with
      | error e =>
        simp only [har, Option.some.injEq] at h
        subst h
        simp at hok
      | ok c =>
        simp only [har, BufHashTbl.insert, setPage_hashTable] at h
        cases hx : a.st.hashTable (file, npage.number) with
        | some y =>
          simp only [hx, Option.some.injEq] at h
          subst h
          simp at hok
        | none =>
          simp only [hx, Option.some.injEq] at h
          subst h
          simp only [Except.ok.injEq, Prod.mk.injEq] at hok
          obtain ⟨hp, hc⟩ := hok
          subst hp
          subst hc
          exact ⟨npage, a, rfl, rfl, rfl, har, hx, rfl⟩

theorem disposePage_unpinned_effect (env : FileLayer) (t : BufMgr) (f q i : Nat)
    (h : t.hashTable (f, q) = some i) (hp : (t.bufDescTable i).pinCnt = 0) :
    (disposePage env t f q).st.numBufs = t.numBufs ∧
    (∀ x, (disposePage env t f q).st.hashTable x = if x = (f, q) then none else t.hashTable x) ∧
    (∀ j, (disposePage env t f q).st.bufDescTable j =
      if j = i then (t.bufDescTable i).Clear else t.bufDescTable j) ∧
    (disposePage env t f q).st.calls = t.calls ++ [FileCall.deletePage f q] ∧
    (env.deletePage t.calls f q = true → (disposePage env t f q).res = .ok ()) := by
  rw [disposePage_of_unpinned env t f q i h hp]
  refine ⟨by rw [fileDeletePage_st]; rfl, fun x => by rw [fileDeletePage_st]; rfl,
    fun j => by rw [fileDeletePage_st]; rfl, by rw [fileDeletePage_st]; rfl, fun hd => ?_⟩
  unfold fileDeletePage
  simp only [setDesc_calls]
  rw [if_pos hd]

/-- C10: in a state that satisfies P1, after `allocPage(file)` has returned
page `p` in frame `fr`, and with the file carrying out `deletePage`,
`unPinPage(file, p, false)` and then `disposePage(file, p)` both return
normally; afterwards no descriptor is valid with `(file, p)`, the index has no
entry for `(file, p)`, frame `fr` is cleared, and over the three operations the
file got exactly one `deletePage` call, for `p`. More generally `disposePage` of
any page the index maps to a frame `i` with pin count 0 removes its index entry,
clears descriptor `i` and makes the one call `deletePage`: nothing is written
back, dirty or not. -/
theorem alloc_unpin_dispose (env : FileLayer) (s : BufMgr) (file p fr : Nat)
    (s1 s2 s3 : BufMgr) (hP1 : P1 s)
    (halloc : allocPage env s file = some ⟨.ok (p, fr), s1⟩)
    (hs2 : s2 = (unPinPage s1 file p false).st)
    (hs3 : s3 = (disposePage env s2 file p).st)
    (hdel : env.deletePage s1.calls file p = true) :
    (unPinPage s1 file p false).res = .ok () ∧
    (disposePage env s2 file p).res = .ok () ∧
    (∀ i, i < s3.numBufs → ¬ ((s3.bufDescTable i).valid = true ∧
      (s3.bufDescTable i).file = some file ∧ (s3.bufDescTable i).pageNo = p)) ∧
    s3.hashTable (file, p) = none ∧
    ((s3.bufDescTable fr).valid = false ∧ (s3.bufDescTable fr).pinCnt = 0 ∧
      (s3.bufDescTable fr).dirty = false ∧ (s3.bufDescTable fr).refbit = false) ∧
    s3.calls = s1.calls ++ [FileCall.deletePage file p] ∧
    deletesOf s3.calls = deletesOf s.calls ++ [FileCall.deletePage file p] ∧
    (∀ (t : BufMgr) (f q i : Nat), t.hashTable (f, q) = some i →
      (t.bufDescTable i).pinCnt = 0 →
      (disposePage env t f q).st.hashTable (f, q) = none ∧
      (disposePage env t f q).st.bufDescTable i = (t.bufDescTable i).Clear ∧
      (disposePage env t f q).st.calls = t.calls ++ [FileCall.deletePage f q] ∧
      (env.deletePage t.calls f q = true → (disposePage env t f q).res = .ok ())) := by
  obtain ⟨npage, a, _, _, ha, har, hx, hst⟩ := allocPage_ok env s file _ p fr halloc rfl
  have hP0 : P1 { s with calls := s.calls ++ [FileCall.allocatePage file] } := hP1
  obtain ⟨r1, _, hc, _, hn, _, _, _, _, hcalls⟩ := allocBuf_ok env _ a fr hP0 ha har
  obtain ⟨hPa, hva, _⟩ := allocBuf_ok_P1 env _ a fr hP0 ha har
  simp only at hst hn hc hcalls
  -- the state after allocPage
  have hP1s1 : P1 s1 := by
    rw [hst]
    exact hPa.fill fr file p (by rw [hn]; exact hc) hva hx rfl (fun j => rfl) (fun x => rfl)
  have hk1 : s1.hashTable (file, p) = some fr := by rw [hst]; simp
  have hd1 : s1.bufDescTable fr = (a.st.bufDescTable fr).Set file p := by rw [hst]; simp
  have hpin1 : 0 < (s1.bufDescTable fr).pinCnt := by rw [hd1]; simp [BufDesc.Set]
  -- unPinPage
  have hu := unPinPage_eq s1 file p false fr hk1 hpin1
  rw [hu] at hs2
  have u1 : (unPinPage s1 file p false).res = .ok () := by rw [hu]
  have u9 : ∀ j, j ≠ fr → s2.bufDescTable j = s1.bufDescTable j := by
    intro j hj
    rw [hs2, setDesc_bufDescTable, if_neg hj]
  have u13 : s2.numBufs = s1.numBufs := by rw [hs2]; rfl
  have u14 : s2.calls = s1.calls := by rw [hs2]; rfl
  have hk2 : s2.hashTable (file, p) = some fr := by rw [hs2]; exact hk1
  have hpin2 : (s2.bufDescTable fr).pinCnt = 0 := by
    rw [hs2, setDesc_bufDescTable, if_pos rfl, hd1]
    rfl
  -- disposePage
  obtain ⟨e1, e2, e3, e4, e5⟩ := disposePage_unpinned_effect env s2 file p fr hk2 hpin2
  rw [← hs3] at e1 e2 e3 e4
  have hcalls3 : s3.calls = s1.calls ++ [FileCall.deletePage file p] := by rw [e4, u14]
  refine ⟨u1, e5 (by rw [u14]; exact hdel), fun i hi hbad => ?_, by rw [e2]; simp,
    by rw [e3, if_pos rfl]; simp [BufDesc.Clear], hcalls3, ?_,
    fun t f q i h hp => ?_⟩
  · obtain ⟨b1, b2, b3⟩ := hbad
    have hif : i ≠ fr := by
      intro e
      rw [e3, if_pos e] at b1
      simp [BufDesc.Clear] at b1
    rw [e3, if_neg hif, u9 i hif] at b1 b2 b3
    rw [e1, u13] at hi
    obtain ⟨g, hg, hkey⟩ := hP1s1.2 i hi b1
    rw [b2] at hg
    simp only [Option.some.injEq] at hg
    subst hg
    rw [b3, hk1] at hkey
    simp only [Option.some.injEq] at hkey
    exact hif hkey.symm
  · rw [hcalls3, hst]
    simp only [setDesc_calls, setPage_calls]
    rcases hcalls with hc1 | ⟨_, _, f, _, hc2⟩
    · rw [hc1]
      simp [deletesOf, List.filter_append]
    · rw [hc2]
      simp [deletesOf, List.filter_append]
  · obtain ⟨_, g2, g3, g4, g5⟩ := disposePage_unpinned_effect env t f q i h hp
    exact ⟨by rw [g2]; simp, by rw [g3, if_pos rfl], g4, g5⟩

theorem alloc_unpin_dispose_witness :
    ∃ s1 s3, allocPage plainFiles dirtyPool 1 = some ⟨.ok (1, 0), s1⟩ ∧
      s3 = (disposePage plainFiles (unPinPage s1 1 1 false).st 1 1).st ∧
      (disposePage plainFiles (unPinPage s1 1 1 false).st 1 1).res = .ok () ∧
      s3.hashTable (1, 1) = none ∧ (s3.bufDescTable 0).valid = false ∧
      s3.calls = [FileCall.allocatePage 1, FileCall.writePage 1 ⟨10, 3⟩,
        FileCall.deletePage 1 1] :=
  have h := alloc_unpin_dispose plainFiles dirtyPool 1 1 0 _ _ _ dirtyPool_P1 rfl rfl rfl rfl
  ⟨_, _, rfl, rfl, h.2.1, h.2.2.2.1, h.2.2.2.2.1.1, h.2.2.2.2.2.1⟩

/-! ## C11: a successful `allocPage` -/

/-- Says that `allocBuf` returns a frame in a state that satisfies P1 and has an
unpinned frame, when the writes of the files succeed. -/
theorem allocBuf_frame (env : FileLayer) (s : BufMgr) (j : Nat)
    (hN : s.numBufs < 4294967296) (hP1 : P1 s) (hj : j < s.numBufs)
    (hp : (s.bufDescTable j).pinCnt = 0) (hw : ∀ h f pg, env.writePage h f pg = true) :
    ∃ a c, allocBuf env s = some a ∧ a.res = .ok c := by
  obtain ⟨a, ha⟩ := allocBuf_returns env s hN
  rcases allocBuf_cases env s a hP1 ha with ⟨hall, _⟩ | ⟨s1, _, _, hcase⟩
  · have := hall j hj
    omega
  · rcases hcase with ⟨_, ho⟩ | ⟨_, _, _, f, _, _, ⟨_, ho⟩ | ⟨_, _, ho⟩ | ⟨_, hwf, _⟩⟩
    · exact ⟨a, _, ha, by rw [ho]⟩
    · exact ⟨a, _, ha, by rw [ho]⟩
    · exact ⟨a, _, ha, by rw [ho]⟩
    · rw [hw] at hwf
      exact Bool.noConfusion hwf

/-- C11 (amended): in a state of fewer than 2^32 frames that satisfies P1 and
has an unpinned frame, when the file's `allocatePage` returns a page whose
number is not in the index for that file and the writes of the files succeed,
`allocPage(file)` returns normally: the page number returned is the number of
the page `allocatePage` produced, the frame returned holds that page, the
index maps `(file, page_no)` to that frame, and its descriptor has
`valid = true`, `file`, that page number, `pin_count = 1`, `dirty = false` and
`ref_bit = true`. -/
theorem allocPage_succeeds (env : FileLayer) (s : BufMgr) (file : Nat) (npage : Page)
    (j : Nat) (hN : s.numBufs < 4294967296) (hP1 : P1 s) (hj : j < s.numBufs)
    (hp : (s.bufDescTable j).pinCnt = 0)
    (hal : env.allocatePage s.calls file = some npage)
    (hfresh : s.hashTable (file, npage.number) = none)
    (hw : ∀ h f pg, env.writePage h f pg = true) :
    ∃ fr s1, allocPage env s file = some ⟨.ok (npage.number, fr), s1⟩ ∧
      fr < s.numBufs ∧ s1.bufPool fr = npage ∧
      s1.hashTable (file, npage.number) = some fr ∧
      (s1.bufDescTable fr).valid = true ∧ (s1.bufDescTable fr).file = some file ∧
      (s1.bufDescTable fr).pageNo = npage.number ∧ (s1.bufDescTable fr).pinCnt = 1 ∧
      (s1.bufDescTable fr).dirty = false ∧ (s1.bufDescTable fr).refbit = true := by
  have hP0 : P1 { s with calls := s.calls ++ [FileCall.allocatePage file] } := hP1
  obtain ⟨a, c, ha, har⟩ := allocBuf_frame env
    { s with calls := s.calls ++ [FileCall.allocatePage file] } j hN hP0 hj hp hw
  obtain ⟨_, _, hc, _, _, _, hh, _⟩ := allocBuf_ok env _ a c hP0 ha har
  have hx : a.st.hashTable (file, npage.number) = none := by
    rw [hh]
    simp only
    rw [hfresh]
    simp
  have hrun : allocPage env s file = some ⟨.ok (npage.number, c),
      ({ a.st.setPage c npage with
          hashTable := fun k =>
            if k = (file, npage.number) then some c else a.st.hashTable k }).setDesc
        c ((a.st.bufDescTable c).Set file npage.number)⟩ := by
    unfold allocPage
    simp only [hal, ha, har, BufHashTbl.insert, setPage_hashTable, hx]
    rfl
  refine ⟨c, _, hrun, hc, ?_⟩
  simp [BufDesc.Set]

/-- C11 as stated fails: `orphanPool` has an unpinned frame, yet `allocPage`
throws `HashNotFoundException`: the frame the clock picks is valid but its page
is not in the index, so `remove` fails. -/
theorem allocPage_orphan_throws :
    (orphanPool.bufDescTable 0).pinCnt = 0 ∧ 0 < orphanPool.numBufs ∧
    (allocPage plainFiles orphanPool 1).map (fun o => o.res) =
      some (.error .HashNotFoundException) :=
  ⟨rfl, by decide, rfl⟩

theorem allocPage_succeeds_witness :
    ∃ fr s1, allocPage plainFiles dirtyPool 1 = some ⟨.ok (1, fr), s1⟩ ∧
      s1.hashTable (1, 1) = some fr ∧ (s1.bufDescTable fr).pinCnt = 1 :=
  have h := allocPage_succeeds plainFiles dirtyPool 1 ⟨1, 0⟩ 0 (by decide) dirtyPool_P1
    (by decide) rfl rfl rfl (fun _ _ _ => rfl)
  by
    obtain ⟨fr, s1, h1, _, _, h4, _, _, _, h8, _⟩ := h
    exact ⟨fr, s1, h1, h4, h8⟩

/-! ## C12: P1 is kept -/

theorem new_P1 (bufs : Nat) : P1 (BufMgr.new bufs) := by
  refine ⟨fun f p i h => ?_, fun i _ hv => ?_⟩
  · simp [BufMgr.new] at h
  · simp [BufMgr.new] at hv

/-- P1 only looks at the frame count, the index and the fields `valid`, `file`
and `pageNo` of the descriptors. -/
theorem P1.of_same {s s1 : BufMgr} (hP : P1 s) (hn : s1.numBufs = s.numBufs)
    (hh : s1.hashTable = s.hashTable)
    (hd : ∀ j, (s1.bufDescTable j).valid = (s.bufDescTable j).valid ∧
      (s1.bufDescTable j).file = (s.bufDescTable j).file ∧
      (s1.bufDescTable j).pageNo = (s.bufDescTable j).pageNo) : P1 s1 := by
  refine ⟨fun f p i hi => ?_, fun i hi hv => ?_⟩
  · rw [hh] at hi
    obtain ⟨a, b, c, d⟩ := hP.1 f p i hi
    obtain ⟨e1, e2, e3⟩ := hd i
    exact ⟨by rw [hn]; exact a, by rw [e1]; exact b, by rw [e2]; exact c, by rw [e3]; exact d⟩
  · obtain ⟨e1, e2, e3⟩ := hd i
    rw [hn] at hi
    rw [e1] at hv
    obtain ⟨f, hf, hk⟩ := hP.2 i hi hv
    exact ⟨f, by rw [e2]; exact hf, by rw [hh, e3]; exact hk⟩

/-- Unless a file call fails, `allocBuf` keeps P1; the frame it returns is in
range and empty. -/
theorem allocBuf_P1 (env : FileLayer) (s : BufMgr) (a : Outcome Nat) (hP : P1 s)
    (h : allocBuf env s = some a) (hne : a.res ≠ .error .FileException) :
    P1 a.st ∧ ∀ c, a.res = .ok c → c < a.st.numBufs ∧ (a.st.bufDescTable c).valid = false := by
  cases har : a.res with
  | ok c =>
    obtain ⟨h1, h2, _⟩ := allocBuf_ok_P1 env s a c hP h har
    obtain ⟨_, _, hc, _, hn, _⟩ := allocBuf_ok env s a c hP h har
    refine ⟨h1, fun c1 hc1 => ?_⟩
    simp only [Except.ok.injEq] at hc1
    subst hc1
    exact ⟨by rw [hn]; exact hc, h2⟩
  | error e =>
    refine ⟨?_, fun c hc => by simp at hc⟩
    rcases allocBuf_cases env s a hP h with ⟨_, ho⟩ | ⟨s1, _, _, hcase⟩
    · rw [ho]; exact hP
    · exfalso
      rcases hcase with ⟨_, ho⟩ | ⟨_, _, _, f, _, _, ⟨_, ho⟩ | ⟨_, _, ho⟩ | ⟨_, _, ho⟩⟩
      · rw [ho] at har; simp at har
      · rw [ho] at har; simp at har
      · rw [ho] at har; simp at har
      · exact hne (by rw [ho])

theorem readPage_P1 (env : FileLayer) (s : BufMgr) (file pageNo : Nat) (o : Outcome Nat)
    (hP : P1 s) (h : readPage env s file pageNo = some o)
    (hne : o.res ≠ .error .FileException) : P1 o.st := by
  unfold readPage at h
  cases hl : s.hashTable (file, pageNo) with
  | some fnum =>
    simp only [BufHashTbl.lookup, hl, Option.some.injEq] at h
    subst h
    refine hP.of_same rfl rfl (fun j => ?_)
    by_cases hj : j = fnum
    · subst hj; simp
    · simp [hj]
  | none =>
    simp only [BufHashTbl.lookup, hl] at h
    cases ha : allocBuf env s with
    | none => simp [ha] at h
    | some a =>
      simp only [ha] at h
      cases har : a.res with
      | error e =>
        simp only [har, Option.some.injEq] at h
        subst h
        exact (allocBuf_P1 env s a hP ha (by rw [har]; simpa using hne)).1
      | ok c =>
        obtain ⟨hPa, hca⟩ := allocBuf_P1 env s a hP ha (by rw [har]; simp)
        obtain ⟨hc, hv⟩ := hca c har
        simp only [har] at h
        cases hr : env.readPage a.st.calls file pageNo with
        | none =>
          simp only [hr, Option.some.injEq] at h
          subst h
          exact hPa
        | some rPage =>
          simp only [hr, BufHashTbl.insert, setPage_hashTable] at h
          cases hx : a.st.hashTable (file, pageNo) with
          | some y =>
            simp only [hx, Option.some.injEq] at h
            subst h
            exact hPa
          | none =>
            simp only [hx, Option.some.injEq] at h
            subst h
            exact hPa.fill c file pageNo hc hv hx rfl (fun j => rfl) (fun x => rfl)

theorem allocPage_P1 (env : FileLayer) (s : BufMgr) (file : Nat) (o : Outcome (Nat × Nat))
    (hP : P1 s) (h : allocPage env s file = some o)
    (hne : o.res ≠ .error .FileException) : P1 o.st := by
  unfold allocPage at h
  cases hal : env.allocatePage s.calls file with
  | none =>
    simp only [hal, Option.some.injEq] at h
    subst h
    exact hP
  | some npage =>
    simp only [hal] at h
    have hP0 : P1 { s with calls := s.calls ++ [FileCall.allocatePage file] } := hP
    cases ha : allocBuf env { s with calls := s.calls ++ [FileCall.allocatePage file] } with
    | none => simp [ha] at h
    | some a =>
      simp only [ha] at h
      cases har : a.res with
      | error e =>
        simp only [har, Option.some.injEq] at h
        subst h
        exact (allocBuf_P1 env _ a hP0 ha (by rw [har]; simpa using hne)).1
      | ok c =>
        obtain ⟨hPa, hca⟩ := allocBuf_P1 env _ a hP0 ha (by rw [har]; simp)
        obtain ⟨hc, hv⟩ := hca c har
        simp only [har, BufHashTbl.insert, setPage_hashTable] at h
        cases hx : a.st.hashTable (file, npage.number) with
        | some y =>
          simp only [hx, Option.some.injEq] at h
          subst h
          exact hPa
        | none =>
          simp only [hx, Option.some.injEq] at h
          subst h
          exact hPa.fill c file npage.number hc hv hx rfl (fun j => rfl) (fun x => rfl)

theorem unPinPage_P1 (s : BufMgr) (file pageNo : Nat) (dirty : Bool) (hP : P1 s) :
    P1 (unPinPage s file pageNo dirty).st := by
  unfold unPinPage
  cases hl : s.hashTable (file, pageNo) with
  | none => simpa [BufHashTbl.lookup, hl] using hP
  | some fnum =>
    simp only [BufHashTbl.lookup, hl]
    by_cases h0 : (s.bufDescTable fnum).pinCnt = 0
    · simpa [h0] using hP
    · simp only [h0, if_false]
      refine hP.of_same rfl rfl (fun j => ?_)
      by_cases hj : j = fnum
      · subst hj; cases dirty <;> simp
      · simp [hj]

theorem disposePage_P1 (env : FileLayer) (s : BufMgr) (file PageNo : Nat) (hP : P1 s) :
    P1 (disposePage env s file PageNo).st := by
  cases hl : s.hashTable (file, PageNo) with
  | none => rw [disposePage_of_absent env s file PageNo hl]; exact hP
  | some fnum =>
    by_cases h0 : (s.bufDescTable fnum).pinCnt = 0
    · rw [disposePage_of_unpinned env s file PageNo fnum hl h0, fileDeletePage_st]
      obtain ⟨b1, b2, b3, b4⟩ := hP.1 file PageNo fnum hl
      refine hP.after_clear fnum rfl (fun j => rfl) (fun x => ?_)
      have hkey := hP.key_iff b1 b2 b3 x
      rw [b4] at hkey
      show (if x = (file, PageNo) then none else s.hashTable x) = _
      by_cases hx : x = (file, PageNo)
      · simp [hx, hl]
      · have : ¬ s.hashTable x = some fnum := fun e => hx (hkey.1 e)
        simp [hx, this]
    · rw [disposePage_of_pinned env s file PageNo fnum hl (by omega)]
      exact hP

/-- The loop of `flushFile` keeps P1 unless it throws `BadBufferException`. -/
theorem flushLoop_P1 (env : FileLayer) (file : Nat) :
    ∀ (n k : Nat) (s : BufMgr), P1 s → k + n ≤ s.numBufs →
      (∀ a b c d, (flushLoop env file n k s).res ≠ .error (.BadBufferException a b c d)) →
      P1 (flushLoop env file n k s).st := by
  intro n
  induction n with
  | zero => intro k s hP _ _; exact hP
  | succ n ih =>
    intro k s hP hkn hne
    have hk : k < s.numBufs := by omega
    by_cases hf : (s.bufDescTable k).file = some file
    · by_cases hp : 0 < (s.bufDescTable k).pinCnt
      · rw [flushLoop_pinned env file n k s hf hp]
        exact hP
      · have hp0 : (s.bufDescTable k).pinCnt = 0 := by omega
        by_cases hw : (s.bufDescTable k).dirty = true ∧
            env.writePage s.calls file (s.bufPool k) = false
        · rw [flushLoop_write_fails env file n k s hf hp0 hw.1 hw.2]
          exact hP
        · have hw2 : (s.bufDescTable k).dirty = true →
              env.writePage s.calls file (s.bufPool k) = true := by
            intro hd
            cases hw3 : env.writePage s.calls file (s.bufPool k) with
            | true => rfl
            | false => exact absurd ⟨hd, hw3⟩ hw
          cases hv : (s.bufDescTable k).valid with
          | true =>
            have hkey := (hP.key_iff hk hv hf _).2 rfl
            rw [flushLoop_flush env file n k s hf hp0 hv hkey hw2] at hne ⊢
            exact ih (k + 1) (flushFrame s file k) (flushFrame_P1 hP hk hv hf)
              (by simp; omega) hne
          | false =>
            cases hx : s.hashTable (file, (s.bufDescTable k).pageNo) with
            | none =>
              cases hd : (s.bufDescTable k).dirty with
              | false =>
                simpa [flushLoop, hf, hp0, hd, hx, BufHashTbl.remove] using hP
              | true =>
                simpa [flushLoop, hf, hp0, hd, hx, BufHashTbl.remove, fileWritePage, hw2 hd]
                  using hP
            | some y =>
              exfalso
              cases hd : (s.bufDescTable k).dirty with
              | false =>
                exact hne (s.bufDescTable k).frameNo false false (s.bufDescTable k).refbit
                  (by simp [flushLoop, hf, hp0, hd, hx, BufHashTbl.remove, hv])
              | true =>
                exact hne (s.bufDescTable k).frameNo true false (s.bufDescTable k).refbit
                  (by simp [flushLoop, hf, hp0, hd, hx, BufHashTbl.remove, hv, fileWritePage,
                    hw2 hd])
    · rw [flushLoop_skip env file n k s hf] at hne ⊢
      exact ih (k + 1) s hP (by omega) hne

theorem Op.exec_returns (env : FileLayer) (s : BufMgr) (op : Op)
    (hN : s.numBufs < 4294967296) : ∃ o, op.exec env s = some o := by
  cases op with
  | readPage file pageNo =>
    obtain ⟨o, ho⟩ := readPage_returns env s file pageNo hN
    exact ⟨⟨o.res.map (fun _ => ()), o.st⟩, by simp only [Op.exec, ho, Option.map_some']⟩
  | allocPage file =>
    obtain ⟨o, ho⟩ := allocPage_returns env s file hN
    exact ⟨⟨o.res.map (fun _ => ()), o.st⟩, by simp only [Op.exec, ho, Option.map_some']⟩
  | unPinPage file pageNo dirty => exact ⟨_, rfl⟩
  | flushFile file => exact ⟨_, rfl⟩
  | disposePage file pageNo => exact ⟨_, rfl⟩

/-- C12: P1 holds in a freshly constructed pool, and a public operation
(`readPage`, `allocPage`, `unPinPage`, `flushFile`, `disposePage`) started in a
state that satisfies P1 leaves a state that satisfies P1 whenever it returns
normally or throws `BufferExceededException`, `PagePinnedException` or
`PageNotPinnedException`. With fewer than 2^32 frames (`numBufs` is a
`std::uint32_t`) every operation does end in one outcome. -/
theorem P1_invariant (env : FileLayer) (s : BufMgr) (op : Op) (o : Outcome Unit)
    (hP : P1 s) (hrun : op.exec env s = some o)
    (hres : o.res = .ok () ∨ o.res = .error .BufferExceededException ∨
      (∃ p f, o.res = .error (.PagePinnedException p f)) ∨
      (∃ p f, o.res = .error (.PageNotPinnedException p f))) :
    P1 o.st ∧ (∀ bufs, P1 (BufMgr.new bufs)) ∧
    (s.numBufs < 4294967296 → ∀ op1 : Op, ∃ o1, op1.exec env s = some o1) := by
  refine ⟨?_, new_P1, fun hN op1 => Op.exec_returns env s op1 hN⟩
  cases op with
  | readPage file pageNo =>
    simp only [Op.exec, Option.map_eq_some'] at hrun
    obtain ⟨o1, ho1, rfl⟩ := hrun
    refine readPage_P1 env s file pageNo o1 hP ho1 (fun e => ?_)
    simp only [e] at hres
    rcases hres with h | h | ⟨_, _, h⟩ | ⟨_, _, h⟩ <;> cases h
  | allocPage file =>
    simp only [Op.exec, Option.map_eq_some'] at hrun
    obtain ⟨o1, ho1, rfl⟩ := hrun
    refine allocPage_P1 env s file o1 hP ho1 (fun e => ?_)
    simp only [e] at hres
    rcases hres with h | h | ⟨_, _, h⟩ | ⟨_, _, h⟩ <;> cases h
  | unPinPage file pageNo dirty =>
    simp only [Op.exec, Option.some.injEq] at hrun
    subst hrun
    exact unPinPage_P1 s file pageNo dirty hP
  | flushFile file =>
    simp only [Op.exec, Option.some.injEq] at hrun
    subst hrun
    refine flushLoop_P1 env file s.numBufs 0 s hP (by omega) (fun a b c d e => ?_)
    have e2 : (flushFile env s file).res = .error (.BadBufferException a b c d) := e
    rw [e2] at hres
    rcases hres with h | h | ⟨_, _, h⟩ | ⟨_, _, h⟩ <;> cases h
  | disposePage file pageNo =>
    simp only [Op.exec, Option.some.injEq] at hrun
    subst hrun
    exact disposePage_P1 env s file pageNo hP

theorem P1_invariant_witness :
    ∃ o, (Op.readPage 1 11).exec plainFiles dirtyPool = some o ∧ o.res = .ok () ∧ P1 o.st :=
  ⟨_, rfl, rfl,
    (P1_invariant plainFiles dirtyPool (Op.readPage 1 11) _ dirtyPool_P1 rfl (Or.inl rfl)).1⟩

/-! ## C13: P2 in the reachable states -/

/-- Says that `IndexSound` and P2 survive when index entries are dropped. -/
theorem sound_sub {s s1 : BufMgr} (h : IndexSound s ∧ P2 s) (hn : s1.numBufs = s.numBufs)
    (hd : s1.bufDescTable = s.bufDescTable)
    (hh : ∀ x i, s1.hashTable x = some i → s.hashTable x = some i) :
    IndexSound s1 ∧ P2 s1 := by
  refine ⟨fun f p i hi => ?_, fun i hi hv => ?_⟩
  · rw [hn, hd]
    exact h.1 f p i (hh _ _ hi)
  · rw [hn] at hi
    rw [hd] at hv ⊢
    exact h.2 i hi hv

/-- Says that `IndexSound` and P2 survive clearing frame `c` when no index entry that is
left names `c`. -/
theorem sound_clear {s s1 : BufMgr} (h : IndexSound s ∧ P2 s) (c : Nat)
    (hn : s1.numBufs = s.numBufs)
    (hd : ∀ j, s1.bufDescTable j = if j = c then (s.bufDescTable c).Clear else s.bufDescTable j)
    (hh : ∀ x i, s1.hashTable x = some i → s.hashTable x = some i ∧ i ≠ c) :
    IndexSound s1 ∧ P2 s1 := by
  refine ⟨fun f p i hi => ?_, fun i hi hv => ?_⟩
  · obtain ⟨h1, h2⟩ := hh _ _ hi
    rw [hn, hd, if_neg h2]
    exact h.1 f p i h1
  · rw [hn] at hi
    by_cases hic : i = c
    · rw [hd, if_pos hic]
      simp [BufDesc.Clear]
    · rw [hd, if_neg hic] at hv ⊢
      exact h.2 i hi hv

/-- Says that `IndexSound` and P2 survive changes of pin count, dirty flag and reference
bit of valid frames. -/
theorem sound_touch {s s1 : BufMgr} (h : IndexSound s ∧ P2 s) (hn : s1.numBufs = s.numBufs)
    (hh : s1.hashTable = s.hashTable)
    (hd : ∀ j, (s1.bufDescTable j).valid = (s.bufDescTable j).valid ∧
      (s1.bufDescTable j).file = (s.bufDescTable j).file ∧
      (s1.bufDescTable j).pageNo = (s.bufDescTable j).pageNo ∧
      ((s.bufDescTable j).valid = false →
        (s1.bufDescTable j).pinCnt = (s.bufDescTable j).pinCnt ∧
        (s1.bufDescTable j).dirty = (s.bufDescTable j).dirty)) :
    IndexSound s1 ∧ P2 s1 := by
  refine ⟨fun f p i hi => ?_, fun i hi hv => ?_⟩
  · rw [hh] at hi
    obtain ⟨a, b, c, d⟩ := h.1 f p i hi
    obtain ⟨e1, e2, e3, _⟩ := hd i
    exact ⟨by rw [hn]; exact a, by rw [e1]; exact b, by rw [e2]; exact c, by rw [e3]; exact d⟩
  · obtain ⟨e1, _, _, e4⟩ := hd i
    rw [hn] at hi
    rw [e1] at hv
    obtain ⟨e5, e6⟩ := e4 hv
    rw [e5, e6]
    exact h.2 i hi hv

/-- Says that `IndexSound` and P2 survive filling the empty frame `c` and entering its
page in the index. -/
theorem sound_fill {s s1 : BufMgr} (h : IndexSound s ∧ P2 s) (c f p : Nat)
    (hc : c < s.numBufs) (hv : (s.bufDescTable c).valid = false)
    (hn : s1.numBufs = s.numBufs)
    (hd : ∀ j, s1.bufDescTable j = if j = c then (s.bufDescTable c).Set f p else s.bufDescTable j)
    (hh : ∀ x, s1.hashTable x = if x = (f, p) then some c else s.hashTable x) :
    IndexSound s1 ∧ P2 s1 := by
  refine ⟨fun g q i hi => ?_, fun i hi hvi => ?_⟩
  · rw [hh] at hi
    by_cases hx : (g, q) = (f, p)
    · simp only [hx, if_true, Option.some.injEq] at hi
      subst hi
      simp only [Prod.mk.injEq] at hx
      rw [hn, hd, if_pos rfl]
      simp [BufDesc.Set, hc, hx.1, hx.2]
    · simp only [hx, if_false] at hi
      obtain ⟨a, b, c1, d⟩ := h.1 g q i hi
      have hic : i ≠ c := by
        intro e
        rw [e, hv] at b
        exact Bool.noConfusion b
      rw [hn, hd, if_neg hic]
      exact ⟨a, b, c1, d⟩
  · by_cases hic : i = c
    · rw [hd, if_pos hic] at hvi
      simp [BufDesc.Set] at hvi
    · rw [hd, if_neg hic] at hvi ⊢
      rw [hn] at hi
      exact h.2 i hi hvi

theorem refOnly_sound {s s1 : BufMgr} (hr : RefOnly s s1) (h : IndexSound s ∧ P2 s) :
    IndexSound s1 ∧ P2 s1 :=
  sound_touch h hr.1 hr.2.1 (fun j => by
    obtain ⟨e1, e2, e3, e4, e5, _⟩ := hr.fields j
    exact ⟨e1, e2, e3, fun _ => ⟨e4, e5⟩⟩)

/-- The eviction branch keeps `IndexSound` and P2; the frame it returns is
empty. -/
theorem evict_sound (env : FileLayer) (s : BufMgr) (h : IndexSound s ∧ P2 s) :
    (IndexSound (evict env s).st ∧ P2 (evict env s).st) ∧
    (evict env s).st.numBufs = s.numBufs ∧
    ∀ c, (evict env s).res = .ok c →
      c = s.clockHand ∧ ((evict env s).st.bufDescTable c).valid = false := by
  cases hf : (s.bufDescTable s.clockHand).file with
  | none =>
    have he : evict env s = ⟨.error .HashNotFoundException, s⟩ := by simp [evict, hf]
    rw [he]
    exact ⟨h, rfl, fun c hc => by simp at hc⟩
  | some f =>
    cases hx : s.hashTable (f, (s.bufDescTable s.clockHand).pageNo) with
    | none =>
      have he : evict env s = ⟨.error .HashNotFoundException, s⟩ := by
        simp [evict, hf, hx, BufHashTbl.remove]
      rw [he]
      exact ⟨h, rfl, fun c hc => by simp at hc⟩
    | some y =>
      have hsub : ∀ x i, (if x = (f, (s.bufDescTable s.clockHand).pageNo) then none
          else s.hashTable x) = some i → s.hashTable x = some i ∧ i ≠ s.clockHand := by
        intro x i hi
        by_cases hxe : x = (f, (s.bufDescTable s.clockHand).pageNo)
        · simp [hxe] at hi
        · simp only [hxe, if_false] at hi
          refine ⟨hi, fun e => hxe ?_⟩
          obtain ⟨_, _, b3, b4⟩ := h.1 x.1 x.2 i hi
          rw [e, hf] at b3
          rw [e] at b4
          simp only [Option.some.injEq] at b3
          exact Prod.ext b3.symm b4.symm
      cases hd : (s.bufDescTable s.clockHand).dirty with
      | false =>
        have he : evict env s = ⟨.ok s.clockHand,
            ({ s with hashTable := fun k =>
                if k = (f, (s.bufDescTable s.clockHand).pageNo) then none
                else s.hashTable k }).setDesc
              s.clockHand (s.bufDescTable s.clockHand).Clear⟩ := by
          simp [evict, hf, hx, BufHashTbl.remove, hd]
        rw [he]
        refine ⟨sound_clear h s.clockHand rfl (fun j => rfl) hsub, rfl, fun c hc => ?_⟩
        simp only [Except.ok.injEq] at hc
        subst hc
        exact ⟨rfl, by simp [BufDesc.Clear]⟩
      | true =>
        cases hw : env.writePage s.calls f (s.bufPool s.clockHand) with
        | false =>
          have he : evict env s = ⟨.error .FileException,
              { s with
                  hashTable := fun k =>
                    if k = (f, (s.bufDescTable s.clockHand).pageNo) then none
                    else s.hashTable k
                  calls := s.calls ++ [FileCall.writePage f (s.bufPool s.clockHand)] }⟩ := by
            simp [evict, hf, hx, BufHashTbl.remove, hd, fileWritePage, hw]
          rw [he]
          exact ⟨sound_sub h rfl rfl (fun x i hi => (hsub x i hi).1), rfl,
            fun c hc => by simp at hc⟩
        | true =>
          have he : evict env s = ⟨.ok s.clockHand,
              ({ s with
                  hashTable := fun k =>
                    if k = (f, (s.bufDescTable s.clockHand).pageNo) then none
                    else s.hashTable k
                  calls := s.calls ++ [FileCall.writePage f (s.bufPool s.clockHand)] }).setDesc
                s.clockHand (s.bufDescTable s.clockHand).Clear⟩ := by
            simp [evict, hf, hx, BufHashTbl.remove, hd, fileWritePage, hw]
          rw [he]
          refine ⟨sound_clear h s.clockHand rfl (fun j => rfl) hsub, rfl, fun c hc => ?_⟩
          simp only [Except.ok.injEq] at hc
          subst hc
          exact ⟨rfl, by simp [BufDesc.Clear]⟩

/-- Says that `allocBuf` keeps `IndexSound` and P2, whatever its outcome; the frame it
returns is in range and empty. -/
theorem allocBuf_sound (env : FileLayer) (s : BufMgr) (a : Outcome Nat)
    (h : IndexSound s ∧ P2 s) (ha : allocBuf env s = some a) :
    (IndexSound a.st ∧ P2 a.st) ∧
    ∀ c, a.res = .ok c → c < a.st.numBufs ∧ (a.st.bufDescTable c).valid = false := by
  unfold allocBuf at ha
  cases hs : scanPinned s s.numBufs 0 with
  | true =>
    simp only [hs, if_true, Option.some.injEq] at ha
    subst ha
    exact ⟨h, fun c hc => by simp at hc⟩
  | false =>
    simp only [hs] at ha
    obtain ⟨j, _, hj, _⟩ := scanPinned_false s s.numBufs 0 hs
    obtain ⟨s1, hr, hc, hcase⟩ :=
      sweep_some env (2 * s.numBufs) s a (by omega) (by simpa using ha)
    have h1 := refOnly_sound hr h
    rcases hcase with ⟨hv, ho⟩ | ⟨_, _, _, ho⟩
    · rw [ho]
      refine ⟨sound_clear h1 s1.clockHand rfl (fun j => rfl) (fun x i hi => ⟨hi, fun e => ?_⟩),
        fun c hc1 => ?_⟩
      · have := (h1.1 x.1 x.2 i hi).2.1
        rw [e, hv] at this
        exact Bool.noConfusion this
      · simp only [Except.ok.injEq] at hc1
        subst hc1
        exact ⟨hc, by simp [BufDesc.Clear]⟩
    · rw [ho]
      obtain ⟨e1, e2, e3⟩ := evict_sound env s1 h1
      refine ⟨e1, fun c hc1 => ?_⟩
      obtain ⟨e4, e5⟩ := e3 c hc1
      exact ⟨by rw [e2, e4]; exact hc, e5⟩

theorem readPage_sound (env : FileLayer) (s : BufMgr) (file pageNo : Nat) (o : Outcome Nat)
    (h : IndexSound s ∧ P2 s) (hrun : readPage env s file pageNo = some o) :
    IndexSound o.st ∧ P2 o.st := by
  unfold readPage at hrun
  cases hl : s.hashTable (file, pageNo) with
  | some fnum =>
    simp only [BufHashTbl.lookup, hl, Option.some.injEq] at hrun
    subst hrun
    have hv := (h.1 file pageNo fnum hl).2.1
    refine sound_touch h rfl rfl (fun j => ?_)
    by_cases hj : j = fnum
    · subst hj
      simp [hv]
    · simp [hj]
  | none =>
    simp only [BufHashTbl.lookup, hl] at hrun
    cases ha : allocBuf env s with
    | none => simp [ha] at hrun
    | some a =>
      obtain ⟨hsa, hca⟩ := allocBuf_sound env s a h ha
      simp only [ha] at hrun
      cases har : a.res with
      | error e =>
        simp only [har, Option.some.injEq] at hrun
        subst hrun
        exact hsa
      | ok c =>
        obtain ⟨hc, hv⟩ := hca c har
        simp only [har] at hrun
        cases hr : env.readPage a.st.calls file pageNo with
        | none =>
          simp only [hr, Option.some.injEq] at hrun
          subst hrun
          exact sound_sub hsa rfl rfl (fun _ _ hi => hi)
        | some rPage =>
          simp only [hr, BufHashTbl.insert, setPage_hashTable] at hrun
          cases hx : a.st.hashTable (file, pageNo) with
          | some y =>
            simp only [hx, Option.some.injEq] at hrun
            subst hrun
            exact sound_sub hsa rfl rfl (fun _ _ hi => hi)
          | none =>
            simp only [hx, Option.some.injEq] at hrun
            subst hrun
            exact sound_fill hsa c file pageNo hc hv rfl (fun j => rfl) (fun x => rfl)

theorem allocPage_sound (env : FileLayer) (s : BufMgr) (file : Nat)
    (o : Outcome (Nat × Nat)) (h : IndexSound s ∧ P2 s)
    (hrun : allocPage env s file = some o) : IndexSound o.st ∧ P2 o.st := by
  unfold allocPage at hrun
  cases hal : env.allocatePage s.calls file with
  | none =>
    simp only [hal, Option.some.injEq] at hrun
    subst hrun
    exact sound_sub h rfl rfl (fun _ _ hi => hi)
  | some npage =>
    simp only [hal] at hrun
    have h0 : IndexSound { s with calls := s.calls ++ [FileCall.allocatePage file] } ∧
        P2 { s with calls := s.calls ++ [FileCall.allocatePage file] } := h
    cases ha : allocBuf env { s with calls := s.calls ++ [FileCall.allocatePage file] } with
    | none => simp [ha] at hrun
    | some a =>
      obtain ⟨hsa, hca⟩ := allocBuf_sound env _ a h0 ha
      simp only [ha] at hrun
      cases har : a.res with
      | error e =>
        simp only [har, Option.some.injEq] at hrun
        subst hrun
        exact hsa
      | ok c =>
        obtain ⟨hc, hv⟩ := hca c har
        simp only [har, BufHashTbl.insert, setPage_hashTable] at hrun
        cases hx : a.st.hashTable (file, npage.number) with
        | some y =>
          simp only [hx, Option.some.injEq] at hrun
          subst hrun
          exact sound_sub hsa rfl rfl (fun _ _ hi => hi)
        | none =>
          simp only [hx, Option.some.injEq] at hrun
          subst hrun
          exact sound_fill hsa c file npage.number hc hv rfl (fun j => rfl) (fun x => rfl)

theorem unPinPage_sound (s : BufMgr) (file pageNo : Nat) (dirty : Bool)
    (h : IndexSound s ∧ P2 s) :
    IndexSound (unPinPage s file pageNo dirty).st ∧ P2 (unPinPage s file pageNo dirty).st := by
  unfold unPinPage
  cases hl : s.hashTable (file, pageNo) with
  | none => simpa [BufHashTbl.lookup, hl] using h
  | some fnum =>
    simp only [BufHashTbl.lookup, hl]
    by_cases h0 : (s.bufDescTable fnum).pinCnt = 0
    · simpa [h0] using h
    · simp only [h0, if_false]
      have hv := (h.1 file pageNo fnum hl).2.1
      refine sound_touch h rfl rfl (fun j => ?_)
      by_cases hj : j = fnum
      · subst hj
        cases dirty <;> simp [hv]
      · simp [hj]

theorem disposePage_sound (env : FileLayer) (s : BufMgr) (file PageNo : Nat)
    (h : IndexSound s ∧ P2 s) :
    IndexSound (disposePage env s file PageNo).st ∧ P2 (disposePage env s file PageNo).st := by
  cases hl : s.hashTable (file, PageNo) with
  | none => rw [disposePage_of_absent env s file PageNo hl]; exact h
  | some fnum =>
    by_cases h0 : (s.bufDescTable fnum).pinCnt = 0
    · rw [disposePage_of_unpinned env s file PageNo fnum hl h0, fileDeletePage_st]
      obtain ⟨_, _, b3, b4⟩ := h.1 file PageNo fnum hl
      refine sound_clear h fnum rfl (fun j => rfl) (fun x i hi => ?_)
      have hi2 : (if x = (file, PageNo) then none else s.hashTable x) = some i := hi
      by_cases hx : x = (file, PageNo)
      · simp [hx] at hi2
      · simp only [hx, if_false] at hi2
        refine ⟨hi2, fun e => hx ?_⟩
        obtain ⟨_, _, c3, c4⟩ := h.1 x.1 x.2 i hi2
        rw [e, b3] at c3
        rw [e, b4] at c4
        simp only [Option.some.injEq] at c3
        exact Prod.ext c3.symm c4.symm
    · rw [disposePage_of_pinned env s file PageNo fnum hl (by omega)]
      exact h

theorem flushLoop_sound (env : FileLayer) (file : Nat) :
    ∀ (n k : Nat) (s : BufMgr), IndexSound s ∧ P2 s →
      IndexSound (flushLoop env file n k s).st ∧ P2 (flushLoop env file n k s).st := by
  intro n
  induction n with
  | zero => intro k s h; exact h
  | succ n ih =>
    intro k s h
    by_cases hf : (s.bufDescTable k).file = some file
    · by_cases hp : 0 < (s.bufDescTable k).pinCnt
      · rw [flushLoop_pinned env file n k s hf hp]
        exact h
      · have hp0 : (s.bufDescTable k).pinCnt = 0 := by omega
        by_cases hw : (s.bufDescTable k).dirty = true ∧
            env.writePage s.calls file (s.bufPool k) = false
        · rw [flushLoop_write_fails env file n k s hf hp0 hw.1 hw.2]
          exact sound_sub h rfl rfl (fun _ _ hi => hi)
        · have hw2 : (s.bufDescTable k).dirty = true →
              env.writePage s.calls file (s.bufPool k) = true := by
            intro hd
            cases hw3 : env.writePage s.calls file (s.bufPool k) with
            | true => rfl
            | false => exact absurd ⟨hd, hw3⟩ hw
          cases hx : s.hashTable (file, (s.bufDescTable k).pageNo) with
          | none =>
            cases hd : (s.bufDescTable k).dirty with
            | false =>
              simpa [flushLoop, hf, hp0, hd, hx, BufHashTbl.remove] using h
            | true =>
              have he : flushLoop env file (n + 1) k s = ⟨.error .HashNotFoundException,
                  { s with calls := s.calls ++ [FileCall.writePage file (s.bufPool k)] }⟩ := by
                simp [flushLoop, hf, hp0, hd, hx, BufHashTbl.remove, fileWritePage, hw2 hd]
              rw [he]
              exact sound_sub h rfl rfl (fun _ _ hi => hi)
          | some y =>
            have hsub : ∀ x i, (if x = (file, (s.bufDescTable k).pageNo) then none
                else s.hashTable x) = some i → s.hashTable x = some i ∧ i ≠ k := by
              intro x i hi
              by_cases hxe : x = (file, (s.bufDescTable k).pageNo)
              · simp [hxe] at hi
              · simp only [hxe, if_false] at hi
                refine ⟨hi, fun e => hxe ?_⟩
                obtain ⟨_, _, b3, b4⟩ := h.1 x.1 x.2 i hi
                rw [e, hf] at b3
                rw [e] at b4
                simp only [Option.some.injEq] at b3
                exact Prod.ext b3.symm b4.symm
            cases hv : (s.bufDescTable k).valid with
            | false =>
              have he : (flushLoop env file (n + 1) k s).st =
                  { s with
                    hashTable := fun x =>
                      if x = (file, (s.bufDescTable k).pageNo) then none else s.hashTable x
                    calls :=
                      if (s.bufDescTable k).dirty = true then
                        s.calls ++ [FileCall.writePage file (s.bufPool k)]
                      else s.calls } := by
                cases hd : (s.bufDescTable k).dirty with
                | false => simp [flushLoop, hf, hp0, hd, hx, BufHashTbl.remove, hv]
                | true =>
                  simp [flushLoop, hf, hp0, hd, hx, BufHashTbl.remove, hv, fileWritePage,
                    hw2 hd]
              rw [he]
              exact sound_sub h rfl rfl (fun x i hi => (hsub x i hi).1)
            | true =>
              have he : flushLoop env file (n + 1) k s =
                  flushLoop env file n (k + 1) (flushFrame s file k) := by
                cases hd : (s.bufDescTable k).dirty with
                | false =>
                  simp [flushLoop, hf, hp0, hd, hv, hx, BufHashTbl.remove, flushFrame]
                | true =>
                  simp [flushLoop, hf, hp0, hd, hv, hx, BufHashTbl.remove, flushFrame,
                    fileWritePage, hw2 hd]
              rw [he]
              exact ih (k + 1) (flushFrame s file k)
                (sound_clear h k rfl (fun j => rfl) hsub)
    · rw [flushLoop_skip env file n k s hf]
      exact ih (k + 1) s h

theorem Op.run_sound (env : FileLayer) (s s1 : BufMgr) (op : Op) (h : IndexSound s ∧ P2 s)
    (hrun : op.run env s = some s1) : IndexSound s1 ∧ badgerdb.P2 s1 := by
  cases op with
  | readPage file pageNo =>
    simp only [Op.run, Option.map_eq_some'] at hrun
    obtain ⟨o, ho, rfl⟩ := hrun
    exact readPage_sound env s file pageNo o h ho
  | allocPage file =>
    simp only [Op.run, Option.map_eq_some'] at hrun
    obtain ⟨o, ho, rfl⟩ := hrun
    exact allocPage_sound env s file o h ho
  | unPinPage file pageNo dirty =>
    simp only [Op.run, Option.some.injEq] at hrun
    subst hrun
    exact unPinPage_sound s file pageNo dirty h
  | flushFile file =>
    simp only [Op.run, Option.some.injEq] at hrun
    subst hrun
    exact flushLoop_sound env file s.numBufs 0 s h
  | disposePage file pageNo =>
    simp only [Op.run, Option.some.injEq] at hrun
    subst hrun
    exact disposePage_sound env s file pageNo h

theorem reachable_sound (env : FileLayer) (s : BufMgr) (h : Reachable env s) :
    IndexSound s ∧ P2 s := by
  induction h with
  | fresh bufs =>
    refine ⟨fun f p i hi => ?_, fun i _ _ => ?_⟩
    · simp [BufMgr.new] at hi
    · simp [BufMgr.new]
  | step s s1 op _ hrun ih => exact Op.run_sound env s s1 op ih hrun

/-- C13: in every state reached from a freshly constructed pool by public
operations, returning or throwing, a descriptor of the pool that is not valid
has pin count 0 and is not dirty; put the other way round, a set dirty flag
or a positive pin count implies that the frame is valid. -/
theorem reachable_P2 (env : FileLayer) (s : BufMgr) (i : Nat) (hr : Reachable env s)
    (hi : i < s.numBufs) :
    ((s.bufDescTable i).valid = false →
      (s.bufDescTable i).pinCnt = 0 ∧ (s.bufDescTable i).dirty = false) ∧
    ((s.bufDescTable i).dirty = true ∨ 0 < (s.bufDescTable i).pinCnt →
      (s.bufDescTable i).valid = true) := by
  have h2 := (reachable_sound env s hr).2 i hi
  refine ⟨h2, fun hd => ?_⟩
  cases hv : (s.bufDescTable i).valid with
  | true => rfl
  | false =>
    obtain ⟨a, b⟩ := h2 hv
    rcases hd with hd | hd
    · rw [b] at hd; exact Bool.noConfusion hd
    · omega

/-! ## C14: the clock loop ends within `2 * numBufs` advances -/

theorem sweep_mono (env : FileLayer) (n : Nat) :
    ∀ (s : BufMgr) (o : Outcome Nat) (m : Nat), sweep env n s = some o → n ≤ m →
      sweep env m s = some o := by
  induction n with
  | zero => intro s o m h _; simp [sweep] at h
  | succ n ih =>
    intro s o m h hm
    obtain ⟨m1, rfl⟩ : ∃ m1, m = m1 + 1 := ⟨m - 1, by omega⟩
    simp only [sweep] at h ⊢
    cases hs : sweepStep env s with
    | inl o1 => simpa [hs] using h
    | inr s1 =>
      simp only [hs] at h ⊢
      exact ih s1 o m1 h (by omega)

theorem scanPinned_of_unpinned (s : BufMgr) (j : Nat) (hj : j < s.numBufs)
    (hp : (s.bufDescTable j).pinCnt = 0) : scanPinned s s.numBufs 0 = false := by
  cases hs : scanPinned s s.numBufs 0 with
  | false => rfl
  | true => exact absurd hp (scanPinned_pinned s s.numBufs 0 hs j (Nat.zero_le j) (by omega))

/-- C14 (amended): with `0 < N < 2^32` frames of which at least one has pin
count 0, the clock loop of `allocBuf` ends after at most `2 * N` clock
advances, whatever the reference bits, the valid and dirty flags and the clock
hand are: `allocBuf` then returns a frame or throws. In a state that satisfies
P1, with the writes of the files succeeding, it returns a frame of the pool. -/
theorem sweep_within (env : FileLayer) (s : BufMgr) (j : Nat)
    (hN : s.numBufs < 4294967296) (hj : j < s.numBufs)
    (hp : (s.bufDescTable j).pinCnt = 0) :
    ∃ n o, n ≤ 2 * s.numBufs ∧ sweep env n s = some o ∧ allocBuf env s = some o ∧
      (P1 s → (∀ h f pg, env.writePage h f pg = true) →
        ∃ c, c < s.numBufs ∧ o.res = .ok c) := by
  obtain ⟨o, ho⟩ := sweep_returns env j (sweepBound s j) s hN hj hp (Nat.le_refl _)
  have hb := sweepBound_le s j hj
  have ha : allocBuf env s = some o := by
    unfold allocBuf
    rw [scanPinned_of_unpinned s j hj hp]
    simpa using sweep_mono env (sweepBound s j) s o (2 * s.numBufs) ho hb
  refine ⟨sweepBound s j, o, hb, ho, ha, fun hP1 hw => ?_⟩
  obtain ⟨a, c, ha2, har⟩ := allocBuf_frame env s j hN hP1 hj hp hw
  rw [ha] at ha2
  simp only [Option.some.injEq] at ha2
  subst ha2
  obtain ⟨_, _, hc, _⟩ := allocBuf_ok env s o c hP1 ha har
  exact ⟨c, hc, har⟩

/-- C14 as stated fails: the one frame of `orphanPool` has pin count 0, and
the clock loop ends at its first advance by throwing `HashNotFoundException`:
no frame is returned. -/
theorem sweep_orphan_throws :
    0 < orphanPool.numBufs ∧ (orphanPool.bufDescTable 0).pinCnt = 0 ∧
    (sweep plainFiles 1 orphanPool).map (fun o => o.res) =
      some (.error .HashNotFoundException) ∧
    (allocBuf plainFiles orphanPool).map (fun o => o.res) =
      some (.error .HashNotFoundException) :=
  ⟨by decide, rfl, rfl, rfl⟩

theorem sweep_within_witness :
    ∃ n o, n ≤ 4 ∧ sweep plainFiles n dirtyPool = some o ∧ o.res = .ok 0 :=
  by
    obtain ⟨n, o, h1, h2, h3, _⟩ :=
      sweep_within plainFiles dirtyPool 0 (by decide) (by decide) rfl
    have h4 : allocBuf plainFiles dirtyPool = some (sweep plainFiles 3 dirtyPool |>.get rfl) :=
      rfl
    rw [h3] at h4
    simp only [Option.some.injEq] at h4
    exact ⟨n, o, h1, h2, by rw [h4]; rfl⟩

/-! ## C15: a failing write-back of the victim -/

/-- C15 (amended): when `allocBuf`, called in a state that satisfies P1 (as
`readPage` does on a miss and `allocPage` after `allocatePage`), throws the
file's error, then it is the `writePage` of a dirty, valid, unpinned victim
that failed. Every descriptor has its `valid`, `file`, `pageNo`, `pinCnt` and
`dirty` fields as before, but the index entry of the victim has already been
removed (the rest of the index is unchanged): P1 does not hold any more.
`readPage` and `allocPage` leave that state and throw the same error. -/
theorem eviction_write_fails (env : FileLayer) (s : BufMgr) (a : Outcome Nat) (hP1 : P1 s)
    (ha : allocBuf env s = some a) (he : a.res = .error .FileException) :
    (∀ j, (a.st.bufDescTable j).valid = (s.bufDescTable j).valid ∧
      (a.st.bufDescTable j).file = (s.bufDescTable j).file ∧
      (a.st.bufDescTable j).pageNo = (s.bufDescTable j).pageNo ∧
      (a.st.bufDescTable j).pinCnt = (s.bufDescTable j).pinCnt ∧
      (a.st.bufDescTable j).dirty = (s.bufDescTable j).dirty) ∧
    (∃ c f, c < s.numBufs ∧ (s.bufDescTable c).valid = true ∧
      (s.bufDescTable c).dirty = true ∧ (s.bufDescTable c).pinCnt = 0 ∧
      (s.bufDescTable c).file = some f ∧
      s.hashTable (f, (s.bufDescTable c).pageNo) = some c ∧
      env.writePage s.calls f (s.bufPool c) = false ∧
      (∀ x, a.st.hashTable x =
        if x = (f, (s.bufDescTable c).pageNo) then none else s.hashTable x) ∧
      a.st.calls = s.calls ++ [FileCall.writePage f (s.bufPool c)]) ∧
    ¬ P1 a.st ∧
    (∀ file pageNo, s.hashTable (file, pageNo) = none →
      readPage env s file pageNo = some ⟨.error .FileException, a.st⟩) ∧
    (∀ (t : BufMgr) (file : Nat) (npage : Page),
      env.allocatePage t.calls file = some npage →
      s = { t with calls := t.calls ++ [FileCall.allocatePage file] } →
      allocPage env t file = some ⟨.error .FileException, a.st⟩) := by
  rcases allocBuf_cases env s a hP1 ha with ⟨_, ho⟩ | ⟨s1, hr, hc, hcase⟩
  · rw [ho] at he; simp at he
  · obtain ⟨hn, hh, hpool, hcalls, _⟩ := id hr
    rcases hcase with ⟨_, ho⟩ | ⟨hv, _, hp, f, hf, hk, ⟨_, ho⟩ | ⟨_, _, ho⟩ | ⟨hd, hw, ho⟩⟩
    · rw [ho] at he; simp at he
    · rw [ho] at he; simp at he
    · rw [ho] at he; simp at he
    · obtain ⟨e1, e2, e3, e4, e5, _⟩ := hr.fields s1.clockHand
      have hst : a.st = { s1 with
          hashTable := fun k =>
            if k = (f, (s1.bufDescTable s1.clockHand).pageNo) then none else s1.hashTable k
          calls := s1.calls ++ [FileCall.writePage f (s1.bufPool s1.clockHand)] } := by
        rw [ho]
      have hfields : ∀ j, (a.st.bufDescTable j).valid = (s.bufDescTable j).valid ∧
          (a.st.bufDescTable j).file = (s.bufDescTable j).file ∧
          (a.st.bufDescTable j).pageNo = (s.bufDescTable j).pageNo ∧
          (a.st.bufDescTable j).pinCnt = (s.bufDescTable j).pinCnt ∧
          (a.st.bufDescTable j).dirty = (s.bufDescTable j).dirty := by
        intro j
        obtain ⟨g1, g2, g3, g4, g5, _⟩ := hr.fields j
        rw [hst]
        exact ⟨g1, g2, g3, g4, g5⟩
      have hidx : ∀ x, a.st.hashTable x =
          if x = (f, (s.bufDescTable s1.clockHand).pageNo) then none else s.hashTable x := by
        intro x
        rw [hst, ← e3, ← hh]
      refine ⟨hfields, ⟨s1.clockHand, f, by rw [← hn]; exact hc, by rw [← e1]; exact hv,
        by rw [← e5]; exact hd, by rw [← e4]; exact hp, by rw [← e2]; exact hf,
        by rw [← e3, ← hh]; exact hk, by rw [← hcalls, ← hpool]; exact hw, hidx,
        by rw [hst, ← hcalls, ← hpool]⟩, fun hP => ?_, fun file pageNo hmiss => ?_,
        fun t file npage hal hs => ?_⟩
      · obtain ⟨g1, g2, g3, _⟩ := hfields s1.clockHand
        have hva : (a.st.bufDescTable s1.clockHand).valid = true := by
          rw [g1, ← e1]; exact hv
        have hna : a.st.numBufs = s1.numBufs := by rw [hst]
        obtain ⟨g, hg, hkey⟩ := hP.2 s1.clockHand (by rw [hna]; exact hc) hva
        rw [g2, ← e2, hf] at hg
        simp only [Option.some.injEq] at hg
        subst hg
        rw [g3, hidx] at hkey
        simp at hkey
      · unfold readPage
        simp only [BufHashTbl.lookup, hmiss, ha, he]
      · subst hs
        unfold allocPage
        simp only [hal, ha, he]

/-- C15 as stated fails: `dirtyPool` satisfies P1; with writes failing,
`readPage` of a page that is not resident throws the file's error after the
write of the victim (page 10 of file 1 in frame 0) was tried, and the index
entry of the victim, which was there before, is gone while its descriptor is
still valid. -/
theorem eviction_write_fails_index :
    P1 dirtyPool ∧ dirtyPool.hashTable (1, 10) = some 0 ∧
    ∃ o, readPage brokenDisk dirtyPool 1 11 = some o ∧ o.res = .error .FileException ∧
      o.st.calls = [FileCall.writePage 1 ⟨10, 3⟩] ∧
      o.st.hashTable (1, 10) = none ∧ (o.st.bufDescTable 0).valid = true ∧
      (o.st.bufDescTable 0).file = some 1 ∧ (o.st.bufDescTable 0).pageNo = 10 :=
  ⟨dirtyPool_P1, rfl, _, rfl, rfl, rfl, rfl, rfl, rfl, rfl⟩

theorem eviction_write_fails_witness :
    ∃ a, allocBuf brokenDisk dirtyPool = some a ∧ a.res = .error .FileException ∧
      ¬ P1 a.st ∧
      readPage brokenDisk dirtyPool 1 11 = some ⟨.error .FileException, a.st⟩ :=
  have h := eviction_write_fails brokenDisk dirtyPool _ dirtyPool_P1 rfl rfl
  ⟨_, rfl, rfl, h.2.2.1, h.2.2.2.1 1 11 rfl⟩

/-! ## C20: `allocPage` with every frame pinned -/

/-- C20: in a pool whose frames are all pinned, and with the file's
`allocatePage` succeeding, `allocPage(file)` throws `BufferExceededException`
and leaves the descriptors, the index, the frame contents and the clock hand
unchanged; the one call made is `allocatePage` on the file, whose new page is
put in no frame and whose number is not returned. -/
theorem allocPage_all_pinned (env : FileLayer) (s : BufMgr) (file : Nat) (npage : Page)
    (hpin : AllPinned s) (hal : env.allocatePage s.calls file = some npage) :
    ∃ o, allocPage env s file = some o ∧ o.res = .error .BufferExceededException ∧
      o.st.bufDescTable = s.bufDescTable ∧ o.st.hashTable = s.hashTable ∧
      o.st.clockHand = s.clockHand ∧ o.st.bufPool = s.bufPool ∧
      o.st.numBufs = s.numBufs ∧
      o.st.calls = s.calls ++ [FileCall.allocatePage file] := by
  have hp0 : AllPinned { s with calls := s.calls ++ [FileCall.allocatePage file] } := hpin
  refine ⟨⟨.error .BufferExceededException,
    { s with calls := s.calls ++ [FileCall.allocatePage file] }⟩, ?_, rfl, rfl, rfl, rfl, rfl,
    rfl, rfl⟩
  unfold allocPage
  simp only [hal, allocBuf_all_pinned env _ hp0]

theorem allocPage_all_pinned_witness :
    ∃ o, allocPage plainFiles fullPool 1 = some o ∧
      o.res = .error .BufferExceededException ∧
      o.st.calls = [FileCall.readPage 1 10, FileCall.allocatePage 1] ∧
      o.st.hashTable (1, 2) = none :=
  by
    obtain ⟨o, h1, h2, _, h4, _, _, _, h8⟩ :=
      allocPage_all_pinned plainFiles fullPool 1 ⟨2, 0⟩
        (fun i hi => by
          have h1 : i < 1 := hi
          interval_cases i
          decide)
        rfl
    exact ⟨o, h1, h2, h8, by rw [h4]; rfl⟩

/-! ## C17: the destructor -/

theorem destroyWrites_cons (s : BufMgr) (k : Nat) (l : List Nat) :
    destroyWrites s (k :: l) =
      (if (s.bufDescTable k).valid = true ∧ (s.bufDescTable k).dirty = true then
        [FileCall.writePage ((s.bufDescTable k).file.getD 0) (s.bufPool k)] else []) ++
      destroyWrites s l := by
  cases hv : (s.bufDescTable k).valid <;> cases hd : (s.bufDescTable k).dirty <;>
    simp [destroyWrites, List.filter_cons, hv, hd]

theorem destroyWrites_congr (s s1 : BufMgr) (l : List Nat)
    (hd : ∀ j, j ∈ l → s1.bufDescTable j = s.bufDescTable j) (hp : s1.bufPool = s.bufPool) :
    destroyWrites s1 l = destroyWrites s l := by
  induction l with
  | nil => rfl
  | cons a l ih =>
    rw [destroyWrites_cons, destroyWrites_cons, hd a (List.mem_cons_self a l), hp,
      ih (fun j hj => hd j (List.mem_cons_of_mem a hj))]

theorem destroyLoop_calls (env : FileLayer) (hw : ∀ h f pg, env.writePage h f pg = true) :
    ∀ (n k : Nat) (s : BufMgr),
      (∀ i, k ≤ i → i < k + n → (s.bufDescTable i).valid = true →
        (s.bufDescTable i).dirty = true → ∃ f, (s.bufDescTable i).file = some f) →
      (destroyLoop env n k s).res = .ok () ∧
      (destroyLoop env n k s).st.calls = s.calls ++ destroyWrites s (List.range' k n) := by
  intro n
  induction n with
  | zero => intro k s _; simp [destroyLoop, destroyWrites]
  | succ n ih =>
    intro k s hfile
    have hrest : ∀ i, k + 1 ≤ i → i < k + 1 + n → (s.bufDescTable i).valid = true →
        (s.bufDescTable i).dirty = true → ∃ f, (s.bufDescTable i).file = some f :=
      fun i h1 h2 => hfile i (by omega) (by omega)
    rw [List.range'_succ, destroyWrites_cons]
    cases hv : (s.bufDescTable k).valid with
    | false =>
      have he : destroyLoop env (n + 1) k s = destroyLoop env n (k + 1) s := by
        simp [destroyLoop, hv]
      rw [he]
      simpa using ih (k + 1) s hrest
    | true =>
      cases hd : (s.bufDescTable k).dirty with
      | false =>
        have he : destroyLoop env (n + 1) k s = destroyLoop env n (k + 1) s := by
          simp [destroyLoop, hv, hd]
        rw [he]
        simpa using ih (k + 1) s hrest
      | true =>
        obtain ⟨f, hf⟩ := hfile k (Nat.le_refl k) (by omega) hv hd
        have he : destroyLoop env (n + 1) k s = destroyLoop env n (k + 1)
            (({ s with calls := s.calls ++ [FileCall.writePage f (s.bufPool k)] }).setDesc k
              (s.bufDescTable k).Clear) := by
          simp [destroyLoop, hv, hd, hf, fileWritePage, hw]
        rw [he]
        have hdj : ∀ j, j ≠ k →
            (({ s with calls := s.calls ++ [FileCall.writePage f (s.bufPool k)] }).setDesc k
              (s.bufDescTable k).Clear).bufDescTable j = s.bufDescTable j := by
          intro j hj
          simp [hj]
        obtain ⟨h1, h2⟩ := ih (k + 1) _ (fun i hi1 hi2 => by
          rw [hdj i (by omega)]
          exact hrest i hi1 hi2)
        refine ⟨h1, ?_⟩
        rw [h2, destroyWrites_congr s _ (List.range' (k + 1) n)
          (fun j hj => hdj j (by
            have := (List.mem_range'_1.1 hj).1
            omega)) rfl]
        simp [hf]

/-- C17: when every frame that is valid and dirty has a file to call (a null
`file` there is undefined behaviour) and the writes of the files succeed, the
destructor calls `writePage` exactly once for each frame that is valid and
dirty, in ascending frame order, on the file of that frame and with that
frame's page, whatever the pin counts are, and makes no other call: none for a
frame that is not valid or is clean. -/
theorem destructor_writes (env : FileLayer) (s : BufMgr)
    (hfile : ∀ i, i < s.numBufs → (s.bufDescTable i).valid = true →
      (s.bufDescTable i).dirty = true → ∃ f, (s.bufDescTable i).file = some f)
    (hw : ∀ h f pg, env.writePage h f pg = true) :
    (s.destructor env).res = .ok () ∧
    (s.destructor env).st.calls = s.calls ++
      ((List.range s.numBufs).filter
        (fun i => (s.bufDescTable i).valid && (s.bufDescTable i).dirty)).map
        (fun i => FileCall.writePage ((s.bufDescTable i).file.getD 0) (s.bufPool i)) := by
  have h := destroyLoop_calls env hw s.numBufs 0 s (fun i _ hi => hfile i (by omega))
  rw [← List.range_eq_range'] at h
  exact h

theorem destructor_writes_witness :
    (residentPool.bufDescTable 0).pinCnt = 1 ∧
    (residentPool.destructor plainFiles).res = .ok () ∧
    (residentPool.destructor plainFiles).st.calls =
      [FileCall.readPage 1 10, FileCall.writePage 1 ⟨10, 7⟩] :=
  have h := destructor_writes plainFiles residentPool
    (fun i hi hv _ => by
      have h2 : i < 2 := hi
      interval_cases i
      · exact ⟨1, rfl⟩
      · simp [residentPool] at hv)
    (fun _ _ _ => rfl)
  ⟨rfl, h.1, h.2⟩

/-! ## The walk of the clock hand -/

theorem clockDist_eq_one (s : BufMgr) (e : Nat) (he : e < s.numBufs)
    (h : clockDist s e = 1) : (advanceClock s).clockHand = e := by
  have hlt : (advanceClock s).clockHand < s.numBufs := advanceClock_lt s (by omega)
  unfold clockDist at h
  split at h <;> omega

theorem clockDist_hand (s : BufMgr) : clockDist s (advanceClock s).clockHand = 1 := by
  unfold clockDist
  simp

/-- The frame under the clock hand is the one the hand reaches last. -/
theorem clockDist_self (s : BufMgr) (c : Nat) (hN : s.numBufs < 4294967296)
    (hc : c < s.numBufs) (hh : s.clockHand = c) : clockDist s c = s.numBufs := by
  have hnext : (advanceClock s).clockHand = if c + 1 < s.numBufs then c + 1 else 0 := by
    show (s.clockHand + 1) % 4294967296 % s.numBufs = _
    rw [hh, Nat.mod_eq_of_lt (show c + 1 < 4294967296 by omega)]
    split
    · rename_i h; exact Nat.mod_eq_of_lt h
    · have : c + 1 = s.numBufs := by omega
      rw [this, Nat.mod_self]
  unfold clockDist
  rw [hnext]
  split_ifs <;> omega

/-- An iteration of the clock loop at a valid frame that has its reference bit
set or is pinned: the loop goes on, the reference bit of that frame is clear
and nothing else has changed but the clock hand. -/
theorem sweepStep_pass (env : FileLayer) (s : BufMgr)
    (hv : (s.bufDescTable (advanceClock s).clockHand).valid = true)
    (h : (s.bufDescTable (advanceClock s).clockHand).refbit = true ∨
      (s.bufDescTable (advanceClock s).clockHand).pinCnt ≠ 0) :
    ∃ s1, sweepStep env s = .inr s1 ∧ s1.clockHand = (advanceClock s).clockHand ∧
      RefOnly s s1 ∧ (s1.bufDescTable (advanceClock s).clockHand).refbit = false ∧
      ∀ j, j ≠ (advanceClock s).clockHand → s1.bufDescTable j = s.bufDescTable j := by
  cases hr : (s.bufDescTable (advanceClock s).clockHand).refbit with
  | true =>
    have he : sweepStep env s = .inr ((advanceClock s).setDesc (advanceClock s).clockHand
        { s.bufDescTable (advanceClock s).clockHand with refbit := false }) := by
      simp [sweepStep, hv, hr]
    exact ⟨_, he, rfl, sweepStep_inr env s _ he, by simp, fun j hj => by simp [hj]⟩
  | false =>
    have hp : (s.bufDescTable (advanceClock s).clockHand).pinCnt ≠ 0 := by
      rcases h with h | h
      · rw [hr] at h; exact Bool.noConfusion h
      · exact h
    have he : sweepStep env s = .inr (advanceClock s) := by
      simp [sweepStep, hv, hr, hp]
    exact ⟨_, he, rfl, sweepStep_inr env s _ he, by simpa using hr, fun j _ => rfl⟩

/-- The clock loop over the `m` frames it meets before frame `e`, when all of
them are valid and have their reference bit set or are pinned: after `m`
iterations the hand is about to reach `e`, the reference bits of the frames
passed are clear and nothing else has changed. -/
theorem sweep_walk (env : FileLayer) (e : Nat) :
    ∀ (m : Nat) (s : BufMgr), s.numBufs < 4294967296 → e < s.numBufs →
      clockDist s e = m + 1 →
      (∀ j, j < s.numBufs → clockDist s j ≤ m →
        (s.bufDescTable j).valid = true ∧
        ((s.bufDescTable j).refbit = true ∨ (s.bufDescTable j).pinCnt ≠ 0)) →
      ∃ s1, (∀ fuel, sweep env (m + fuel) s = sweep env fuel s1) ∧ RefOnly s s1 ∧
        (advanceClock s1).clockHand = e ∧
        ∀ j, j < s.numBufs → (s1.bufDescTable j).refbit =
          if clockDist s j ≤ m then false else (s.bufDescTable j).refbit := by
  intro m
  induction m with
  | zero =>
    intro s _ he hd _
    refine ⟨s, fun fuel => by simp, RefOnly.same s, clockDist_eq_one s e he hd, fun j _ => ?_⟩
    have := clockDist_pos s j
    rw [if_neg (by omega)]
  | succ m ih =>
    intro s hN he hd hpass
    have hlt : (advanceClock s).clockHand < s.numBufs := advanceClock_lt s (by omega)
    obtain ⟨hv, hrp⟩ := hpass _ hlt (by rw [clockDist_hand]; omega)
    obtain ⟨s2, hstep, hhand, hr, hrb, hsame⟩ := sweepStep_pass env s hv hrp
    have hn : s2.numBufs = s.numBufs := hr.1
    have hce : (advanceClock s).clockHand ≠ e := by
      intro h
      rw [← h, clockDist_hand] at hd
      omega
    have hdist : ∀ j, j < s.numBufs → j ≠ (advanceClock s).clockHand →
        clockDist s2 j + 1 = clockDist s j :=
      fun j hj hne => clockDist_step s s2 j hN hj hn hhand (fun h => hne h.symm)
    have hself : clockDist s2 (advanceClock s).clockHand = s.numBufs := by
      rw [← hn]
      exact clockDist_self s2 _ (by rw [hn]; exact hN) (by rw [hn]; exact hlt) hhand
    have hle := clockDist_le s e he
    obtain ⟨s1, h1, h2, h3, h4⟩ := ih s2 (by rw [hn]; exact hN) (by rw [hn]; exact he)
      (by have := hdist e he (fun h => hce h.symm); omega)
      (fun j hj hjm => by
        rw [hn] at hj
        have hne : j ≠ (advanceClock s).clockHand := by
          intro h
          rw [h, hself] at hjm
          omega
        rw [hsame j hne]
        exact hpass j hj (by have := hdist j hj hne; omega))
    refine ⟨s1, fun fuel => ?_, hr.comp h2, h3, fun j hj => ?_⟩
    · rw [show m + 1 + fuel = (m + fuel) + 1 by omega]
      simp only [sweep, hstep]
      exact h1 fuel
    · rw [h4 j (by rw [hn]; exact hj)]
      by_cases hne : j = (advanceClock s).clockHand
      · subst hne
        rw [hself, if_neg (by omega), hrb, if_pos (by rw [clockDist_hand]; omega)]
      · have := hdist j hj hne
        rw [hsame j hne]
        by_cases hc : clockDist s2 j ≤ m
        · rw [if_pos hc, if_pos (by omega)]
        · rw [if_neg hc, if_neg (by omega)]

theorem sweep_stop_invalid (env : FileLayer) (s : BufMgr) (fuel : Nat)
    (hv : (s.bufDescTable (advanceClock s).clockHand).valid = false) :
    sweep env (fuel + 1) s = some ⟨.ok (advanceClock s).clockHand,
      (advanceClock s).setDesc (advanceClock s).clockHand
        (s.bufDescTable (advanceClock s).clockHand).Clear⟩ := by
  simp [sweep, sweepStep, hv]

theorem sweep_stop_evict (env : FileLayer) (s : BufMgr) (fuel : Nat)
    (hv : (s.bufDescTable (advanceClock s).clockHand).valid = true)
    (hr : (s.bufDescTable (advanceClock s).clockHand).refbit = false)
    (hp : (s.bufDescTable (advanceClock s).clockHand).pinCnt = 0) :
    sweep env (fuel + 1) s = some (evict env (advanceClock s)) := by
  simp [sweep, sweepStep, hv, hr, hp]

/-- The clock loop when frame `e` is immediately eligible and the `m` frames
the hand meets before it are not, in a state that satisfies P1 and with the
write-back of `e` succeeding: the loop makes exactly `m + 1` advances and
returns `e`, which it clears after removing its index entry and writing its
page if dirty; the reference bits of the frames passed are clear and nothing
else has changed but the clock hand, which stands on `e`. -/
theorem sweep_select (env : FileLayer) (s : BufMgr) (e m : Nat)
    (hN : s.numBufs < 4294967296) (he : e < s.numBufs) (hP1 : P1 s)
    (hd : clockDist s e = m + 1)
    (hpass : ∀ j, j < s.numBufs → clockDist s j ≤ m →
      (s.bufDescTable j).valid = true ∧
      ((s.bufDescTable j).refbit = true ∨ (s.bufDescTable j).pinCnt ≠ 0))
    (hel : Eligible s e)
    (hw : ∀ f, (s.bufDescTable e).valid = true → (s.bufDescTable e).dirty = true →
      (s.bufDescTable e).file = some f → env.writePage s.calls f (s.bufPool e) = true) :
    ∃ o, (∀ fuel, sweep env (m + (fuel + 1)) s = some o) ∧ sweep env m s = none ∧
      o.res = .ok e ∧ o.st.clockHand = e ∧ o.st.numBufs = s.numBufs ∧
      o.st.bufPool = s.bufPool ∧
      (∀ j, j < s.numBufs → j ≠ e → o.st.bufDescTable j =
        { s.bufDescTable j with
          refbit := if clockDist s j ≤ m then false else (s.bufDescTable j).refbit }) ∧
      o.st.bufDescTable e = (s.bufDescTable e).Clear ∧
      (∀ x, o.st.hashTable x = if s.hashTable x = some e then none else s.hashTable x) ∧
      o.st.calls = s.calls ++
        (if (s.bufDescTable e).valid = true ∧ (s.bufDescTable e).dirty = true then
          [FileCall.writePage ((s.bufDescTable e).file.getD 0) (s.bufPool e)] else []) := by
  obtain ⟨s1, hfuel, hr, hnext, hbits⟩ := sweep_walk env e m s hN he hd hpass
  have hrt : RefOnly s (advanceClock s1) := hr.comp (RefOnly.advance s1)
  obtain ⟨hn, hh, hpool, hcalls, heta⟩ := id hrt
  obtain ⟨hn1, hh1, hpool1, hcalls1, _⟩ := id hr
  have hPt : P1 (advanceClock s1) := hrt.P1 hP1
  obtain ⟨e1, e2, e3, e4, e5, e6⟩ := hrt.fields e
  have hbe : ((advanceClock s1).bufDescTable e).refbit = (s.bufDescTable e).refbit := by
    rw [advanceClock_bufDescTable, hbits e he, if_neg (by omega)]
  have hnone : sweep env m s = none := by
    have := hfuel 0
    simpa [sweep] using this
  have hdj : ∀ j, j < s.numBufs → j ≠ e → (advanceClock s1).bufDescTable j =
      { s.bufDescTable j with
        refbit := if clockDist s j ≤ m then false else (s.bufDescTable j).refbit } := by
    intro j hj _
    rw [heta j, advanceClock_bufDescTable, hbits j hj]
  have hclear : ((advanceClock s1).bufDescTable e).Clear = (s.bufDescTable e).Clear := by
    rw [heta e]
    rfl
  rcases hel with hv | ⟨hv, hrb, hp⟩
  · -- the frame is not valid
    have hv1 : (s1.bufDescTable (advanceClock s1).clockHand).valid = false := by
      rw [hnext, ← advanceClock_bufDescTable, e1]; exact hv
    refine ⟨_, fun fuel => by rw [hfuel, sweep_stop_invalid env s1 fuel hv1], hnone, ?_⟩
    rw [hnext]
    refine ⟨rfl, by simp [hnext], by simp [hn1], by simp [hpool1], fun j hj hje => ?_, ?_,
      fun x => ?_, ?_⟩
    · rw [setDesc_bufDescTable, if_neg hje]
      exact hdj j hj hje
    · rw [setDesc_bufDescTable, if_pos rfl, ← advanceClock_bufDescTable]
      exact hclear
    · rw [setDesc_hashTable, hh]
      by_cases hx : s.hashTable x = some e
      · have := (hP1.1 x.1 x.2 e hx).2.1
        rw [hv] at this
        exact Bool.noConfusion this
      · rw [if_neg hx]
    · rw [setDesc_calls, hcalls, hv]
      simp
  · -- the frame is evicted
    have hv1 : (s1.bufDescTable (advanceClock s1).clockHand).valid = true := by
      rw [hnext, ← advanceClock_bufDescTable, e1]; exact hv
    have hr1 : (s1.bufDescTable (advanceClock s1).clockHand).refbit = false := by
      rw [hnext, ← advanceClock_bufDescTable, hbe]; exact hrb
    have hp1 : (s1.bufDescTable (advanceClock s1).clockHand).pinCnt = 0 := by
      rw [hnext, ← advanceClock_bufDescTable, e4]; exact hp
    have hct : (advanceClock s1).clockHand < (advanceClock s1).numBufs := by
      rw [hnext, hn]; exact he
    obtain ⟨f, hf, hk, hcase⟩ := evict_of_P1 env (advanceClock s1) hPt hct
      (by rw [advanceClock_bufDescTable]; exact hv1)
    rw [hnext] at hf hk hcase
    have hfs : (s.bufDescTable e).file = some f := by rw [← e2]; exact hf
    have hkey := hP1.key_iff he hv hfs
    have hidx : ∀ x, (if x = (f, ((advanceClock s1).bufDescTable e).pageNo) then none
        else (advanceClock s1).hashTable x) =
        if s.hashTable x = some e then none else s.hashTable x := by
      intro x
      rw [e3, hh]
      by_cases hx : x = (f, (s.bufDescTable e).pageNo)
      · rw [if_pos hx, if_pos ((hkey x).2 hx)]
      · rw [if_neg hx, if_neg (fun h => hx ((hkey x).1 h))]
    refine ⟨evict env (advanceClock s1),
      fun fuel => by rw [hfuel, sweep_stop_evict env s1 fuel hv1 hr1 hp1], hnone, ?_⟩
    rcases hcase with ⟨hdirty, ho⟩ | ⟨hdirty, _, ho⟩ | ⟨hdirty, hwf, _⟩
    · rw [ho]
      refine ⟨rfl, rfl, by simp [hn1], by simp [hpool1], fun j hj hje => ?_, ?_,
        fun x => ?_, ?_⟩
      · rw [setDesc_bufDescTable, if_neg hje]
        exact hdj j hj hje
      · rw [setDesc_bufDescTable, if_pos rfl]
        exact hclear
      · rw [setDesc_hashTable]
        exact hidx x
      · rw [setDesc_calls]
        rw [e5] at hdirty
        simp [hdirty, hcalls1]
    · rw [ho]
      refine ⟨rfl, rfl, by simp [hn1], by simp [hpool1], fun j hj hje => ?_, ?_,
        fun x => ?_, ?_⟩
      · rw [setDesc_bufDescTable, if_neg hje]
        exact hdj j hj hje
      · rw [setDesc_bufDescTable, if_pos rfl]
        exact hclear
      · rw [setDesc_hashTable]
        exact hidx x
      · rw [setDesc_calls]
        rw [e5] at hdirty
        simp [hdirty, hcalls1, hpool1, hv, hfs]
    · exfalso
      rw [e5] at hdirty
      rw [hcalls, hpool, hw f hv hdirty hfs] at hwf
      exact Bool.noConfusion hwf

/-! ## C18: selection in clock order -/

/-- Walking from the frame after the clock hand in increasing order modulo
`numBufs`, frame `j` is the one met at advance number `clockDist s j`. -/
theorem clockDist_walk (s : BufMgr) (j : Nat) (hj : j < s.numBufs)
    (hc : s.clockHand + 1 < 4294967296) :
    (advanceClock s).clockHand = (s.clockHand + 1) % s.numBufs ∧
    ((s.clockHand + 1) % s.numBufs + (clockDist s j - 1)) % s.numBufs = j := by
  have hnext : (advanceClock s).clockHand = (s.clockHand + 1) % s.numBufs := by
    show (s.clockHand + 1) % 4294967296 % s.numBufs = _
    rw [Nat.mod_eq_of_lt hc]
  have hlt : (advanceClock s).clockHand < s.numBufs := advanceClock_lt s (by omega)
  refine ⟨hnext, ?_⟩
  rw [← hnext]
  unfold clockDist
  split
  · rename_i h
    rw [show (advanceClock s).clockHand + (j - (advanceClock s).clockHand + 1 - 1) = j by omega]
    exact Nat.mod_eq_of_lt hj
  · rename_i h
    rw [show (advanceClock s).clockHand + (j + s.numBufs - (advanceClock s).clockHand + 1 - 1)
      = j + s.numBufs by omega, Nat.add_mod_right]
    exact Nat.mod_eq_of_lt hj

/-- Says that `allocBuf` returns the first immediately eligible frame in clock order
(see `sweep_select`). -/
theorem allocBuf_select (env : FileLayer) (s : BufMgr) (e m : Nat)
    (hN : s.numBufs < 4294967296) (he : e < s.numBufs) (hP1 : P1 s)
    (hp : (s.bufDescTable e).pinCnt = 0) (hd : clockDist s e = m + 1)
    (hpass : ∀ j, j < s.numBufs → clockDist s j ≤ m →
      (s.bufDescTable j).valid = true ∧
      ((s.bufDescTable j).refbit = true ∨ (s.bufDescTable j).pinCnt ≠ 0))
    (hel : Eligible s e)
    (hw : ∀ f, (s.bufDescTable e).valid = true → (s.bufDescTable e).dirty = true →
      (s.bufDescTable e).file = some f → env.writePage s.calls f (s.bufPool e) = true) :
    ∃ o, allocBuf env s = some o ∧ sweep env (m + 1) s = some o ∧ sweep env m s = none ∧
      o.res = .ok e ∧ o.st.clockHand = e ∧ o.st.numBufs = s.numBufs ∧
      o.st.bufPool = s.bufPool ∧
      (∀ j, j < s.numBufs → j ≠ e → o.st.bufDescTable j =
        { s.bufDescTable j with
          refbit := if clockDist s j ≤ m then false else (s.bufDescTable j).refbit }) ∧
      o.st.bufDescTable e = (s.bufDescTable e).Clear ∧
      (∀ x, o.st.hashTable x = if s.hashTable x = some e then none else s.hashTable x) ∧
      o.st.calls = s.calls ++
        (if (s.bufDescTable e).valid = true ∧ (s.bufDescTable e).dirty = true then
          [FileCall.writePage ((s.bufDescTable e).file.getD 0) (s.bufPool e)] else []) := by
  obtain ⟨o, h1, h2, h3⟩ := sweep_select env s e m hN he hP1 hd hpass hel hw
  have hle := clockDist_le s e he
  refine ⟨o, ?_, h1 0, h2, h3⟩
  unfold allocBuf
  rw [scanPinned_of_unpinned s e he hp]
  have := h1 (2 * s.numBufs - m - 1)
  rw [show m + (2 * s.numBufs - m - 1 + 1) = 2 * s.numBufs by omega] at this
  simpa using this

/-- A miss of `readPage` whose `allocBuf`, file read and index insert succeed. -/
theorem readPage_miss_ok (env : FileLayer) (s : BufMgr) (file pageNo : Nat) (a : Outcome Nat)
    (c : Nat) (pg : Page) (hmiss : s.hashTable (file, pageNo) = none)
    (ha : allocBuf env s = some a) (har : a.res = .ok c)
    (hread : env.readPage a.st.calls file pageNo = some pg)
    (hx : a.st.hashTable (file, pageNo) = none) :
    readPage env s file pageNo = some ⟨.ok c,
      ({ ({ a.st with calls := a.st.calls ++ [FileCall.readPage file pageNo] }).setPage c pg with
          hashTable := fun k => if k = (file, pageNo) then some c else a.st.hashTable k }).setDesc
        c ((a.st.bufDescTable c).Set file pageNo)⟩ := by
  unfold readPage
  simp only [BufHashTbl.lookup, hmiss, ha, har, hread, BufHashTbl.insert, setPage_hashTable, hx]
  rfl

/-- C18 (amended): take a state of fewer than 2^32 frames that satisfies P1
and P2, and let `e` be the first immediately eligible frame (not valid, or
valid with clear reference bit and pin count 0) in clock order, that is, met
when walking from `(clockHand + 1) mod numBufs` in increasing order modulo
`numBufs`; let the write-back of `e` succeed if `e` is dirty. Then `allocBuf`
returns `e`, leaves the clock hand on `e`, clears `e`, leaves the frames walked
over before `e` with their reference bit clear and otherwise as they were,
and leaves the other frames as they were. In particular a freshly constructed
pool of `bufs > 0` frames has clock hand `bufs - 1`, and its first
`readPage(file, p)`, the file's read succeeding, puts the page in frame 0,
with descriptor 0 valid, `pin_count = 1`, `ref_bit = true`, `dirty = false`,
and the index equal to `{(file, p) → 0}`. -/
theorem clock_order (env : FileLayer) (s : BufMgr) (e : Nat)
    (hN : s.numBufs < 4294967296) (he : e < s.numBufs) (hP1 : P1 s) (hP2 : P2 s)
    (hel : Eligible s e)
    (hfirst : ∀ j, j < s.numBufs → Eligible s j → clockDist s e ≤ clockDist s j)
    (hw : ∀ f, (s.bufDescTable e).valid = true → (s.bufDescTable e).dirty = true →
      (s.bufDescTable e).file = some f → env.writePage s.calls f (s.bufPool e) = true) :
    (∃ o, allocBuf env s = some o ∧ o.res = .ok e ∧ o.st.clockHand = e ∧
      o.st.bufDescTable e = (s.bufDescTable e).Clear ∧
      (∀ j, j < s.numBufs → clockDist s j < clockDist s e →
        o.st.bufDescTable j = { s.bufDescTable j with refbit := false }) ∧
      (∀ j, j < s.numBufs → clockDist s e < clockDist s j →
        o.st.bufDescTable j = s.bufDescTable j)) ∧
    (s.clockHand + 1 < 4294967296 → ∀ j, j < s.numBufs →
      ((s.clockHand + 1) % s.numBufs + (clockDist s j - 1)) % s.numBufs = j) ∧
    (∀ (bufs file p : Nat) (pg : Page), 0 < bufs → bufs < 4294967296 →
      env.readPage [] file p = some pg →
      (BufMgr.new bufs).clockHand = bufs - 1 ∧
      ∃ o, readPage env (BufMgr.new bufs) file p = some o ∧ o.res = .ok 0 ∧
        o.st.bufDescTable 0 =
          { file := some file, pageNo := p, frameNo := 0, pinCnt := 1, dirty := false,
            valid := true, refbit := true } ∧
        (∀ x, o.st.hashTable x = if x = (file, p) then some 0 else none) ∧
        o.st.bufPool 0 = pg) := by
  refine ⟨?_, fun hc j hj => (clockDist_walk s j hj hc).2, ?_⟩
  · have hpos := clockDist_pos s e
    obtain ⟨m, hm⟩ : ∃ m, clockDist s e = m + 1 := ⟨clockDist s e - 1, by omega⟩
    have hp : (s.bufDescTable e).pinCnt = 0 := by
      rcases hel with hv | ⟨_, _, hp⟩
      · exact (hP2 e he hv).1
      · exact hp
    have hpass : ∀ j, j < s.numBufs → clockDist s j ≤ m →
        (s.bufDescTable j).valid = true ∧
        ((s.bufDescTable j).refbit = true ∨ (s.bufDescTable j).pinCnt ≠ 0) := by
      intro j hj hjm
      have hne : ¬ Eligible s j := fun h => by
        have := hfirst j hj h
        omega
      unfold Eligible at hne
      cases hv : (s.bufDescTable j).valid with
      | false => exact absurd (Or.inl hv) hne
      | true =>
        refine ⟨rfl, ?_⟩
        cases hr : (s.bufDescTable j).refbit with
        | true => exact Or.inl rfl
        | false => exact Or.inr (fun h0 => hne (Or.inr ⟨hv, hr, h0⟩))
    obtain ⟨o, h1, _, _, h4, h5, _, _, h8, h9, _⟩ :=
      allocBuf_select env s e m hN he hP1 hp hm hpass hel hw
    refine ⟨o, h1, h4, h5, h9, fun j hj hlt => ?_, fun j hj hlt => ?_⟩
    · have hje : j ≠ e := fun h => by rw [h] at hlt; omega
      rw [h8 j hj hje, if_pos (by omega)]
    · have hje : j ≠ e := fun h => by rw [h] at hlt; omega
      rw [h8 j hj hje, if_neg (by omega)]
  · intro bufs file p pg hb0 hb hread
    have hhand : (BufMgr.new bufs).clockHand = bufs - 1 := by
      show (bufs + 4294967295) % 4294967296 = bufs - 1
      omega
    have hnext : (advanceClock (BufMgr.new bufs)).clockHand = 0 := by
      show ((BufMgr.new bufs).clockHand + 1) % 4294967296 % bufs = 0
      rw [hhand, show bufs - 1 + 1 = bufs by omega, Nat.mod_eq_of_lt hb, Nat.mod_self]
    have hd : clockDist (BufMgr.new bufs) 0 = 0 + 1 := by
      unfold clockDist
      rw [hnext]
      simp
    obtain ⟨o, h1, _, _, h4, _, _, _, _, h9, h10, h11⟩ :=
      allocBuf_select env (BufMgr.new bufs) 0 0 hb hb0 (new_P1 bufs) rfl hd
        (fun j _ hj => by
          have := clockDist_pos (BufMgr.new bufs) j
          omega)
        (Or.inl rfl) (fun f hv => by simp [BufMgr.new] at hv)
    have hcalls : o.st.calls = [] := by
      rw [h11]
      simp [BufMgr.new]
    have hidx : ∀ x, o.st.hashTable x = none := by
      intro x
      rw [h10]
      simp [BufMgr.new]
    have hrun := readPage_miss_ok env (BufMgr.new bufs) file p o 0 pg rfl h1 h4
      (by rw [hcalls]; exact hread) (hidx _)
    refine ⟨hhand, _, hrun, rfl, ?_, fun x => ?_, ?_⟩
    · simp only [setDesc_bufDescTable, if_true, h9]
      rfl
    · simp only [setDesc_hashTable, hidx]
    · simp

/-- C18 as stated fails twice. In `orphanPool` the one frame is valid with clear
reference bit and pin count 0, yet `allocBuf` throws `HashNotFoundException`:
the page is not in the index (P1 fails). In `pinnedEmpty` the one frame is not
valid, yet `allocBuf` throws `BufferExceededException`: the frame has a
positive pin count (P2 fails). -/
theorem clock_order_throws :
    0 < orphanPool.numBufs ∧ Eligible orphanPool 0 ∧
    (allocBuf plainFiles orphanPool).map (fun o => o.res) =
      some (.error .HashNotFoundException) ∧
    0 < pinnedEmpty.numBufs ∧ Eligible pinnedEmpty 0 ∧
    (allocBuf plainFiles pinnedEmpty).map (fun o => o.res) =
      some (.error .BufferExceededException) :=
  ⟨by decide, Or.inr ⟨rfl, rfl, rfl⟩, rfl, by decide, Or.inl rfl, rfl⟩

theorem mixedPool_P2 : P2 mixedPool := by
  intro i hi hv
  simp only [mixedPool] at hi hv ⊢
  interval_cases i <;> simp at hv

theorem clock_order_witness :
    ∃ o, allocBuf plainFiles mixedPool = some o ∧ o.res = .ok 2 ∧ o.st.clockHand = 2 ∧
      o.st.bufDescTable 0 = { mixedPool.bufDescTable 0 with refbit := false } :=
  by
    obtain ⟨o, h1, h2, h3, _, h5, _⟩ :=
      (clock_order plainFiles mixedPool 2 (by decide) (by decide) mixedPool_P1 mixedPool_P2
        (Or.inr ⟨rfl, rfl, rfl⟩)
        (fun j hj hel => by
          have h3 : j < 3 := hj
          interval_cases j
          · rcases hel with h | ⟨_, h, _⟩ <;> simp [mixedPool] at h
          · rcases hel with h | ⟨_, h, _⟩ <;> simp [mixedPool] at h
          · exact Nat.le_refl _)
        (fun _ _ _ _ => rfl)).1
    exact ⟨o, h1, h2, h3, h5 0 (by decide) (by decide)⟩

/-! ## C19: second chance -/

/-- C19 (amended): take a state of `0 < N < 2^32` frames that satisfies P1 and
in which every frame is valid, unpinned and has its reference bit set; let `e`
be the frame after the clock hand and let the write-back of `e` succeed if `e`
is dirty. Then the clock loop of `allocBuf` makes exactly `N + 1` advances (it
has not returned after `N`) and `allocBuf` returns `e`: it calls `writePage`
once, for the page of `e`, if `e` was dirty and makes no call otherwise,
removes the index entry of `e` and no other, clears `e` and leaves every other
frame as it was but with its reference bit clear. When the clock hand is in
range, `e` is the frame `(clockHand + 1) mod N`. With 3 frames and pages 10, 11
and 12 each read and unpinned dirty, `readPage(F, 20)` writes one page, page
10, and leaves `(F, 20)` resident. -/
theorem second_chance (env : FileLayer) (s : BufMgr) (hN0 : 0 < s.numBufs)
    (hN : s.numBufs < 4294967296) (hP1 : P1 s)
    (hall : ∀ i, i < s.numBufs → (s.bufDescTable i).valid = true ∧
      (s.bufDescTable i).pinCnt = 0 ∧ (s.bufDescTable i).refbit = true)
    (hw : ∀ f, (s.bufDescTable (advanceClock s).clockHand).dirty = true →
      (s.bufDescTable (advanceClock s).clockHand).file = some f →
      env.writePage s.calls f (s.bufPool (advanceClock s).clockHand) = true) :
    (∃ o, allocBuf env s = some o ∧ sweep env (s.numBufs + 1) s = some o ∧
      sweep env s.numBufs s = none ∧
      o.res = .ok (advanceClock s).clockHand ∧
      o.st.calls = s.calls ++
        (if (s.bufDescTable (advanceClock s).clockHand).dirty = true then
          [FileCall.writePage ((s.bufDescTable (advanceClock s).clockHand).file.getD 0)
            (s.bufPool (advanceClock s).clockHand)] else []) ∧
      (∀ x, o.st.hashTable x =
        if s.hashTable x = some (advanceClock s).clockHand then none else s.hashTable x) ∧
      o.st.bufDescTable (advanceClock s).clockHand =
        (s.bufDescTable (advanceClock s).clockHand).Clear ∧
      (∀ j, j < s.numBufs → j ≠ (advanceClock s).clockHand →
        o.st.bufDescTable j = { s.bufDescTable j with refbit := false })) ∧
    (s.clockHand < s.numBufs →
      (advanceClock s).clockHand = (s.clockHand + 1) % s.numBufs) ∧
    (∃ a b c o, readPage plainFiles (BufMgr.new 3) 1 10 = some a ∧
      readPage plainFiles (unPinPage a.st 1 10 true).st 1 11 = some b ∧
      readPage plainFiles (unPinPage b.st 1 11 true).st 1 12 = some c ∧
      readPage plainFiles (unPinPage c.st 1 12 true).st 1 20 = some o ∧
      o.res = .ok 0 ∧
      o.st.calls = c.st.calls ++ [FileCall.writePage 1 ⟨10, 0⟩, FileCall.readPage 1 20] ∧
      o.st.hashTable (1, 20) = some 0 ∧ (o.st.bufDescTable 0).valid = true ∧
      o.st.hashTable (1, 10) = none) := by
  refine ⟨?_, fun hc => ?_, ⟨_, _, _, _, rfl, rfl, rfl, rfl, rfl, rfl, rfl, rfl, rfl⟩⟩
  · have hlt : (advanceClock s).clockHand < s.numBufs := advanceClock_lt s hN0
    obtain ⟨e, hedef⟩ : ∃ e, (advanceClock s).clockHand = e := ⟨_, rfl⟩
    rw [hedef] at hlt hw ⊢
    obtain ⟨hve, hpe, hre⟩ := hall e hlt
    obtain ⟨s2, hstep, hhand, hr, hrb, hsame⟩ := sweepStep_pass env s
      (by rw [hedef]; exact hve) (Or.inl (by rw [hedef]; exact hre))
    rw [hedef] at hhand hrb hsame
    obtain ⟨hn, hh, hpool, hcalls, _⟩ := id hr
    obtain ⟨e1, e2, e3, e4, e5, e6⟩ := hr.fields e
    have hself : clockDist s2 e = (s.numBufs - 1) + 1 := by
      rw [clockDist_self s2 e (by rw [hn]; exact hN) (by rw [hn]; exact hlt) hhand, hn]
      omega
    have hdist : ∀ j, j < s.numBufs → j ≠ e → clockDist s2 j ≤ s.numBufs - 1 := by
      intro j hj hje
      have h1 := clockDist_step s s2 j hN hj hn (by rw [hhand, hedef])
        (by rw [hedef]; exact fun h => hje h.symm)
      have h2 := clockDist_le s j hj
      omega
    obtain ⟨o, h1, h2, h3, h4, h5, h6, h7, h8, h9, h10, h11⟩ :=
      allocBuf_select env s2 e (s.numBufs - 1) (by rw [hn]; exact hN) (by rw [hn]; exact hlt)
        (hr.P1 hP1) (by rw [e4]; exact hpe) hself
        (fun j hj hjm => by
          rw [hn] at hj
          have hje : j ≠ e := fun h => by
            rw [h, hself] at hjm
            omega
          rw [hsame j hje]
          exact ⟨(hall j hj).1, Or.inl (hall j hj).2.2⟩)
        (Or.inr ⟨by rw [e1]; exact hve, hrb, by rw [e4]; exact hpe⟩)
        (fun f _ hd hf => by
          rw [hcalls, hpool]
          exact hw f (by rw [← e5]; exact hd) (by rw [← e2]; exact hf))
    have hrun : sweep env (s.numBufs + 1) s = some o := by
      simp only [sweep, hstep]
      rw [show s.numBufs = s.numBufs - 1 + 1 by omega]
      exact h2
    have hnot : sweep env s.numBufs s = none := by
      rw [show s.numBufs = s.numBufs - 1 + 1 by omega]
      simp only [sweep, hstep]
      simpa using h3
    have halloc : allocBuf env s = some o := by
      unfold allocBuf
      rw [scanPinned_of_unpinned s e hlt hpe]
      simpa using sweep_mono env (s.numBufs + 1) s o (2 * s.numBufs) hrun (by omega)
    refine ⟨o, halloc, hrun, hnot, h4, ?_, fun x => ?_, ?_, fun j hj hje => ?_⟩
    · rw [h11, hcalls, hpool, e1, e2, e5, hve]
      simp
    · rw [h10, hh]
    · rw [h9]
      simp only [BufDesc.Clear, e6]
    · rw [hn] at h8
      rw [h8 j hj hje, if_pos (hdist j hj hje), hsame j hje]
  · have h1 : (s.clockHand + 1) % 4294967296 = s.clockHand + 1 :=
      Nat.mod_eq_of_lt (by omega)
    show (s.clockHand + 1) % 4294967296 % s.numBufs = _
    rw [h1]

/-- C19 as stated fails: the one frame of `orphanRef` is valid, unpinned and
has its reference bit set, yet `allocBuf` evicts nothing: it throws
`HashNotFoundException`, the page not being in the index. -/
theorem second_chance_throws :
    0 < orphanRef.numBufs ∧
    (∀ i, i < orphanRef.numBufs → (orphanRef.bufDescTable i).valid = true ∧
      (orphanRef.bufDescTable i).pinCnt = 0 ∧ (orphanRef.bufDescTable i).refbit = true) ∧
    (allocBuf plainFiles orphanRef).map (fun o => o.res) =
      some (.error .HashNotFoundException) :=
  ⟨by decide, fun _ _ => ⟨rfl, rfl, rfl⟩, rfl⟩

theorem warmPool_P1 : P1 warmPool := by
  refine ⟨fun f p i h => ?_, fun i hi hv => ?_⟩
  · simp only [warmPool] at h ⊢
    split_ifs at h with h1 h2 <;> simp only [Prod.mk.injEq] at * <;>
      simp only [Option.some.injEq] at h <;> subst h <;> simp [*]
  · simp only [warmPool] at hi hv ⊢
    interval_cases i
    · exact ⟨1, by simp⟩
    · exact ⟨1, by simp⟩

theorem second_chance_witness :
    ∃ o, allocBuf plainFiles warmPool = some o ∧ sweep plainFiles 3 warmPool = some o ∧
      sweep plainFiles 2 warmPool = none ∧ o.res = .ok 0 ∧
      o.st.calls = [FileCall.writePage 1 ⟨10, 5⟩] :=
  by
    obtain ⟨o, h1, h2, h3, h4, h5, _⟩ :=
      (second_chance plainFiles warmPool (by decide) (by decide) warmPool_P1
        (fun i hi => by
          have h2 : i < 2 := hi
          interval_cases i
          · exact ⟨rfl, rfl, rfl⟩
          · exact ⟨rfl, rfl, rfl⟩)
        (fun _ _ _ => rfl)).1
    exact ⟨o, h1, h2, h3, h4, h5⟩

theorem reachable_P2_witness :
    ∃ s, Reachable plainFiles s ∧ s.numBufs = 3 ∧ (s.bufDescTable 0).valid = true ∧
      (s.bufDescTable 1).valid = false ∧ (s.bufDescTable 1).pinCnt = 0 ∧
      (s.bufDescTable 1).dirty = false :=
  have hr : Reachable plainFiles
      (((Op.readPage 1 10).run plainFiles (BufMgr.new 3)).get rfl) :=
    Reachable.step _ _ (Op.readPage 1 10) (Reachable.fresh 3) (Option.some_get _).symm
  have h := (reachable_P2 plainFiles _ 1 hr (by decide)).1 rfl
  ⟨_, hr, rfl, rfl, rfl, h.1, h.2⟩

end badgerdb
